import Mathlib

/-!
Verification of the lpo presolve engine (psf.go and the CplexSolveProb
driver).  The Go package globals Rows, Cols, Elems, ObjRow and psOpList are
gathered into a `Store` record; every mutating Go function becomes a function
`... → Store → Except String (… × Store)` (or `Store → Store` when the Go
function cannot fail).  Go float64 is embedded as ℚ; the code only ever
combines bounds with +, -, *, / and compares them against the sentinel
Plinfy, so exact rational arithmetic is faithful for the properties below.
Go ints that are used as indices are embedded as Nat where the source value
is always non-negative, and as Int where -1 is used as a sentinel
(updatePsList, ObjRow).
-/

set_option linter.unusedVariables false
set_option maxRecDepth 100000

namespace Lpo

/-- Lifecycle state of a row or column.  The constants stateActive,
stateLocked and stateDelete are declared in the package file that is not
under src/, but the state machine has exactly these three values
(spec 4.7, and usage throughout psf.go). -/
inductive LpState where
  | active : LpState
  | locked : LpState
  | delete : LpState
deriving DecidableEq

def stateActive : LpState := LpState.active
def stateLocked : LpState := LpState.locked
def stateDelete : LpState := LpState.delete

/-- Modelled from the spec: the "plus infinity" sentinel `Plinfy` declared in
the package file missing from src/.  psf.go only ever compares values against
`Plinfy` and `-Plinfy` for equality before doing bound arithmetic, so any
huge positive constant is a faithful embedding of the sentinel. -/
def Plinfy : ℚ := 100000000000000000000

/-!
Rational arithmetic in kernel-computable form.  Mathlib's `Rat.add`,
`Rat.sub`, `Rat.mul` and `Rat.div` are marked irreducible, which leaves the
definitional evaluator unable to run the embedded interpreter on concrete
stores.  The four wrappers below are the same operations written through
`mkRat`/`Rat.divInt` (which do reduce); the lemmas `qAdd_eq`, `qSub_eq`,
`qMul_eq`, `qDiv_eq` in the theorem section prove each of them equal to the
corresponding standard operation, so every algebraic statement about the
embedding can be read with ordinary +, -, *, / (note `qDiv x 0 = 0 = x / 0`,
the usual total-division convention; the source guards every division
against a zero divisor). -/

def qAdd (a b : ℚ) : ℚ := mkRat (a.num * b.den + b.num * a.den) (a.den * b.den)

def qSub (a b : ℚ) : ℚ := mkRat (a.num * b.den - b.num * a.den) (a.den * b.den)

def qMul (a b : ℚ) : ℚ := mkRat (a.num * b.num) (a.den * b.den)

def qDiv (a b : ℚ) : ℚ := Rat.divInt (a.num * b.den) (a.den * b.num)

/-- Element of the sparse matrix (lpo InputElem): row index, column index,
coefficient value. -/
structure InputElem where
  InRow : Nat
  InCol : Nat
  Value : ℚ
deriving DecidableEq

/-- Row of the model (lpo InputRow).  The Go field `Type` is renamed `Typ`
because `Type` is a Lean keyword. -/
structure InputRow where
  Name : String
  Typ : String
  RHSlo : ℚ
  RHSup : ℚ
  ScaleFactor : ℚ
  State : LpState
  HasElems : List Nat
deriving DecidableEq

/-- Column of the model (lpo InputCol). -/
structure InputCol where
  Name : String
  Typ : String
  BndLo : ℚ
  BndUp : ℚ
  ScaleFactor : ℚ
  State : LpState
  HasElems : List Nat
deriving DecidableEq

/-- psf.go psCoef: one (variable name, coefficient) pair of a ledger row. -/
structure psCoef where
  Name : String
  Value : ℚ
deriving DecidableEq

/-- psf.go psRow: the by-value copy of a removed row kept in the ledger. -/
structure psRow where
  Name : String
  Typ : String
  Rhs : ℚ
  ScaleFactor : ℚ
  Coef : List psCoef
deriving DecidableEq

/-- psf.go psCol: the by-value copy of a removed column kept in the ledger. -/
structure psCol where
  Name : String
  Typ : String
  BndLo : ℚ
  BndUp : ℚ
  ScaleFactor : ℚ
deriving DecidableEq

/-- psf.go psOp: one entry of the post-solve ledger.  In Go the Col and Row
fields are value structs that stay zero-initialized when the operation did
not remove a column resp. a row. -/
structure psOp where
  OpType : String
  Col : psCol
  Row : psRow
deriving DecidableEq

/-- Zero value of psCol (Go zero struct). -/
def zeroPsCol : psCol := ⟨"", "", 0, 0, 0⟩

/-- Zero value of psRow (Go zero struct). -/
def zeroPsRow : psRow := ⟨"", "", 0, 0, []⟩

/-- The Go package globals Rows, Cols, Elems, ObjRow and psOpList as one
state record. -/
structure Store where
  Rows : List InputRow
  Cols : List InputCol
  Elems : List InputElem
  ObjRow : Int
  psOpList : List psOp
deriving DecidableEq

/-- Out-of-range reads: Go would panic on an out-of-range slice index; the
embedding returns these dummies instead.  Every theorem below is proved on
stores (or concrete inputs) where all indexing is in range, so the two
behaviours never differ where it matters. -/
def dummyRow : InputRow := ⟨"", "", 0, 0, 0, stateActive, []⟩

def dummyCol : InputCol := ⟨"", "", 0, 0, 0, stateActive, []⟩

def dummyElem : InputElem := ⟨0, 0, 0⟩

def Store.row (S : Store) (i : Nat) : InputRow := S.Rows.getD i dummyRow

def Store.col (S : Store) (j : Nat) : InputCol := S.Cols.getD j dummyCol

def Store.elem (S : Store) (k : Nat) : InputElem := S.Elems.getD k dummyElem

/-- Write Rows[i] (no-op out of range, where Go would panic). -/
def Store.setRow (S : Store) (i : Nat) (r : InputRow) : Store :=
  { S with Rows := S.Rows.set i r }

def Store.setCol (S : Store) (j : Nat) (c : InputCol) : Store :=
  { S with Cols := S.Cols.set j c }

def Store.setElem (S : Store) (k : Nat) (e : InputElem) : Store :=
  { S with Elems := S.Elems.set k e }

/-- In-place update of a single row, the shape of every Go write
`Rows[i].Field = …`. -/
def Store.updRow (S : Store) (i : Nat) (f : InputRow → InputRow) : Store :=
  S.setRow i (f (S.row i))

def Store.updCol (S : Store) (j : Nat) (f : InputCol → InputCol) : Store :=
  S.setCol j (f (S.col j))

def Store.updElem (S : Store) (k : Nat) (f : InputElem → InputElem) : Store :=
  S.setElem k (f (S.elem k))

/-- The fix-up loops of DelRow/DelCol: scan a HasElems list for the first
entry equal to `a`, overwrite it with `b`, and break. -/
def replaceFirst : List Nat → Nat → Nat → List Nat
  | [], _, _ => []
  | x :: xs, a, b => if x = a then b :: xs else x :: replaceFirst xs a b

/-- psf.go swapRows: swap the rows at the two indices and re-point the
InRow back-references of every element listed by either row. -/
def swapRows (srcIndex destIndex : Nat) (S : Store) : Except String Store :=
  if S.Rows.length ≤ srcIndex then .error "Source index out of range in swapRows"
  else if S.Rows.length ≤ destIndex then .error "Dest. index out of range in swapRows"
  else
    let S1 := (S.row srcIndex).HasElems.foldl
      (fun T k => T.updElem k (fun e => { e with InRow := destIndex })) S
    let S2 := (S1.row destIndex).HasElems.foldl
      (fun T k => T.updElem k (fun e => { e with InRow := srcIndex })) S1
    let rs := S2.row srcIndex
    let rd := S2.row destIndex
    .ok ((S2.setRow destIndex rs).setRow srcIndex rd)

/-- psf.go swapCols, the column analogue of swapRows. -/
def swapCols (srcIndex destIndex : Nat) (S : Store) : Except String Store :=
  if S.Cols.length ≤ srcIndex then .error "Source index out of range in swapCols"
  else if S.Cols.length ≤ destIndex then .error "Destination index out of range in swapCols"
  else
    let S1 := (S.col srcIndex).HasElems.foldl
      (fun T k => T.updElem k (fun e => { e with InCol := destIndex })) S
    let S2 := (S1.col destIndex).HasElems.foldl
      (fun T k => T.updElem k (fun e => { e with InCol := srcIndex })) S1
    let cs := S2.col srcIndex
    let cd := S2.col destIndex
    .ok ((S2.setCol destIndex cs).setCol srcIndex cd)

/-- Body of the element-migration loop of DelRow, for loop index `i`.
In the Go source the loop reads `iCurElem = elemList[i]` where the local
slice `elemList` was assigned `Rows[lastRow].HasElems`; a Go slice
assignment copies the header only, the backing array is shared, and during
the loop the row lists are mutated only by in-place single-entry writes
(the replaceFirst fix-ups), never reallocated.  `elemList` therefore stays
identical to the current `Rows[lastRow].HasElems`, which is what the
embedding reads.  `iLastElem` starts at len(Elems)-1 and is decremented once
per iteration, and len(Elems) does not change during the loop, so at
iteration `i` it equals the current len(Elems) - 1 - i. -/
def delRowStep (lastRow : Nat) (S : Store) (i : Nat) : Store :=
  let iLastElem := S.Elems.length - 1 - i
  let iCurElem := (S.row lastRow).HasElems.getD i 0
  let c := (S.elem iCurElem).InCol
  let S1 := S.updCol c (fun col => { col with HasElems := col.HasElems.filter (fun x => x ≠ iCurElem) })
  let r2 := (S1.elem iLastElem).InRow
  let S2 := S1.updRow r2 (fun row => { row with HasElems := replaceFirst row.HasElems iLastElem iCurElem })
  let c3 := (S2.elem iLastElem).InCol
  let S3 := S2.updCol c3 (fun col => { col with HasElems := replaceFirst col.HasElems iLastElem iCurElem })
  let eLast := S3.elem iLastElem
  let eCur := S3.elem iCurElem
  (S3.setElem iLastElem eCur).setElem iCurElem eLast

/-- psf.go DelRow: swap the row to the end, migrate its elements to the end
of Elems fixing up the back-references, then truncate Elems and Rows. -/
def DelRow (srcRow : Nat) (S : Store) : Except String Store :=
  let lastRow := S.Rows.length - 1
  if S.Rows.length = 0 ∨ lastRow < srcRow then .error "Row index out of range"
  else
    match (if srcRow ≠ lastRow then swapRows srcRow lastRow S else .ok S) with
    | .error e => .error e
    | .ok S0 =>
      let n := (S0.row lastRow).HasElems.length
      let S1 := (List.range n).foldl (delRowStep lastRow) S0
      .ok { S1 with Elems := S1.Elems.take (S1.Elems.length - n),
                    Rows := S1.Rows.dropLast }

/-- Body of the element-migration loop of DelCol, for loop index `i`
(same aliasing considerations as delRowStep, with the roles of rows and
columns exchanged). -/
def delColStep (lastCol : Nat) (S : Store) (i : Nat) : Store :=
  let iLastElem := S.Elems.length - 1 - i
  let iCurElem := (S.col lastCol).HasElems.getD i 0
  let r := (S.elem iCurElem).InRow
  let S1 := S.updRow r (fun row => { row with HasElems := row.HasElems.filter (fun x => x ≠ iCurElem) })
  let r2 := (S1.elem iLastElem).InRow
  let S2 := S1.updRow r2 (fun row => { row with HasElems := replaceFirst row.HasElems iLastElem iCurElem })
  let c3 := (S2.elem iLastElem).InCol
  let S3 := S2.updCol c3 (fun col => { col with HasElems := replaceFirst col.HasElems iLastElem iCurElem })
  let eLast := S3.elem iLastElem
  let eCur := S3.elem iCurElem
  (S3.setElem iLastElem eCur).setElem iCurElem eLast

/-- psf.go DelCol, the column analogue of DelRow. -/
def DelCol (srcCol : Nat) (S : Store) : Except String Store :=
  let lastCol := S.Cols.length - 1
  if S.Cols.length = 0 ∨ lastCol < srcCol then .error "Column index out of range"
  else
    match (if srcCol ≠ lastCol then swapCols srcCol lastCol S else .ok S) with
    | .error e => .error e
    | .ok S0 =>
      let n := (S0.col lastCol).HasElems.length
      let S1 := (List.range n).foldl (delColStep lastCol) S0
      .ok { S1 with Elems := S1.Elems.take (S1.Elems.length - n),
                    Cols := S1.Cols.dropLast }

/-- psf.go delTaggedRows: scan Rows from the end towards the front and call
DelRow on every delete-tagged row.  The first argument is the loop index
plus one; the last is the running count of deletions. -/
def delTaggedRowsAux : Nat → Store → Nat → Except String (Store × Nat)
  | 0, S, n => .ok (S, n)
  | i + 1, S, n =>
    if (S.row i).State = stateDelete then
      match DelRow i S with
      | .error e => .error e
      | .ok S1 => delTaggedRowsAux i S1 (n + 1)
    else delTaggedRowsAux i S n

def delTaggedRows (S : Store) : Except String (Store × Nat) :=
  delTaggedRowsAux S.Rows.length S 0

/-- psf.go delTaggedCols (which re-initializes the caller's counter to 0
itself, hence also returning a count that starts from 0). -/
def delTaggedColsAux : Nat → Store → Nat → Except String (Store × Nat)
  | 0, S, n => .ok (S, n)
  | i + 1, S, n =>
    if (S.col i).State = stateDelete then
      match DelCol i S with
      | .error e => .error e
      | .ok S1 => delTaggedColsAux i S1 (n + 1)
    else delTaggedColsAux i S n

def delTaggedCols (S : Store) : Except String (Store × Nat) :=
  delTaggedColsAux S.Cols.length S 0

/-! Ledger (post-solve operation list) construction. -/

def psopFreeCol : String := "FCS"

def psopFixedVar : String := "FXV"

def psopRowSingltn : String := "RSG"

def psopNbRow : String := "NBR"

def psopEmptyCol : String := "MTC"

def psopEmptyRow : String := "MTR"

def psVarStatNA : String := "NA"

def psConStatNA : String := "NA"

/-- psf.go translateRow: copy a live row into the index-free psRow format,
resolving each element to a (column name, value) pair.  The Go function can
only return nil, so the embedding is pure. -/
def translateRow (S : Store) (oldRow : InputRow) : psRow :=
  { Name := oldRow.Name
    Typ := oldRow.Typ
    ScaleFactor := oldRow.ScaleFactor
    Rhs := match oldRow.Typ with
           | "G" | "E" | "N" => oldRow.RHSlo
           | "L" => oldRow.RHSup
           | _ => 0
    Coef := oldRow.HasElems.map
      (fun k => ⟨(S.col (S.elem k).InCol).Name, (S.elem k).Value⟩) }

/-- psf.go updatePsList: append one entry to the ledger, capturing the column
at colIndex and/or the row at rowIndex by value (a -1 index means the
operation did not remove that kind of item; the Go zero structs remain). -/
def updatePsList (opType : String) (rowIndex colIndex : Int) (S : Store) : Store :=
  let colPart :=
    if 0 ≤ colIndex ∧ colIndex < (S.Cols.length : Int) then
      let c := S.col colIndex.toNat
      (⟨c.Name, c.Typ, c.BndLo, c.BndUp, c.ScaleFactor⟩ : psCol)
    else zeroPsCol
  let rowPart :=
    if 0 ≤ rowIndex ∧ rowIndex < (S.Rows.length : Int) then
      translateRow S (S.row rowIndex.toNat)
    else zeroPsRow
  { S with psOpList := S.psOpList ++ [⟨opType, colPart, rowPart⟩] }

/-! Reduction kernels. -/

/-- psf.go delNbRows: tag every still-active row of type N for deletion with
an NBR ledger entry, then delete the tagged rows. -/
def delNbRows (S : Store) : Except String (Nat × Store) :=
  let S1 := (List.range S.Rows.length).foldl (fun T i =>
    if (T.row i).State ≠ stateActive then T
    else if (T.row i).Typ = "N" then
      updatePsList psopNbRow (Int.ofNat i) (-1)
        (T.updRow i (fun r => { r with State := stateDelete }))
    else T) S
  match delTaggedRows S1 with
  | .error e => .error e
  | .ok (S2, numDltd) => .ok (numDltd, S2)

/-- psf.go delEmptyRows: tag every still-active row with no elements for
deletion with an MTR ledger entry (the bound-sanity warnings are log output
only), then delete the tagged rows. -/
def delEmptyRows (S : Store) : Except String (Nat × Store) :=
  let S1 := (List.range S.Rows.length).foldl (fun T i =>
    if 0 < (T.row i).HasElems.length ∨ (T.row i).State ≠ stateActive then T
    else
      updatePsList psopEmptyRow (Int.ofNat i) (-1)
        (T.updRow i (fun r => { r with State := stateDelete }))) S
  match delTaggedRows S1 with
  | .error e => .error e
  | .ok (S2, numDltd) => .ok (numDltd, S2)

/-- psf.go delEmptyCols: the column analogue of delEmptyRows (kind MTC). -/
def delEmptyCols (S : Store) : Except String (Nat × Store) :=
  let S1 := (List.range S.Cols.length).foldl (fun T i =>
    if 0 < (T.col i).HasElems.length ∨ (T.col i).State ≠ stateActive then T
    else
      updatePsList psopEmptyCol (-1) (Int.ofNat i)
        (T.updCol i (fun c => { c with State := stateDelete }))) S
  match delTaggedCols S1 with
  | .error e => .error e
  | .ok (S2, numDltd) => .ok (numDltd, S2)

/-- The guarded RHS update pair shared by delFixedVars and delRowSingletons:
subtract amtLo from RHSlo of row r unless that side is -Plinfy, then subtract
amtUp from RHSup unless that side is Plinfy (the second guard reads the row
as left by the first write, exactly as the Go code re-reads Rows[index]). -/
def adjustRowRhs (U : Store) (r : Nat) (amtLo amtUp : ℚ) : Store :=
  let U1 := if (U.row r).RHSlo ≠ -Plinfy then
      U.updRow r (fun row => { row with RHSlo := qSub row.RHSlo amtLo })
    else U
  if (U1.row r).RHSup ≠ Plinfy then
    U1.updRow r (fun row => { row with RHSup := qSub row.RHSup amtUp })
  else U1

/-- Body of delFixedVars for one fixed column i: tag the column, append the
FXV ledger entry, then walk the column's element list subtracting BndLo*coef
resp. BndUp*coef from the finite RHS sides of each host row. -/
def dfvProcess (T : Store) (i : Nat) : Store :=
  let T1 := updatePsList psopFixedVar (-1) (Int.ofNat i)
    (T.updCol i (fun c => { c with State := stateDelete }))
  (T1.col i).HasElems.foldl (fun U k =>
    adjustRowRhs U ((U.elem k).InRow)
      (qMul (U.col i).BndLo (U.elem k).Value) (qMul (U.col i).BndUp (U.elem k).Value)) T1

/-- psf.go delFixedVars: for every active column whose bounds coincide, tag
it (FXV ledger entry) and subtract its fixed value times its coefficient
from every finite RHS side of every row in which it appears; then delete the
tagged columns. -/
def delFixedVars (S : Store) : Except String (Nat × Store) :=
  let S1 := (List.range S.Cols.length).foldl (fun T i =>
    if (T.col i).State ≠ stateActive then T
    else if (T.col i).BndLo ≠ (T.col i).BndUp then T
    else dfvProcess T i) S
  match delTaggedCols S1 with
  | .error e => .error e
  | .ok (S2, numDltd) => .ok (numDltd, S2)

/-- psf.go delFreeColSingls: a column with exactly one element, bounds from
-Plinfy to Plinfy, whose sole occurrence is not in the objective row, is
tagged together with its host row (FCS ledger entry); afterwards the tagged
rows are deleted, then the tagged columns.  Note the scan applies no state
test to the column or the row. -/
def delFreeColSingls (S : Store) : Except String (Nat × Store) :=
  let S1 := (List.range S.Cols.length).foldl (fun T i =>
    if (T.col i).HasElems.length ≠ 1 then T
    else if (T.col i).BndLo ≠ -Plinfy ∨ (T.col i).BndUp ≠ Plinfy then T
    else
      let rowIndex := (T.elem ((T.col i).HasElems.getD 0 0)).InRow
      if (Int.ofNat rowIndex) = T.ObjRow then T
      else
        updatePsList psopFreeCol (Int.ofNat rowIndex) (Int.ofNat i)
          ((T.updCol i (fun c => { c with State := stateDelete })).updRow rowIndex
            (fun r => { r with State := stateDelete }))) S
  match delTaggedRows S1 with
  | .error e => .error e
  | .ok (S2, rowsFound) =>
    match delTaggedCols S2 with
    | .error e => .error e
    | .ok (S3, colsFound) => .ok (rowsFound + colsFound, S3)

/-- Body of delRowSingletons for one triggered singleton row i (reached only
with row type "E" thanks to the `continue` on inequalities, and with a
nonzero coefficient): pin the variable's bounds per the row-type switch,
subtract newBound*coef from each finite RHS side of every other row in which
the column occurs, tag the row and the column, and append the RSG ledger
entry.  The switch is embedded in full even though only its "E" branch is
reachable here; the wildcard branches are likewise unreachable. -/
def drsProcess (S : Store) (i : Nat) : Store :=
  let colIndex := (S.elem ((S.row i).HasElems.getD 0 0)).InCol
  let coef := (S.elem ((S.row i).HasElems.getD 0 0)).Value
  let newBound :=
    match (S.row i).Typ with
    | "G" => qDiv (S.row i).RHSlo coef
    | "L" => qDiv (S.row i).RHSup coef
    | "E" | "N" => qDiv (S.row i).RHSlo coef
    | _ => 0
  let S1 :=
    match (S.row i).Typ with
    | "G" => S.updCol colIndex (fun c => { c with BndLo := newBound })
    | "L" => S.updCol colIndex (fun c => { c with BndUp := newBound })
    | "E" | "N" => S.updCol colIndex
        (fun c => { c with BndLo := newBound, BndUp := newBound })
    | _ => S
  let S2 := (S1.col colIndex).HasElems.foldl (fun U k =>
    if i = (U.elem k).InRow then U
    else adjustRowRhs U ((U.elem k).InRow)
      (qMul newBound (U.elem k).Value) (qMul newBound (U.elem k).Value)) S1
  updatePsList psopRowSingltn (Int.ofNat i) (Int.ofNat colIndex)
    ((S2.updRow i (fun r => { r with State := stateDelete })).updCol colIndex
      (fun c => { c with State := stateDelete }))

/-- Scan loop of psf.go delRowSingletons over the listed row indices.
`Sum.inl` is the early `return nil` taken when a singleton row's coefficient
is zero (the Go code logs the error and returns the nil error with the store
as mutated so far); `Sum.inr` is normal completion. -/
def drsScan : List Nat → Store → Store ⊕ Store
  | [], S => .inr S
  | i :: rest, S =>
    if (S.row i).State ≠ stateActive then drsScan rest S
    else if (S.row i).HasElems.length = 1 then
      if (S.row i).Typ ≠ "E" then drsScan rest S
      else if (S.elem ((S.row i).HasElems.getD 0 0)).Value = 0 then .inl S
      else drsScan rest (drsProcess S i)
    else drsScan rest S

/-- psf.go delRowSingletons: process every active singleton equality row,
pinning its variable and adjusting every other row's finite RHS sides, then
delete the tagged rows and columns.  The zero-coefficient early return
yields success with zero deletions (numDltd was initialized to 0 and the
epilogue never runs). -/
def delRowSingletons (S : Store) : Except String (Nat × Store) :=
  match drsScan (List.range S.Rows.length) S with
  | .inl S1 => .ok (0, S1)
  | .inr S1 =>
    match delTaggedRows S1 with
    | .error e => .error e
    | .ok (S2, rowsFound) =>
      match delTaggedCols S2 with
      | .error e => .error e
      | .ok (S3, colsFound) => .ok (rowsFound + colsFound, S3)

/-! The reduction driver. -/

/-- psf.go PsCtrl (the file-path fields play no role in ReduceMatrix). -/
structure PsCtrl where
  FileInMps : String := ""
  FileOutSoln : String := ""
  FileOutMpsRdcd : String := ""
  FileOutPsop : String := ""
  MaxIter : Int := 0
  DelRowNonbinding : Bool := false
  DelRowSingleton : Bool := false
  DelColSingleton : Bool := false
  DelFixedVars : Bool := false
  RunSolver : Bool := false

/-- One sweep of the ReduceMatrix loop body.  `tighten` stands for
TightenBounds, whose definition lives in the package file that is not under
src/; it is invoked only when DelRowNonbinding is set.  The returned count
is itemsInPass; exactly as in the source, the count returned by
delEmptyRows is overwritten by the delEmptyCols count before it is ever
added to itemsInPass. -/
def reduceSweep (tighten : Store → Except String Store) (ctrl : PsCtrl) (S0 : Store) :
    Except String (Nat × Store) := do
  let (items1, S1) ←
    if ctrl.DelRowNonbinding then do
      let T ← tighten S0
      delNbRows T
    else pure (0, S0)
  let (items2, S2) ←
    if ctrl.DelFixedVars || ctrl.DelRowNonbinding then delFixedVars S1
    else pure (0, S1)
  let (items3, S3) ←
    if ctrl.DelRowSingleton then delRowSingletons S2 else pure (0, S2)
  let (items4, S4) ←
    if ctrl.DelColSingleton then delFreeColSingls S3 else pure (0, S3)
  let (_itemsEmptyRows, S5) ← delEmptyRows S4
  let (itemsEmptyCols, S6) ← delEmptyCols S5
  pure (items1 + items2 + items3 + items4 + itemsEmptyCols, S6)

def ReduceMatrixAux (tighten : Store → Except String Store) (ctrl : PsCtrl) :
    Nat → Nat → Store → Except String (Nat × Store)
  | 0, done, S => .ok (done, S)
  | fuel + 1, done, S =>
    match reduceSweep tighten ctrl S with
    | .error e => .error e
    | .ok (itemsInPass, S1) =>
      if itemsInPass = 0 then .ok (done + 1, S1)
      else ReduceMatrixAux tighten ctrl fuel (done + 1) S1

/-- psf.go ReduceMatrix: up to MaxIter sweeps, stopping early when a sweep
reports itemsInPass = 0.  Besides the final store the embedding returns the
number of sweeps executed (the loop counter the Go function reports in its
final log line); this extra component is observability only. -/
def ReduceMatrix (tighten : Store → Except String Store) (ctrl : PsCtrl) (S : Store) :
    Except String (Nat × Store) :=
  ReduceMatrixAux tighten ctrl ctrl.MaxIter.toNat 0 S

/-! Post-solve: solution maps and the reverse ledger walk. -/

/-- One entry of PsResConMap (Go map value struct). -/
structure PsConRec where
  Status : String
  Typ : String
  Rhs : ℚ
  ScaleFactor : ℚ
  Pi : ℚ
  Slack : ℚ
  Dual : ℚ
deriving DecidableEq

/-- One entry of PsResVarMap (Go map value struct). -/
structure PsVarRec where
  Status : String
  Value : ℚ
  ScaleFactor : ℚ
  ReducedCost : ℚ
deriving DecidableEq

/-- Go maps keyed by name, embedded as association lists; `alSet` is the Go
map assignment m[k] = v (replace the binding or append a new one) and
`alGet` the comma-ok lookup. -/
def alGet {α : Type} (m : List (String × α)) (k : String) : Option α :=
  match m with
  | [] => none
  | (k1, v) :: rest => if k1 = k then some v else alGet rest k

def alSet {α : Type} (m : List (String × α)) (k : String) (v : α) : List (String × α) :=
  match m with
  | [] => [(k, v)]
  | (k1, v1) :: rest => if k1 = k then (k, v) :: rest else (k1, v1) :: alSet rest k v

abbrev PsResConMap := List (String × PsConRec)

abbrev PsResVarMap := List (String × PsVarRec)

/-- The single pass of the FreeCol branch of postSolve over the captured
coefficient list: entries named like the eliminated column set `coef`
(without breaking, so a later occurrence wins), every other entry must be in
the solved-variable map and contributes value*coefficient to `lhs`. -/
def fcScan (colName : String) :
    List psCoef → PsResVarMap → ℚ → ℚ → Except String (ℚ × ℚ)
  | [], _, lhs, coef => .ok (lhs, coef)
  | c :: rest, vm, lhs, coef =>
    if c.Name = colName then fcScan colName rest vm lhs c.Value
    else
      match alGet vm c.Name with
      | none => .error ("postSolve unable to find value for " ++ c.Name)
      | some v => fcScan colName rest vm (qAdd lhs (qMul v.Value c.Value)) coef

/-- The RowSingleton branch's coefficient search: first entry named like the
captured column wins (the Go loop breaks), 0 if there is none. -/
def firstCoefVal (colName : String) : List psCoef → ℚ
  | [] => 0
  | c :: rest => if c.Name = colName then c.Value else firstCoefVal colName rest

/-- One iteration of the reverse walk of psf.go postSolve, processing a
single ledger entry against the constraint and variable maps. -/
def postSolveStep (op : psOp) (pscMap : PsResConMap) (solvedVarMap : PsResVarMap) :
    Except String (PsResConMap × PsResVarMap) :=
  if op.OpType = psopEmptyRow ∨ op.OpType = psopNbRow then
    .ok (pscMap, solvedVarMap)
  else if op.OpType = psopFixedVar then
    .ok (pscMap, alSet solvedVarMap op.Col.Name
      { Status := psVarStatNA, Value := op.Col.BndLo,
        ScaleFactor := op.Col.ScaleFactor, ReducedCost := 0 })
  else if op.OpType = psopEmptyCol then
    .ok (pscMap, alSet solvedVarMap op.Col.Name
      { Status := psVarStatNA, Value := 0,
        ScaleFactor := op.Col.ScaleFactor, ReducedCost := 0 })
  else if op.OpType = psopFreeCol then
    match fcScan op.Col.Name op.Row.Coef solvedVarMap 0 0 with
    | .error e => .error e
    | .ok (lhs, coef) =>
      .ok (alSet pscMap op.Row.Name
             { Status := psConStatNA, Typ := op.Row.Typ, Rhs := op.Row.Rhs,
               ScaleFactor := op.Row.ScaleFactor, Pi := 0, Slack := 0, Dual := 0 },
           alSet solvedVarMap op.Col.Name
             { Status := psVarStatNA, Value := qDiv (qSub op.Row.Rhs lhs) coef,
               ScaleFactor := op.Col.ScaleFactor, ReducedCost := 0 })
  else if op.OpType = psopRowSingltn then
    let coef := firstCoefVal op.Col.Name op.Row.Coef
    if coef = 0 then .error "postSolve unable to find coefficient"
    else
      .ok (alSet pscMap op.Row.Name
             { Status := psConStatNA, Typ := op.Row.Typ, Rhs := op.Row.Rhs,
               ScaleFactor := op.Row.ScaleFactor, Pi := 0, Slack := 0, Dual := 0 },
           alSet solvedVarMap op.Col.Name
             { Status := psVarStatNA, Value := qDiv op.Row.Rhs coef,
               ScaleFactor := op.Col.ScaleFactor, ReducedCost := 0 })
  else .error ("Unexpected operation " ++ op.OpType ++ " in postSolve")

def postSolveList : List psOp → PsResConMap → PsResVarMap →
    Except String (PsResConMap × PsResVarMap)
  | [], cm, vm => .ok (cm, vm)
  | op :: rest, cm, vm =>
    match postSolveStep op cm vm with
    | .error e => .error e
    | .ok (cm1, vm1) => postSolveList rest cm1 vm1

/-- psf.go postSolve: consume the ledger from the last entry to the first. -/
def postSolve (ops : List psOp) (cm : PsResConMap) (vm : PsResVarMap) :
    Except String (PsResConMap × PsResVarMap) :=
  postSolveList ops.reverse cm vm

/-- psf.go getPstLhs: sum value*coefficient over a psRow's coefficient list
against the variable map (failing on the first name that is missing), then
multiply by the row's scale factor. -/
def getPstLhsAux (psVarMap : PsResVarMap) : List psCoef → ℚ → Except String ℚ
  | [], lhs => .ok lhs
  | c :: rest, lhs =>
    match alGet psVarMap c.Name with
    | none => .error ("Failed to find LHS for " ++ c.Name)
    | some v => getPstLhsAux psVarMap rest (qAdd lhs (qMul v.Value c.Value))

def getPstLhs (row : psRow) (psVarMap : PsResVarMap) : Except String ℚ :=
  match getPstLhsAux psVarMap row.Coef 0 with
  | .error e => .error e
  | .ok lhs => .ok (qMul lhs row.ScaleFactor)

/-- The objective epilogue of CplexSolveProb (src/unnamed/part_002, lines
315-325): after post-solve and row restoration the objective is recomputed
with getPstLhs from the pre-reduction objective row `origObjFunc` against
the reconstructed variable map, and the objective-row constant captured
before reductions is subtracted; a getPstLhs error aborts CplexSolveProb
with that error. -/
def cplexFinalObj (origObjFunc : psRow) (varMap : PsResVarMap) (objRowConst : ℚ) :
    Except String ℚ :=
  match getPstLhs origObjFunc varMap with
  | .error e => .error e
  | .ok v => .ok (qSub v objRowConst)

/-! Projections and specification predicates. -/

/-- The scalar fields of a row (everything except the HasElems reference
list).  DelRow and DelCol rewrite HasElems lists all over the store but never
touch these fields; row-level claims are stated through this view. -/
structure RowView where
  Name : String
  Typ : String
  RHSlo : ℚ
  RHSup : ℚ
  ScaleFactor : ℚ
  State : LpState
deriving DecidableEq

def rview (r : InputRow) : RowView :=
  ⟨r.Name, r.Typ, r.RHSlo, r.RHSup, r.ScaleFactor, r.State⟩

/-- The scalar fields of a column. -/
structure ColView where
  Name : String
  Typ : String
  BndLo : ℚ
  BndUp : ℚ
  ScaleFactor : ℚ
  State : LpState
deriving DecidableEq

def cview (c : InputCol) : ColView :=
  ⟨c.Name, c.Typ, c.BndLo, c.BndUp, c.ScaleFactor, c.State⟩

/-- Claim C1's cross-index integrity property (invariants I1/I2): every
element's global index is listed exactly once in the HasElems list of the
row Elems[e].InRow and exactly once in that of the column Elems[e].InCol,
and every HasElems entry of every row and column is below the end of the
Elems list. -/
def crossIndexOK (S : Store) : Prop :=
  (∀ k < S.Elems.length,
    (S.row (S.elem k).InRow).HasElems.count k = 1 ∧
    (S.col (S.elem k).InCol).HasElems.count k = 1) ∧
  (∀ r < S.Rows.length, ∀ x ∈ (S.row r).HasElems, x < S.Elems.length) ∧
  (∀ c < S.Cols.length, ∀ x ∈ (S.col c).HasElems, x < S.Elems.length)

instance crossIndexOkDec (S : Store) : Decidable (crossIndexOK S) := by
  unfold crossIndexOK; infer_instance

/-- The condition under which the delRowSingletons scan processes row i
(reads the negations of the three `continue` guards). -/
def drsTrigger (S : Store) (i : Nat) : Prop :=
  (S.row i).State = stateActive ∧ (S.row i).HasElems.length = 1 ∧ (S.row i).Typ = "E"

instance drsTriggerDec (S : Store) (i : Nat) : Decidable (drsTrigger S i) := by
  unfold drsTrigger; infer_instance

/-- The condition under which the delFixedVars scan processes column i. -/
def dfvTrigger (S : Store) (i : Nat) : Prop :=
  (S.col i).State = stateActive ∧ (S.col i).BndLo = (S.col i).BndUp

instance dfvTriggerDec (S : Store) (i : Nat) : Decidable (dfvTrigger S i) := by
  unfold dfvTrigger; infer_instance

/-- Spec-side sum for the objective: Σ value(name)·coefficient over a psRow's
coefficient list (missing names contribute through a default of 0 and are
excluded by hypothesis wherever this is used). -/
def objSum (row : psRow) (vm : PsResVarMap) : ℚ :=
  (row.Coef.map (fun c => ((alGet vm c.Name).elim 0 (fun v => v.Value)) * c.Value)).sum

/-- Spec-side sum for the FreeCol reconstruction: the weighted sum of the
entries of the captured coefficient list other than the eliminated column. -/
def fcOtherSum (colName : String) (coefs : List psCoef) (vm : PsResVarMap) : ℚ :=
  ((coefs.filter (fun c => c.Name ≠ colName)).map
    (fun c => ((alGet vm c.Name).elim 0 (fun v => v.Value)) * c.Value)).sum

/-! Concrete stores used by the counterexamples, the code-bug evaluations
and the witnesses. -/

/-- A valid two-row store: row "L" (the last row) holds five of the six
elements, listed in the order [2, 4, 3, 1, 5]; each element sits in its own
column.  Deleting row "L" exercises the stale-pointer interaction between
the element-migration loop and the aliased Rows[lastRow].HasElems list. -/
def c1Store : Store :=
  { Rows := [⟨"R", "G", 0, 1, 1, stateActive, [0]⟩,
             ⟨"L", "G", 0, 1, 1, stateActive, [2, 4, 3, 1, 5]⟩],
    Cols := [⟨"cA", "R", 0, 1, 1, stateActive, [0]⟩,
             ⟨"c1", "R", 0, 1, 1, stateActive, [1]⟩,
             ⟨"c2", "R", 0, 1, 1, stateActive, [2]⟩,
             ⟨"c3", "R", 0, 1, 1, stateActive, [3]⟩,
             ⟨"c4", "R", 0, 1, 1, stateActive, [4]⟩,
             ⟨"c5", "R", 0, 1, 1, stateActive, [5]⟩],
    Elems := [⟨0, 0, 1⟩, ⟨1, 1, 1⟩, ⟨1, 2, 1⟩, ⟨1, 3, 1⟩, ⟨1, 4, 1⟩, ⟨1, 5, 1⟩],
    ObjRow := -1,
    psOpList := [] }

/-- What DelRow 1 actually returns on c1Store: Elems is truncated to one
element, but column "c5" is left pointing at the stale element index 2. -/
def c1Broken : Store :=
  { Rows := [⟨"R", "G", 0, 1, 1, stateActive, [0]⟩],
    Cols := [⟨"cA", "R", 0, 1, 1, stateActive, [0]⟩,
             ⟨"c1", "R", 0, 1, 1, stateActive, []⟩,
             ⟨"c2", "R", 0, 1, 1, stateActive, []⟩,
             ⟨"c3", "R", 0, 1, 1, stateActive, []⟩,
             ⟨"c4", "R", 0, 1, 1, stateActive, []⟩,
             ⟨"c5", "R", 0, 1, 1, stateActive, [2]⟩],
    Elems := [⟨0, 0, 1⟩],
    ObjRow := -1,
    psOpList := [] }

/-- Two interacting singleton equality rows (2x = 6 and 3y = 9) plus the row
x + y ≥ 5 containing both columns. -/
def c2Store : Store :=
  { Rows := [⟨"R1", "E", 6, 6, 1, stateActive, [0]⟩,
             ⟨"R2", "E", 9, 9, 1, stateActive, [1]⟩,
             ⟨"R3", "G", 5, Plinfy, 1, stateActive, [2, 3]⟩],
    Cols := [⟨"x", "R", 0, Plinfy, 1, stateActive, [0, 2]⟩,
             ⟨"y", "R", 0, Plinfy, 1, stateActive, [1, 3]⟩],
    Elems := [⟨0, 0, 2⟩, ⟨1, 1, 3⟩, ⟨2, 0, 1⟩, ⟨2, 1, 1⟩],
    ObjRow := -1,
    psOpList := [] }

/-- A single singleton equality row 2x = 6 next to x + y ≥ 5, used to witness
the amended row-singleton claim. -/
def c2WitStore : Store :=
  { Rows := [⟨"R1", "E", 6, 6, 1, stateActive, [0]⟩,
             ⟨"R3", "G", 5, Plinfy, 1, stateActive, [1, 2]⟩],
    Cols := [⟨"x", "R", 0, Plinfy, 1, stateActive, [0, 1]⟩,
             ⟨"y", "R", 0, Plinfy, 1, stateActive, [2]⟩],
    Elems := [⟨0, 0, 2⟩, ⟨1, 0, 1⟩, ⟨1, 1, 1⟩],
    ObjRow := -1,
    psOpList := [] }

/-- An active singleton equality row whose single element has coefficient
exactly 0. -/
def c3Store : Store :=
  { Rows := [⟨"Z", "E", 4, 4, 1, stateActive, [0]⟩,
             ⟨"W", "G", 1, Plinfy, 1, stateActive, [1]⟩],
    Cols := [⟨"x", "R", 0, Plinfy, 1, stateActive, [0]⟩,
             ⟨"y", "R", 0, Plinfy, 1, stateActive, [1]⟩],
    Elems := [⟨0, 0, 0⟩, ⟨1, 1, 1⟩],
    ObjRow := -1,
    psOpList := [] }

/-- A store whose column "xfree" is a free column singleton in the locked
state (one element, bounds -Plinfy..Plinfy, hosted by row "R1" which is not
the objective row). -/
def c4Store : Store :=
  { Rows := [⟨"obj", "N", 0, 0, 1, stateActive, [1]⟩,
             ⟨"R1", "E", 7, 7, 1, stateActive, [0, 2]⟩],
    Cols := [⟨"xfree", "R", -Plinfy, Plinfy, 1, stateLocked, [0]⟩,
             ⟨"y", "R", 0, Plinfy, 1, stateActive, [1, 2]⟩],
    Elems := [⟨1, 0, 1⟩, ⟨0, 1, 1⟩, ⟨1, 1, 1⟩],
    ObjRow := 0,
    psOpList := [] }

/-- A store with one fixed variable column and one locked column, used to
witness the amended kernel-skipping claim (the locked column "zlock" must
survive delFixedVars untouched while "zfix" is removed). -/
def c4WitStore : Store :=
  { Rows := [⟨"Ra", "L", -Plinfy, 10, 1, stateActive, [0, 1]⟩],
    Cols := [⟨"zfix", "R", 4, 4, 1, stateActive, [0]⟩,
             ⟨"zlock", "R", 5, 5, 1, stateLocked, [1]⟩],
    Elems := [⟨0, 0, 2⟩, ⟨0, 1, 1⟩],
    ObjRow := -1,
    psOpList := [] }

/-- An MTC (empty column) ledger entry for variable "v". -/
def c5MtcOp : psOp := ⟨psopEmptyCol, ⟨"v", "R", 0, Plinfy, 1⟩, zeroPsRow⟩

/-- A store whose first sweep removes exactly one item, the empty row. -/
def c6Store : Store :=
  { Rows := [⟨"empty", "G", 0, 0, 1, stateActive, []⟩,
             ⟨"R2", "G", 1, Plinfy, 1, stateActive, [0]⟩],
    Cols := [⟨"x", "R", 0, Plinfy, 1, stateActive, [0]⟩],
    Elems := [⟨1, 0, 1⟩],
    ObjRow := -1,
    psOpList := [] }

/-- Instantiation of the TightenBounds parameter used for concrete runs of
ReduceMatrix in which DelRowNonbinding is false, so that the parameter is
never invoked. -/
def trivTighten : Store → Except String Store := fun S => .ok S

/-- Control record with MaxIter = 2 and every kernel flag off. -/
def c6Ctrl : PsCtrl := { MaxIter := 2 }

/-- A store with exactly one fixed column z in [4,4] appearing in two rows
(coefficients 2 and -1), each row one-sided, used to witness C7. -/
def c7Store : Store :=
  { Rows := [⟨"Ra", "L", -Plinfy, 10, 1, stateActive, [0, 2]⟩,
             ⟨"Rb", "G", 3, Plinfy, 1, stateActive, [1, 3]⟩],
    Cols := [⟨"z", "R", 4, 4, 1, stateActive, [0, 1]⟩,
             ⟨"w", "R", 0, Plinfy, 1, stateActive, [2, 3]⟩],
    Elems := [⟨0, 0, 2⟩, ⟨1, 0, -1⟩, ⟨0, 1, 1⟩, ⟨1, 1, 1⟩],
    ObjRow := -1,
    psOpList := [] }

/-- Pre-reduction objective row min x + y used to witness C8. -/
def c8ObjRow : psRow := ⟨"obj", "N", 0, 1, [⟨"x", 1⟩, ⟨"y", 1⟩]⟩

/-- Variable map x = 3, y = 2 used to witness C8. -/
def c8VarMap : PsResVarMap :=
  [("x", ⟨"NA", 3, 1, 0⟩), ("y", ⟨"NA", 2, 1, 0⟩)]

/-- FreeCol ledger entry whose captured coefficient list does not mention
the eliminated column "gone" at all, used to witness C9. -/
def c9FcOp : psOp :=
  ⟨psopFreeCol, ⟨"gone", "R", -Plinfy, Plinfy, 1⟩,
   ⟨"Rfc", "E", 7, 1, [⟨"y", 1⟩]⟩⟩

/-- RowSingleton ledger entry whose captured row does not contain the
captured column's name, used to witness the RSG contrast in C9. -/
def c9RsgOp : psOp :=
  ⟨psopRowSingltn, ⟨"gone", "R", 3, 3, 1⟩, ⟨"Rsg", "E", 6, 1, [⟨"y", 2⟩]⟩⟩

/-- Variable map y = 1 used to witness C9. -/
def c9VarMap : PsResVarMap := [("y", ⟨"NA", 1, 1, 0⟩)]

/-- A store whose objective row (index 0, referenced by ObjRow) is an active
row of sense N, used to witness C10. -/
def c10Store : Store :=
  { Rows := [⟨"obj", "N", 0, 0, 1, stateActive, [0]⟩,
             ⟨"R1", "G", 2, Plinfy, 1, stateActive, [1]⟩],
    Cols := [⟨"x", "R", 0, Plinfy, 1, stateActive, [0, 1]⟩],
    Elems := [⟨0, 0, 1⟩, ⟨1, 0, 1⟩],
    ObjRow := 0,
    psOpList := [] }

/-! Theorems.  First the bridge lemmas identifying the kernel-computable
rational operations with the standard ones, then general lemmas about the
maintenance primitives, then the claim theorems. -/

theorem qAdd_eq (a b : ℚ) : qAdd a b = a + b := (Rat.add_def' a b).symm

theorem qSub_eq (a b : ℚ) : qSub a b = a - b := (Rat.sub_def' a b).symm

theorem qMul_eq (a b : ℚ) : qMul a b = a * b := by
  rw [qMul, Rat.mul_def, Rat.normalize_eq_mkRat]

theorem qDiv_eq (a b : ℚ) : qDiv a b = a / b := by
  rw [Rat.div_def']; rfl

/-! Generic list and fold helpers. -/

theorem mapSet_eq {α β : Type} (f : α → β) :
    ∀ (l : List α) (n : Nat) (a : α), (l.set n a).map f = (l.map f).set n (f a) := by
  intro l
  induction l with
  | nil => intro n a; rfl
  | cons x xs ih =>
    intro n a
    cases n with
    | zero => rfl
    | succ m => simp [List.set, ih]

theorem set_getD_self {α : Type} :
    ∀ (l : List α) (j : Nat) (d : α), l.set j (l.getD j d) = l := by
  intro l
  induction l with
  | nil => intro j d; rfl
  | cons x xs ih =>
    intro j d
    cases j with
    | zero => rfl
    | succ m => exact congrArg (x :: ·) (ih m d)

theorem foldl_preserve {α β γ : Type} (p : α → β) (step : α → γ → α)
    (h : ∀ T k, p (step T k) = p T) :
    ∀ (ks : List γ) (T : α), p (ks.foldl step T) = p T := by
  intro ks
  induction ks with
  | nil => intro T; rfl
  | cons k ks ih => intro T; rw [List.foldl_cons, ih, h]

theorem dropLast_set_of_lt {α : Type} :
    ∀ (l : List α) (i : Nat) (a : α), i + 1 < l.length →
      (l.set i a).dropLast = l.dropLast.set i a := by
  intro l
  induction l with
  | nil => intro i a h; simp at h
  | cons x xs ih =>
    intro i a h
    cases i with
    | zero =>
      cases xs with
      | nil => simp at h
      | cons y ys => rfl
    | succ m =>
      cases xs with
      | nil => simp at h
      | cons y ys =>
        have hm : m + 1 < (y :: ys).length := Nat.lt_of_succ_lt_succ h
        have hset : (y :: ys).set m a ≠ [] := by
          cases m <;> simp [List.set]
        rw [show (x :: y :: ys).set (m + 1) a = x :: ((y :: ys).set m a) from rfl,
            List.dropLast_cons_of_ne_nil hset,
            show (x :: y :: ys).dropLast = x :: (y :: ys).dropLast from rfl,
            show (x :: (y :: ys).dropLast).set (m + 1) a =
              x :: ((y :: ys).dropLast.set m a) from rfl]
        exact congrArg (x :: ·) (ih m a hm)

theorem dropLast_set_last {α : Type} :
    ∀ (l : List α) (a : α), (l.set (l.length - 1) a).dropLast = l.dropLast := by
  intro l
  induction l with
  | nil => intro a; rfl
  | cons x xs ih =>
    intro a
    cases xs with
    | nil => rfl
    | cons y ys =>
      have hx := ih a
      have hlen : (x :: y :: ys).length - 1 = ((y :: ys).length - 1) + 1 := by
        simp [List.length_cons]
      rw [hlen]
      show (x :: ((y :: ys).set ((y :: ys).length - 1) a)).dropLast =
        (x :: (y :: ys)).dropLast
      have hset : (y :: ys).set ((y :: ys).length - 1) a ≠ [] := by
        cases ys <;> simp [List.set]
      rw [List.dropLast_cons_of_ne_nil hset,
          List.dropLast_cons_of_ne_nil (by simp : (y :: ys) ≠ [])]
      rw [hx]

/-! Effect of the primitive store updates on the row/column views. -/

theorem updRow_map_rview (S : Store) (i : Nat) (f : InputRow → InputRow)
    (h : ∀ r, rview (f r) = rview r) :
    (S.updRow i f).Rows.map rview = S.Rows.map rview := by
  show ((S.Rows.set i (f (S.Rows.getD i dummyRow))).map rview) = S.Rows.map rview
  rw [mapSet_eq, h]
  have : rview (S.Rows.getD i dummyRow) = (S.Rows.map rview).getD i (rview dummyRow) := by
    induction S.Rows generalizing i with
    | nil => rfl
    | cons x xs ih => cases i with
      | zero => rfl
      | succ m => simpa using ih m
  rw [this, set_getD_self]

theorem updCol_map_cview (S : Store) (j : Nat) (f : InputCol → InputCol)
    (h : ∀ c, cview (f c) = cview c) :
    (S.updCol j f).Cols.map cview = S.Cols.map cview := by
  show ((S.Cols.set j (f (S.Cols.getD j dummyCol))).map cview) = S.Cols.map cview
  rw [mapSet_eq, h]
  have : cview (S.Cols.getD j dummyCol) = (S.Cols.map cview).getD j (cview dummyCol) := by
    induction S.Cols generalizing j with
    | nil => rfl
    | cons x xs ih => cases j with
      | zero => rfl
      | succ m => simpa using ih m
  rw [this, set_getD_self]

theorem getD_map {α β : Type} (f : α → β) :
    ∀ (l : List α) (i : Nat) (d : α), (l.map f).getD i (f d) = f (l.getD i d) := by
  intro l
  induction l with
  | nil => intro i d; rfl
  | cons x xs ih => intro i d; cases i with
    | zero => rfl
    | succ m => simpa using ih m

/-! Record-projection facts about the primitive updates (all definitional). -/

theorem setElem_rows (A : Store) (k : Nat) (e : InputElem) : (A.setElem k e).Rows = A.Rows := rfl

theorem setElem_cols (A : Store) (k : Nat) (e : InputElem) : (A.setElem k e).Cols = A.Cols := rfl

theorem setElem_psOpList (A : Store) (k : Nat) (e : InputElem) : (A.setElem k e).psOpList = A.psOpList := rfl

theorem setElem_objRow (A : Store) (k : Nat) (e : InputElem) : (A.setElem k e).ObjRow = A.ObjRow := rfl

theorem setElem_elems_length (A : Store) (k : Nat) (e : InputElem) :
    (A.setElem k e).Elems.length = A.Elems.length := by
  simp [Store.setElem]

theorem updCol_rows (A : Store) (j : Nat) (f : InputCol → InputCol) : (A.updCol j f).Rows = A.Rows := rfl

theorem updCol_elems (A : Store) (j : Nat) (f : InputCol → InputCol) : (A.updCol j f).Elems = A.Elems := rfl

theorem updCol_psOpList (A : Store) (j : Nat) (f : InputCol → InputCol) : (A.updCol j f).psOpList = A.psOpList := rfl

theorem updCol_objRow (A : Store) (j : Nat) (f : InputCol → InputCol) : (A.updCol j f).ObjRow = A.ObjRow := rfl

theorem updCol_cols_length (A : Store) (j : Nat) (f : InputCol → InputCol) :
    (A.updCol j f).Cols.length = A.Cols.length := by
  simp [Store.updCol, Store.setCol]

theorem updRow_cols (A : Store) (i : Nat) (f : InputRow → InputRow) : (A.updRow i f).Cols = A.Cols := rfl

theorem updRow_elems (A : Store) (i : Nat) (f : InputRow → InputRow) : (A.updRow i f).Elems = A.Elems := rfl

theorem updRow_psOpList (A : Store) (i : Nat) (f : InputRow → InputRow) : (A.updRow i f).psOpList = A.psOpList := rfl

theorem updRow_objRow (A : Store) (i : Nat) (f : InputRow → InputRow) : (A.updRow i f).ObjRow = A.ObjRow := rfl

theorem updRow_rows_length (A : Store) (i : Nat) (f : InputRow → InputRow) :
    (A.updRow i f).Rows.length = A.Rows.length := by
  simp [Store.updRow, Store.setRow]

theorem setRow_cols (A : Store) (i : Nat) (r : InputRow) : (A.setRow i r).Cols = A.Cols := rfl

theorem setRow_elems (A : Store) (i : Nat) (r : InputRow) : (A.setRow i r).Elems = A.Elems := rfl

theorem setRow_psOpList (A : Store) (i : Nat) (r : InputRow) : (A.setRow i r).psOpList = A.psOpList := rfl

theorem setRow_objRow (A : Store) (i : Nat) (r : InputRow) : (A.setRow i r).ObjRow = A.ObjRow := rfl

theorem setCol_rows (A : Store) (j : Nat) (c : InputCol) : (A.setCol j c).Rows = A.Rows := rfl

theorem setCol_elems (A : Store) (j : Nat) (c : InputCol) : (A.setCol j c).Elems = A.Elems := rfl

theorem setCol_psOpList (A : Store) (j : Nat) (c : InputCol) : (A.setCol j c).psOpList = A.psOpList := rfl

theorem setCol_objRow (A : Store) (j : Nat) (c : InputCol) : (A.setCol j c).ObjRow = A.ObjRow := rfl

theorem updElem_rows (A : Store) (k : Nat) (f : InputElem → InputElem) : (A.updElem k f).Rows = A.Rows := rfl

theorem updElem_cols (A : Store) (k : Nat) (f : InputElem → InputElem) : (A.updElem k f).Cols = A.Cols := rfl

theorem updElem_psOpList (A : Store) (k : Nat) (f : InputElem → InputElem) : (A.updElem k f).psOpList = A.psOpList := rfl

theorem updElem_objRow (A : Store) (k : Nat) (f : InputElem → InputElem) : (A.updElem k f).ObjRow = A.ObjRow := rfl

theorem updElem_elems_length (A : Store) (k : Nat) (f : InputElem → InputElem) :
    (A.updElem k f).Elems.length = A.Elems.length := by
  simp [Store.updElem, Store.setElem]

/-- Updating only the HasElems list of one row leaves the row views alone. -/
theorem updRow_hasElems_map_rview (S : Store) (i : Nat) (g : InputRow → List Nat) :
    (S.updRow i (fun row => { row with HasElems := g row })).Rows.map rview =
      S.Rows.map rview :=
  updRow_map_rview S i _ (fun r => rfl)

/-- Updating only the HasElems list of one column leaves the column views
alone. -/
theorem updCol_hasElems_map_cview (S : Store) (j : Nat) (g : InputCol → List Nat) :
    (S.updCol j (fun col => { col with HasElems := g col })).Cols.map cview =
      S.Cols.map cview :=
  updCol_map_cview S j _ (fun c => rfl)

/-- Everything delRowStep leaves alone: row views, column views, the ledger,
the objective index, and both list lengths. -/
theorem delRowStep_preserve (L : Nat) (T : Store) (m : Nat) :
    (delRowStep L T m).Rows.map rview = T.Rows.map rview ∧
    (delRowStep L T m).Cols.map cview = T.Cols.map cview ∧
    (delRowStep L T m).psOpList = T.psOpList ∧
    (delRowStep L T m).ObjRow = T.ObjRow ∧
    (delRowStep L T m).Rows.length = T.Rows.length ∧
    (delRowStep L T m).Elems.length = T.Elems.length := by
  unfold delRowStep
  refine ⟨?_, ?_, ?_, ?_, ?_, ?_⟩
  · rw [setElem_rows, setElem_rows, updCol_rows, updRow_hasElems_map_rview, updCol_rows]
  · rw [setElem_cols, setElem_cols, updCol_hasElems_map_cview, updRow_cols,
        updCol_hasElems_map_cview]
  · rw [setElem_psOpList, setElem_psOpList, updCol_psOpList, updRow_psOpList, updCol_psOpList]
  · rw [setElem_objRow, setElem_objRow, updCol_objRow, updRow_objRow, updCol_objRow]
  · rw [setElem_rows, setElem_rows, updCol_rows, updRow_rows_length, updCol_rows]
  · rw [setElem_elems_length, setElem_elems_length, updCol_elems, updRow_elems, updCol_elems]

theorem foldl_updElem_preserve (g : Nat → InputElem → InputElem) (ks : List Nat) (A : Store) :
    (ks.foldl (fun T k => T.updElem k (g k)) A).Rows = A.Rows ∧
    (ks.foldl (fun T k => T.updElem k (g k)) A).Cols = A.Cols ∧
    (ks.foldl (fun T k => T.updElem k (g k)) A).psOpList = A.psOpList ∧
    (ks.foldl (fun T k => T.updElem k (g k)) A).ObjRow = A.ObjRow ∧
    (ks.foldl (fun T k => T.updElem k (g k)) A).Elems.length = A.Elems.length :=
  ⟨foldl_preserve (fun T => T.Rows) _ (fun T k => updElem_rows T k _) ks A,
   foldl_preserve (fun T => T.Cols) _ (fun T k => updElem_cols T k _) ks A,
   foldl_preserve (fun T => T.psOpList) _ (fun T k => updElem_psOpList T k _) ks A,
   foldl_preserve (fun T => T.ObjRow) _ (fun T k => updElem_objRow T k _) ks A,
   foldl_preserve (fun T => T.Elems.length) _ (fun T k => updElem_elems_length T k _) ks A⟩

/-- What swapRows does at the row-view level: the two row views exchange
places, everything else stays. -/
theorem swapRows_spec (S : Store) (i j : Nat) (hi : i < S.Rows.length) (hj : j < S.Rows.length) :
    ∃ S2, swapRows i j S = .ok S2 ∧
      S2.Rows.map rview = ((S.Rows.map rview).set j (rview (S.row i))).set i (rview (S.row j)) ∧
      S2.Cols.map cview = S.Cols.map cview ∧
      S2.psOpList = S.psOpList ∧
      S2.ObjRow = S.ObjRow ∧
      S2.Rows.length = S.Rows.length ∧
      S2.Elems.length = S.Elems.length := by
  have h1 : ¬ (S.Rows.length ≤ i) := Nat.not_le.mpr hi
  have h2 : ¬ (S.Rows.length ≤ j) := Nat.not_le.mpr hj
  unfold swapRows
  rw [if_neg h1, if_neg h2]
  refine ⟨_, rfl, ?_⟩
  set B1 := (S.row i).HasElems.foldl
    (fun T k => T.updElem k (fun e => { e with InRow := j })) S with hB1
  obtain ⟨e1r, e1c, e1p, e1o, e1l⟩ := foldl_updElem_preserve
    (fun _ => fun e => { e with InRow := j }) (S.row i).HasElems S
  rw [← hB1] at e1r e1c e1p e1o e1l
  set B2 := (B1.row j).HasElems.foldl
    (fun T k => T.updElem k (fun e => { e with InRow := i })) B1 with hB2
  obtain ⟨e2r, e2c, e2p, e2o, e2l⟩ := foldl_updElem_preserve
    (fun _ => fun e => { e with InRow := i }) (B1.row j).HasElems B1
  rw [← hB2] at e2r e2c e2p e2o e2l
  have hrows : B2.Rows = S.Rows := by rw [e2r, e1r]
  have hrowi : B2.row i = S.row i := by unfold Store.row; rw [hrows]
  have hrowj : B2.row j = S.row j := by unfold Store.row; rw [hrows]
  refine ⟨?_, ?_, ?_, ?_, ?_, ?_⟩
  · show ((B2.setRow j (B2.row i)).setRow i (B2.row j)).Rows.map rview = _
    show ((B2.Rows.set j (B2.row i)).set i (B2.row j)).map rview = _
    rw [mapSet_eq, mapSet_eq, hrows, hrowi, hrowj]
  · show ((B2.setRow j (B2.row i)).setRow i (B2.row j)).Cols.map cview = _
    rw [setRow_cols, setRow_cols, e2c, e1c]
  · show ((B2.setRow j (B2.row i)).setRow i (B2.row j)).psOpList = _
    rw [setRow_psOpList, setRow_psOpList, e2p, e1p]
  · show ((B2.setRow j (B2.row i)).setRow i (B2.row j)).ObjRow = _
    rw [setRow_objRow, setRow_objRow, e2o, e1o]
  · show ((B2.Rows.set j (B2.row i)).set i (B2.row j)).length = _
    rw [List.length_set, List.length_set, hrows]
  · show B2.Elems.length = _
    rw [e2l, e1l]

theorem foldl_delRowStep_preserve (L : Nat) (ms : List Nat) (A : Store) :
    (ms.foldl (delRowStep L) A).Rows.map rview = A.Rows.map rview ∧
    (ms.foldl (delRowStep L) A).Cols.map cview = A.Cols.map cview ∧
    (ms.foldl (delRowStep L) A).psOpList = A.psOpList ∧
    (ms.foldl (delRowStep L) A).ObjRow = A.ObjRow ∧
    (ms.foldl (delRowStep L) A).Rows.length = A.Rows.length :=
  ⟨foldl_preserve (fun T => T.Rows.map rview) _ (fun T m => (delRowStep_preserve L T m).1) ms A,
   foldl_preserve (fun T => T.Cols.map cview) _ (fun T m => (delRowStep_preserve L T m).2.1) ms A,
   foldl_preserve (fun T => T.psOpList) _ (fun T m => (delRowStep_preserve L T m).2.2.1) ms A,
   foldl_preserve (fun T => T.ObjRow) _ (fun T m => (delRowStep_preserve L T m).2.2.2.1) ms A,
   foldl_preserve (fun T => T.Rows.length) _ (fun T m => (delRowStep_preserve L T m).2.2.2.2.1) ms A⟩

theorem set_of_length_le {α : Type} :
    ∀ (l : List α) (n : Nat) (a : α), l.length ≤ n → l.set n a = l := by
  intro l
  induction l with
  | nil => intro n a h; rfl
  | cons x xs ih =>
    intro n a h
    cases n with
    | zero => simp at h
    | succ m => exact congrArg (x :: ·) (ih m a (Nat.le_of_succ_le_succ h))

theorem map_dropLast_eq {α β : Type} (f : α → β) :
    ∀ (l : List α), l.dropLast.map f = (l.map f).dropLast := by
  intro l
  induction l with
  | nil => rfl
  | cons x xs ih =>
    cases xs with
    | nil => rfl
    | cons y ys =>
      rw [show (x :: y :: ys).dropLast = x :: (y :: ys).dropLast from rfl]
      rw [show (x :: y :: ys).map f = f x :: (y :: ys).map f from rfl]
      rw [show (f x :: (y :: ys).map f).dropLast = f x :: ((y :: ys).map f).dropLast by
        cases ys <;> rfl]
      rw [show (x :: (y :: ys).dropLast).map f = f x :: ((y :: ys).dropLast).map f from rfl]
      rw [ih]

/-- What a successful in-range DelRow does at the row-view level: the last
row view moves to position i and the last position disappears; column views,
ledger and objective index are untouched. -/
theorem DelRow_spec (S : Store) (i : Nat) (hi : i < S.Rows.length) :
    ∃ S', DelRow i S = .ok S' ∧
      S'.Rows.map rview =
        ((S.Rows.map rview).dropLast).set i (rview (S.row (S.Rows.length - 1))) ∧
      S'.Cols.map cview = S.Cols.map cview ∧
      S'.psOpList = S.psOpList ∧
      S'.ObjRow = S.ObjRow ∧
      S'.Rows.length = S.Rows.length - 1 := by
  have hne : ¬ (S.Rows.length = 0 ∨ S.Rows.length - 1 < i) := by
    push_neg
    exact ⟨by omega, by omega⟩
  have hmaplen : (S.Rows.map rview).length = S.Rows.length := by
    rw [List.length_map]
  unfold DelRow
  rw [if_neg hne]
  by_cases hlast : i ≠ S.Rows.length - 1
  · rw [if_pos hlast]
    obtain ⟨S0, hswap, hsr, hsc, hsp, hso, hsl, _⟩ :=
      swapRows_spec S i (S.Rows.length - 1) hi (by omega)
    rw [hswap]
    obtain ⟨fr, fc, fp, fo, fl⟩ := foldl_delRowStep_preserve (S.Rows.length - 1)
      (List.range (S0.row (S.Rows.length - 1)).HasElems.length) S0
    refine ⟨_, rfl, ?_, ?_, ?_, ?_, ?_⟩
    · show ((List.range (S0.row (S.Rows.length - 1)).HasElems.length).foldl
        (delRowStep (S.Rows.length - 1)) S0).Rows.dropLast.map rview = _
      rw [map_dropLast_eq, fr, hsr]
      rw [dropLast_set_of_lt _ i _ (by rw [List.length_set, hmaplen]; omega)]
      have hdl : ((S.Rows.map rview).set (S.Rows.length - 1) (rview (S.row i))).dropLast
          = (S.Rows.map rview).dropLast := by
        rw [show S.Rows.length - 1 = (S.Rows.map rview).length - 1 from by rw [hmaplen]]
        exact dropLast_set_last _ _
      rw [hdl]
    · show ((List.range (S0.row (S.Rows.length - 1)).HasElems.length).foldl
        (delRowStep (S.Rows.length - 1)) S0).Cols.map cview = _
      rw [fc, hsc]
    · show ((List.range (S0.row (S.Rows.length - 1)).HasElems.length).foldl
        (delRowStep (S.Rows.length - 1)) S0).psOpList = _
      rw [fp, hsp]
    · show ((List.range (S0.row (S.Rows.length - 1)).HasElems.length).foldl
        (delRowStep (S.Rows.length - 1)) S0).ObjRow = _
      rw [fo, hso]
    · show ((List.range (S0.row (S.Rows.length - 1)).HasElems.length).foldl
        (delRowStep (S.Rows.length - 1)) S0).Rows.dropLast.length = _
      rw [List.length_dropLast, fl, hsl]
  · rw [if_neg hlast]
    push_neg at hlast
    subst hlast
    obtain ⟨fr, fc, fp, fo, fl⟩ := foldl_delRowStep_preserve (S.Rows.length - 1)
      (List.range (S.row (S.Rows.length - 1)).HasElems.length) S
    refine ⟨_, rfl, ?_, ?_, ?_, ?_, ?_⟩
    · show ((List.range (S.row (S.Rows.length - 1)).HasElems.length).foldl
        (delRowStep (S.Rows.length - 1)) S).Rows.dropLast.map rview = _
      rw [map_dropLast_eq, fr]
      rw [set_of_length_le _ _ _ (by rw [List.length_dropLast, hmaplen])]
    · show ((List.range (S.row (S.Rows.length - 1)).HasElems.length).foldl
        (delRowStep (S.Rows.length - 1)) S).Cols.map cview = _
      rw [fc]
    · show ((List.range (S.row (S.Rows.length - 1)).HasElems.length).foldl
        (delRowStep (S.Rows.length - 1)) S).psOpList = _
      rw [fp]
    · show ((List.range (S.row (S.Rows.length - 1)).HasElems.length).foldl
        (delRowStep (S.Rows.length - 1)) S).ObjRow = _
      rw [fo]
    · show ((List.range (S.row (S.Rows.length - 1)).HasElems.length).foldl
        (delRowStep (S.Rows.length - 1)) S).Rows.dropLast.length = _
      rw [List.length_dropLast, fl]

theorem delColStep_preserve (L : Nat) (T : Store) (m : Nat) :
    (delColStep L T m).Rows.map rview = T.Rows.map rview ∧
    (delColStep L T m).Cols.map cview = T.Cols.map cview ∧
    (delColStep L T m).psOpList = T.psOpList ∧
    (delColStep L T m).ObjRow = T.ObjRow ∧
    (delColStep L T m).Cols.length = T.Cols.length ∧
    (delColStep L T m).Elems.length = T.Elems.length := by
  unfold delColStep
  refine ⟨?_, ?_, ?_, ?_, ?_, ?_⟩
  · rw [setElem_rows, setElem_rows, updCol_rows, updRow_hasElems_map_rview,
        updRow_hasElems_map_rview]
  · rw [setElem_cols, setElem_cols, updCol_hasElems_map_cview, updRow_cols, updRow_cols]
  · rw [setElem_psOpList, setElem_psOpList, updCol_psOpList, updRow_psOpList, updRow_psOpList]
  · rw [setElem_objRow, setElem_objRow, updCol_objRow, updRow_objRow, updRow_objRow]
  · rw [setElem_cols, setElem_cols, updCol_cols_length, updRow_cols, updRow_cols]
  · rw [setElem_elems_length, setElem_elems_length, updCol_elems, updRow_elems, updRow_elems]

/-- What swapCols does at the column-view level. -/
theorem swapCols_spec (S : Store) (i j : Nat) (hi : i < S.Cols.length) (hj : j < S.Cols.length) :
    ∃ S2, swapCols i j S = .ok S2 ∧
      S2.Cols.map cview = ((S.Cols.map cview).set j (cview (S.col i))).set i (cview (S.col j)) ∧
      S2.Rows.map rview = S.Rows.map rview ∧
      S2.psOpList = S.psOpList ∧
      S2.ObjRow = S.ObjRow ∧
      S2.Cols.length = S.Cols.length ∧
      S2.Elems.length = S.Elems.length := by
  have h1 : ¬ (S.Cols.length ≤ i) := Nat.not_le.mpr hi
  have h2 : ¬ (S.Cols.length ≤ j) := Nat.not_le.mpr hj
  unfold swapCols
  rw [if_neg h1, if_neg h2]
  refine ⟨_, rfl, ?_⟩
  set B1 := (S.col i).HasElems.foldl
    (fun T k => T.updElem k (fun e => { e with InCol := j })) S with hB1
  obtain ⟨e1r, e1c, e1p, e1o, e1l⟩ := foldl_updElem_preserve
    (fun _ => fun e => { e with InCol := j }) (S.col i).HasElems S
  rw [← hB1] at e1r e1c e1p e1o e1l
  set B2 := (B1.col j).HasElems.foldl
    (fun T k => T.updElem k (fun e => { e with InCol := i })) B1 with hB2
  obtain ⟨e2r, e2c, e2p, e2o, e2l⟩ := foldl_updElem_preserve
    (fun _ => fun e => { e with InCol := i }) (B1.col j).HasElems B1
  rw [← hB2] at e2r e2c e2p e2o e2l
  have hcols : B2.Cols = S.Cols := by rw [e2c, e1c]
  have hcoli : B2.col i = S.col i := by unfold Store.col; rw [hcols]
  have hcolj : B2.col j = S.col j := by unfold Store.col; rw [hcols]
  refine ⟨?_, ?_, ?_, ?_, ?_, ?_⟩
  · show ((B2.Cols.set j (B2.col i)).set i (B2.col j)).map cview = _
    rw [mapSet_eq, mapSet_eq, hcols, hcoli, hcolj]
  · show ((B2.setCol j (B2.col i)).setCol i (B2.col j)).Rows.map rview = _
    rw [setCol_rows, setCol_rows, e2r, e1r]
  · show ((B2.setCol j (B2.col i)).setCol i (B2.col j)).psOpList = _
    rw [setCol_psOpList, setCol_psOpList, e2p, e1p]
  · show ((B2.setCol j (B2.col i)).setCol i (B2.col j)).ObjRow = _
    rw [setCol_objRow, setCol_objRow, e2o, e1o]
  · show ((B2.Cols.set j (B2.col i)).set i (B2.col j)).length = _
    rw [List.length_set, List.length_set, hcols]
  · show B2.Elems.length = _
    rw [e2l, e1l]

theorem foldl_delColStep_preserve (L : Nat) (ms : List Nat) (A : Store) :
    (ms.foldl (delColStep L) A).Rows.map rview = A.Rows.map rview ∧
    (ms.foldl (delColStep L) A).Cols.map cview = A.Cols.map cview ∧
    (ms.foldl (delColStep L) A).psOpList = A.psOpList ∧
    (ms.foldl (delColStep L) A).ObjRow = A.ObjRow ∧
    (ms.foldl (delColStep L) A).Cols.length = A.Cols.length :=
  ⟨foldl_preserve (fun T => T.Rows.map rview) _ (fun T m => (delColStep_preserve L T m).1) ms A,
   foldl_preserve (fun T => T.Cols.map cview) _ (fun T m => (delColStep_preserve L T m).2.1) ms A,
   foldl_preserve (fun T => T.psOpList) _ (fun T m => (delColStep_preserve L T m).2.2.1) ms A,
   foldl_preserve (fun T => T.ObjRow) _ (fun T m => (delColStep_preserve L T m).2.2.2.1) ms A,
   foldl_preserve (fun T => T.Cols.length) _ (fun T m => (delColStep_preserve L T m).2.2.2.2.1) ms A⟩

/-- What a successful in-range DelCol does at the column-view level: the
last column view moves to position j and the last position disappears; row
views, ledger and objective index are untouched. -/
theorem DelCol_spec (S : Store) (j : Nat) (hj : j < S.Cols.length) :
    ∃ S', DelCol j S = .ok S' ∧
      S'.Cols.map cview =
        ((S.Cols.map cview).dropLast).set j (cview (S.col (S.Cols.length - 1))) ∧
      S'.Rows.map rview = S.Rows.map rview ∧
      S'.psOpList = S.psOpList ∧
      S'.ObjRow = S.ObjRow ∧
      S'.Cols.length = S.Cols.length - 1 := by
  have hne : ¬ (S.Cols.length = 0 ∨ S.Cols.length - 1 < j) := by
    push_neg
    exact ⟨by omega, by omega⟩
  have hmaplen : (S.Cols.map cview).length = S.Cols.length := by
    rw [List.length_map]
  unfold DelCol
  rw [if_neg hne]
  by_cases hlast : j ≠ S.Cols.length - 1
  · rw [if_pos hlast]
    obtain ⟨S0, hswap, hsc, hsr, hsp, hso, hsl, _⟩ :=
      swapCols_spec S j (S.Cols.length - 1) hj (by omega)
    rw [hswap]
    obtain ⟨fr, fc, fp, fo, fl⟩ := foldl_delColStep_preserve (S.Cols.length - 1)
      (List.range (S0.col (S.Cols.length - 1)).HasElems.length) S0
    refine ⟨_, rfl, ?_, ?_, ?_, ?_, ?_⟩
    · show ((List.range (S0.col (S.Cols.length - 1)).HasElems.length).foldl
        (delColStep (S.Cols.length - 1)) S0).Cols.dropLast.map cview = _
      rw [map_dropLast_eq, fc, hsc]
      rw [dropLast_set_of_lt _ j _ (by rw [List.length_set, hmaplen]; omega)]
      have hdl : ((S.Cols.map cview).set (S.Cols.length - 1) (cview (S.col j))).dropLast
          = (S.Cols.map cview).dropLast := by
        rw [show S.Cols.length - 1 = (S.Cols.map cview).length - 1 from by rw [hmaplen]]
        exact dropLast_set_last _ _
      rw [hdl]
    · show ((List.range (S0.col (S.Cols.length - 1)).HasElems.length).foldl
        (delColStep (S.Cols.length - 1)) S0).Rows.map rview = _
      rw [fr, hsr]
    · show ((List.range (S0.col (S.Cols.length - 1)).HasElems.length).foldl
        (delColStep (S.Cols.length - 1)) S0).psOpList = _
      rw [fp, hsp]
    · show ((List.range (S0.col (S.Cols.length - 1)).HasElems.length).foldl
        (delColStep (S.Cols.length - 1)) S0).ObjRow = _
      rw [fo, hso]
    · show ((List.range (S0.col (S.Cols.length - 1)).HasElems.length).foldl
        (delColStep (S.Cols.length - 1)) S0).Cols.dropLast.length = _
      rw [List.length_dropLast, fl, hsl]
  · rw [if_neg hlast]
    push_neg at hlast
    subst hlast
    obtain ⟨fr, fc, fp, fo, fl⟩ := foldl_delColStep_preserve (S.Cols.length - 1)
      (List.range (S.col (S.Cols.length - 1)).HasElems.length) S
    refine ⟨_, rfl, ?_, ?_, ?_, ?_, ?_⟩
    · show ((List.range (S.col (S.Cols.length - 1)).HasElems.length).foldl
        (delColStep (S.Cols.length - 1)) S).Cols.dropLast.map cview = _
      rw [map_dropLast_eq, fc]
      rw [set_of_length_le _ _ _ (by rw [List.length_dropLast, hmaplen])]
    · show ((List.range (S.col (S.Cols.length - 1)).HasElems.length).foldl
        (delColStep (S.Cols.length - 1)) S).Rows.map rview = _
      rw [fr]
    · show ((List.range (S.col (S.Cols.length - 1)).HasElems.length).foldl
        (delColStep (S.Cols.length - 1)) S).psOpList = _
      rw [fp]
    · show ((List.range (S.col (S.Cols.length - 1)).HasElems.length).foldl
        (delColStep (S.Cols.length - 1)) S).ObjRow = _
      rw [fo]
    · show ((List.range (S.col (S.Cols.length - 1)).HasElems.length).foldl
        (delColStep (S.Cols.length - 1)) S).Cols.dropLast.length = _
      rw [List.length_dropLast, fl]

theorem getD_set_eq {α : Type} :
    ∀ (l : List α) (i : Nat) (a d : α), i < l.length → (l.set i a).getD i d = a := by
  intro l
  induction l with
  | nil => intro i a d h; simp at h
  | cons x xs ih =>
    intro i a d h
    cases i with
    | zero => rfl
    | succ m => exact ih m a d (Nat.lt_of_succ_lt_succ h)

theorem getD_set_ne {α : Type} :
    ∀ (l : List α) (i k : Nat) (a d : α), i ≠ k → (l.set i a).getD k d = l.getD k d := by
  intro l
  induction l with
  | nil => intro i k a d h; rfl
  | cons x xs ih =>
    intro i k a d h
    cases i with
    | zero =>
      cases k with
      | zero => exact absurd rfl h
      | succ mk => rfl
    | succ mi =>
      cases k with
      | zero => rfl
      | succ mk => exact ih mi mk a d (fun he => h (congrArg Nat.succ he))

theorem getD_dropLast_of_lt {α : Type} :
    ∀ (l : List α) (k : Nat) (d : α), k < l.length - 1 → l.dropLast.getD k d = l.getD k d := by
  intro l
  induction l with
  | nil => intro k d h; rfl
  | cons x xs ih =>
    intro k d h
    cases xs with
    | nil => simp at h
    | cons y ys =>
      rw [show (x :: y :: ys).dropLast = x :: (y :: ys).dropLast from rfl]
      cases k with
      | zero => rfl
      | succ m =>
        have : m < (y :: ys).length - 1 := by
          simp only [List.length_cons] at h ⊢
          omega
        exact ih m d this

theorem dropLast_append_getD {α : Type} (d : α) :
    ∀ (l : List α), l ≠ [] → l.dropLast ++ [l.getD (l.length - 1) d] = l := by
  intro l
  induction l with
  | nil => intro h; exact absurd rfl h
  | cons x xs ih =>
    intro _
    cases xs with
    | nil => rfl
    | cons y ys =>
      rw [show (x :: y :: ys).dropLast = x :: (y :: ys).dropLast from rfl]
      rw [show (x :: y :: ys).getD ((x :: y :: ys).length - 1) d
            = (y :: ys).getD ((y :: ys).length - 1) d from rfl]
      rw [List.cons_append, ih (by simp)]

theorem set_perm_cons_eraseIdx {α : Type} :
    ∀ (l : List α) (i : Nat) (a : α), i < l.length →
      List.Perm (l.set i a) (a :: l.eraseIdx i) := by
  intro l
  induction l with
  | nil => intro i a h; simp at h
  | cons x xs ih =>
    intro i a h
    cases i with
    | zero => rfl
    | succ m =>
      rw [show (x :: xs).set (m + 1) a = x :: xs.set m a from rfl,
          show (x :: xs).eraseIdx (m + 1) = x :: xs.eraseIdx m from rfl]
      exact ((ih m a (Nat.lt_of_succ_lt_succ h)).cons x).trans (List.Perm.swap a x _)

theorem perm_getD_cons_eraseIdx {α : Type} (l : List α) (i : Nat) (d : α)
    (h : i < l.length) : List.Perm l (l.getD i d :: l.eraseIdx i) := by
  have := set_perm_cons_eraseIdx l i (l.getD i d) h
  rwa [set_getD_self] at this

theorem dropLast_set_getD_perm {α : Type} (d : α) :
    ∀ (l : List α) (i : Nat), i < l.length →
      List.Perm ((l.dropLast).set i (l.getD (l.length - 1) d)) (l.eraseIdx i) := by
  intro l
  induction l with
  | nil => intro i h; simp at h
  | cons x xs ih =>
    intro i h
    cases xs with
    | nil =>
      cases i with
      | zero => rfl
      | succ m => simp at h
    | cons y ys =>
      cases i with
      | zero =>
        rw [show (x :: y :: ys).dropLast = x :: (y :: ys).dropLast from rfl,
            show (x :: (y :: ys).dropLast).set 0
              ((x :: y :: ys).getD ((x :: y :: ys).length - 1) d)
              = ((x :: y :: ys).getD ((x :: y :: ys).length - 1) d) :: (y :: ys).dropLast from rfl,
            show (x :: y :: ys).eraseIdx 0 = y :: ys from rfl,
            show (x :: y :: ys).getD ((x :: y :: ys).length - 1) d
              = (y :: ys).getD ((y :: ys).length - 1) d from rfl]
        refine List.Perm.trans ?_
          (List.Perm.of_eq (dropLast_append_getD d (y :: ys) (by simp)))
        exact (List.perm_append_singleton _ _).symm
      | succ m =>
        rw [show (x :: y :: ys).dropLast = x :: (y :: ys).dropLast from rfl,
            show (x :: (y :: ys).dropLast).set (m + 1)
              ((x :: y :: ys).getD ((x :: y :: ys).length - 1) d)
              = x :: ((y :: ys).dropLast.set m
                  ((x :: y :: ys).getD ((x :: y :: ys).length - 1) d)) from rfl,
            show (x :: y :: ys).eraseIdx (m + 1) = x :: (y :: ys).eraseIdx m from rfl,
            show (x :: y :: ys).getD ((x :: y :: ys).length - 1) d
              = (y :: ys).getD ((y :: ys).length - 1) d from rfl]
        exact (ih m (Nat.lt_of_succ_lt_succ h)).cons x

theorem getD_map_rview (S : Store) (k : Nat) :
    (S.Rows.map rview).getD k (rview dummyRow) = rview (S.row k) :=
  getD_map rview S.Rows k dummyRow

theorem getD_map_cview (S : Store) (k : Nat) :
    (S.Cols.map cview).getD k (cview dummyCol) = cview (S.col k) :=
  getD_map cview S.Cols k dummyCol

/-- The downward scan of delTaggedRows: provided every row at or above the
scan index is untagged, the scan succeeds, deletes exactly the delete-tagged
rows (the surviving row views are a permutation of the untagged ones), adds
their number to the accumulator, and leaves column views, ledger and
objective index unchanged. -/
theorem delTaggedRowsAux_spec :
    ∀ (i : Nat) (S : Store) (acc : Nat),
      i ≤ S.Rows.length →
      (∀ k, i ≤ k → k < S.Rows.length → (S.row k).State ≠ stateDelete) →
      ∃ S' n, delTaggedRowsAux i S acc = .ok (S', n) ∧
        List.Perm (S'.Rows.map rview)
          ((S.Rows.map rview).filter (fun v => v.State ≠ stateDelete)) ∧
        S'.Cols.map cview = S.Cols.map cview ∧
        S'.psOpList = S.psOpList ∧
        S'.ObjRow = S.ObjRow ∧
        n = acc + (S.Rows.map rview).countP (fun v => v.State = stateDelete) := by
  intro i
  induction i with
  | zero =>
    intro S acc _ hup
    refine ⟨S, acc, rfl, ?_, rfl, rfl, rfl, ?_⟩
    · rw [List.filter_eq_self.mpr ?_]
      intro a ha
      obtain ⟨r, hr, hra⟩ := List.mem_map.mp ha
      obtain ⟨k, hk, hkr⟩ := List.mem_iff_getElem.mp hr
      have : S.row k = r := by
        unfold Store.row
        rw [List.getD_eq_getElem _ _ hk, hkr]
      have hst : r.State ≠ stateDelete := this ▸ hup k (Nat.zero_le k) hk
      subst hra
      simpa using hst
    · have h0 : (S.Rows.map rview).countP (fun v => v.State = stateDelete) = 0 := by
        refine List.countP_eq_zero.mpr ?_
        intro a ha
        obtain ⟨r, hr, hra⟩ := List.mem_map.mp ha
        obtain ⟨k, hk, hkr⟩ := List.mem_iff_getElem.mp hr
        have : S.row k = r := by
          unfold Store.row
          rw [List.getD_eq_getElem _ _ hk, hkr]
        have hst : r.State ≠ stateDelete := this ▸ hup k (Nat.zero_le k) hk
        subst hra
        simpa using hst
      rw [h0]
      omega
  | succ i ih =>
    intro S acc hfuel hup
    by_cases hdel : (S.row i).State = stateDelete
    · have hi : i < S.Rows.length := hfuel
      obtain ⟨S1, hDel, h1r, h1c, h1p, h1o, h1l⟩ := DelRow_spec S i hi
      have hstep : delTaggedRowsAux (i + 1) S acc = delTaggedRowsAux i S1 (acc + 1) := by
        simp only [delTaggedRowsAux]
        rw [if_pos hdel, hDel]
      have hfuel1 : i ≤ S1.Rows.length := by omega
      have hmaplen : (S.Rows.map rview).length = S.Rows.length := List.length_map _ _
      have hup1 : ∀ k, i ≤ k → k < S1.Rows.length → (S1.row k).State ≠ stateDelete := by
        intro k hik hk
        have hview : rview (S1.row k) = ((S1.Rows.map rview).getD k (rview dummyRow)) :=
          (getD_map_rview S1 k).symm
        have hstate : (S1.row k).State = (rview (S1.row k)).State := rfl
        rw [hstate, hview, h1r]
        rcases Nat.eq_or_lt_of_le hik with heq | hlt
        · subst heq
          rw [getD_set_eq _ _ _ _ (by rw [List.length_dropLast, hmaplen]; omega)]
          have := hup (S.Rows.length - 1) (by omega) (by omega)
          simpa [rview] using this
        · rw [getD_set_ne _ _ _ _ _ (by omega)]
          rw [getD_dropLast_of_lt _ _ _ (by rw [hmaplen]; omega)]
          rw [getD_map_rview]
          have := hup k (by omega) (by omega)
          simpa [rview] using this
      obtain ⟨S', n, hrun, hperm, hcols, hpsop, hobj, hn⟩ := ih S1 (acc + 1) hfuel1 hup1
      refine ⟨S', n, by rw [hstep, hrun], ?_, ?_, ?_, ?_, ?_⟩
      · have hS1perm : List.Perm (S1.Rows.map rview) ((S.Rows.map rview).eraseIdx i) := by
          rw [h1r]
          have := dropLast_set_getD_perm (rview dummyRow) (S.Rows.map rview) i
            (by rw [hmaplen]; omega)
          rw [getD_map_rview] at this
          rw [show (S.Rows.map rview).length - 1 = S.Rows.length - 1 from by rw [hmaplen]] at this
          exact this
        have hhead : List.Perm (S.Rows.map rview)
            (rview (S.row i) :: (S.Rows.map rview).eraseIdx i) := by
          have := perm_getD_cons_eraseIdx (S.Rows.map rview) i (rview dummyRow)
            (by rw [hmaplen]; omega)
          rwa [getD_map_rview] at this
        have hfe : List.Perm
            (((S.Rows.map rview).eraseIdx i).filter (fun v => v.State ≠ stateDelete))
            ((S.Rows.map rview).filter (fun v => v.State ≠ stateDelete)) := by
          have h2 := hhead.filter (fun v => decide (v.State ≠ stateDelete))
          rw [List.filter_cons_of_neg (by simp [rview, hdel])] at h2
          exact h2.symm
        exact hperm.trans ((hS1perm.filter _).trans hfe)
      · rw [hcols, h1c]
      · rw [hpsop, h1p]
      · rw [hobj, h1o]
      · have hS1perm : List.Perm (S1.Rows.map rview) ((S.Rows.map rview).eraseIdx i) := by
          rw [h1r]
          have := dropLast_set_getD_perm (rview dummyRow) (S.Rows.map rview) i
            (by rw [hmaplen]; omega)
          rw [getD_map_rview] at this
          rw [show (S.Rows.map rview).length - 1 = S.Rows.length - 1 from by rw [hmaplen]] at this
          exact this
        have hhead : List.Perm (S.Rows.map rview)
            (rview (S.row i) :: (S.Rows.map rview).eraseIdx i) := by
          have := perm_getD_cons_eraseIdx (S.Rows.map rview) i (rview dummyRow)
            (by rw [hmaplen]; omega)
          rwa [getD_map_rview] at this
        have hc1 : (S1.Rows.map rview).countP (fun v => v.State = stateDelete) =
            ((S.Rows.map rview).eraseIdx i).countP (fun v => v.State = stateDelete) :=
          hS1perm.countP_eq _
        have hc2 : (S.Rows.map rview).countP (fun v => v.State = stateDelete) =
            ((S.Rows.map rview).eraseIdx i).countP (fun v => v.State = stateDelete) + 1 := by
          rw [hhead.countP_eq, List.countP_cons]
          simp [rview, hdel]
        omega
    · have hstep : delTaggedRowsAux (i + 1) S acc = delTaggedRowsAux i S acc := by
        simp only [delTaggedRowsAux]
        rw [if_neg hdel]
      have hup1 : ∀ k, i ≤ k → k < S.Rows.length → (S.row k).State ≠ stateDelete := by
        intro k hik hk
        rcases Nat.eq_or_lt_of_le hik with heq | hlt
        · subst heq; exact hdel
        · exact hup k (by omega) hk
      obtain ⟨S', n, hrun, hperm, hcols, hpsop, hobj, hn⟩ := ih S acc (by omega) hup1
      exact ⟨S', n, by rw [hstep, hrun], hperm, hcols, hpsop, hobj, hn⟩

/-- The downward scan of delTaggedCols, mirror of delTaggedRowsAux_spec. -/
theorem delTaggedColsAux_spec :
    ∀ (i : Nat) (S : Store) (acc : Nat),
      i ≤ S.Cols.length →
      (∀ k, i ≤ k → k < S.Cols.length → (S.col k).State ≠ stateDelete) →
      ∃ S' n, delTaggedColsAux i S acc = .ok (S', n) ∧
        List.Perm (S'.Cols.map cview)
          ((S.Cols.map cview).filter (fun v => v.State ≠ stateDelete)) ∧
        S'.Rows.map rview = S.Rows.map rview ∧
        S'.psOpList = S.psOpList ∧
        S'.ObjRow = S.ObjRow ∧
        n = acc + (S.Cols.map cview).countP (fun v => v.State = stateDelete) := by
  intro i
  induction i with
  | zero =>
    intro S acc _ hup
    refine ⟨S, acc, rfl, ?_, rfl, rfl, rfl, ?_⟩
    · rw [List.filter_eq_self.mpr ?_]
      intro a ha
      obtain ⟨c, hc, hca⟩ := List.mem_map.mp ha
      obtain ⟨k, hk, hkc⟩ := List.mem_iff_getElem.mp hc
      have : S.col k = c := by
        unfold Store.col
        rw [List.getD_eq_getElem _ _ hk, hkc]
      have hst : c.State ≠ stateDelete := this ▸ hup k (Nat.zero_le k) hk
      subst hca
      simpa using hst
    · have h0 : (S.Cols.map cview).countP (fun v => v.State = stateDelete) = 0 := by
        refine List.countP_eq_zero.mpr ?_
        intro a ha
        obtain ⟨c, hc, hca⟩ := List.mem_map.mp ha
        obtain ⟨k, hk, hkc⟩ := List.mem_iff_getElem.mp hc
        have : S.col k = c := by
          unfold Store.col
          rw [List.getD_eq_getElem _ _ hk, hkc]
        have hst : c.State ≠ stateDelete := this ▸ hup k (Nat.zero_le k) hk
        subst hca
        simpa using hst
      rw [h0]
      omega
  | succ i ih =>
    intro S acc hfuel hup
    by_cases hdel : (S.col i).State = stateDelete
    · have hi : i < S.Cols.length := hfuel
      obtain ⟨S1, hDel, h1c, h1r, h1p, h1o, h1l⟩ := DelCol_spec S i hi
      have hstep : delTaggedColsAux (i + 1) S acc = delTaggedColsAux i S1 (acc + 1) := by
        simp only [delTaggedColsAux]
        rw [if_pos hdel, hDel]
      have hfuel1 : i ≤ S1.Cols.length := by omega
      have hmaplen : (S.Cols.map cview).length = S.Cols.length := by simp
      have hup1 : ∀ k, i ≤ k → k < S1.Cols.length → (S1.col k).State ≠ stateDelete := by
        intro k hik hk
        have hview : cview (S1.col k) = ((S1.Cols.map cview).getD k (cview dummyCol)) :=
          (getD_map_cview S1 k).symm
        have hstate : (S1.col k).State = (cview (S1.col k)).State := rfl
        rw [hstate, hview, h1c]
        rcases Nat.eq_or_lt_of_le hik with heq | hlt
        · subst heq
          rw [getD_set_eq _ _ _ _ (by rw [List.length_dropLast, hmaplen]; omega)]
          have := hup (S.Cols.length - 1) (by omega) (by omega)
          simpa [cview] using this
        · rw [getD_set_ne _ _ _ _ _ (by omega)]
          rw [getD_dropLast_of_lt _ _ _ (by rw [hmaplen]; omega)]
          rw [getD_map_cview]
          have := hup k (by omega) (by omega)
          simpa [cview] using this
      obtain ⟨S', n, hrun, hperm, hrows, hpsop, hobj, hn⟩ := ih S1 (acc + 1) hfuel1 hup1
      have hS1perm : List.Perm (S1.Cols.map cview) ((S.Cols.map cview).eraseIdx i) := by
        rw [h1c]
        have := dropLast_set_getD_perm (cview dummyCol) (S.Cols.map cview) i
          (by rw [hmaplen]; omega)
        rw [getD_map_cview] at this
        rw [show (S.Cols.map cview).length - 1 = S.Cols.length - 1 from by rw [hmaplen]] at this
        exact this
      have hhead : List.Perm (S.Cols.map cview)
          (cview (S.col i) :: (S.Cols.map cview).eraseIdx i) := by
        have := perm_getD_cons_eraseIdx (S.Cols.map cview) i (cview dummyCol)
          (by rw [hmaplen]; omega)
        rwa [getD_map_cview] at this
      refine ⟨S', n, by rw [hstep, hrun], ?_, ?_, ?_, ?_, ?_⟩
      · have hfe : List.Perm
            (((S.Cols.map cview).eraseIdx i).filter (fun v => v.State ≠ stateDelete))
            ((S.Cols.map cview).filter (fun v => v.State ≠ stateDelete)) := by
          have h2 := hhead.filter (fun v => decide (v.State ≠ stateDelete))
          rw [List.filter_cons_of_neg (by simp [cview, hdel])] at h2
          exact h2.symm
        exact hperm.trans ((hS1perm.filter _).trans hfe)
      · rw [hrows, h1r]
      · rw [hpsop, h1p]
      · rw [hobj, h1o]
      · have hc1 : (S1.Cols.map cview).countP (fun v => v.State = stateDelete) =
            ((S.Cols.map cview).eraseIdx i).countP (fun v => v.State = stateDelete) :=
          hS1perm.countP_eq _
        have hc2 : (S.Cols.map cview).countP (fun v => v.State = stateDelete) =
            ((S.Cols.map cview).eraseIdx i).countP (fun v => v.State = stateDelete) + 1 := by
          rw [hhead.countP_eq, List.countP_cons]
          simp [cview, hdel]
        omega
    · have hstep : delTaggedColsAux (i + 1) S acc = delTaggedColsAux i S acc := by
        simp only [delTaggedColsAux]
        rw [if_neg hdel]
      have hup1 : ∀ k, i ≤ k → k < S.Cols.length → (S.col k).State ≠ stateDelete := by
        intro k hik hk
        rcases Nat.eq_or_lt_of_le hik with heq | hlt
        · subst heq; exact hdel
        · exact hup k (by omega) hk
      obtain ⟨S', n, hrun, hperm, hrows, hpsop, hobj, hn⟩ := ih S acc (by omega) hup1
      exact ⟨S', n, by rw [hstep, hrun], hperm, hrows, hpsop, hobj, hn⟩

/-- delTaggedRows at its call sites (fuel = full length, hypotheses vacuous). -/
theorem delTaggedRows_spec (S : Store) :
    ∃ S' n, delTaggedRows S = .ok (S', n) ∧
      List.Perm (S'.Rows.map rview)
        ((S.Rows.map rview).filter (fun v => v.State ≠ stateDelete)) ∧
      S'.Cols.map cview = S.Cols.map cview ∧
      S'.psOpList = S.psOpList ∧
      S'.ObjRow = S.ObjRow ∧
      n = (S.Rows.map rview).countP (fun v => v.State = stateDelete) := by
  obtain ⟨S', n, hrun, hperm, hcols, hpsop, hobj, hn⟩ :=
    delTaggedRowsAux_spec S.Rows.length S 0 (Nat.le_refl _) (fun k hk hk2 => absurd hk2 (by omega))
  exact ⟨S', n, hrun, hperm, hcols, hpsop, hobj, by omega⟩

/-- delTaggedCols at its call sites. -/
theorem delTaggedCols_spec (S : Store) :
    ∃ S' n, delTaggedCols S = .ok (S', n) ∧
      List.Perm (S'.Cols.map cview)
        ((S.Cols.map cview).filter (fun v => v.State ≠ stateDelete)) ∧
      S'.Rows.map rview = S.Rows.map rview ∧
      S'.psOpList = S.psOpList ∧
      S'.ObjRow = S.ObjRow ∧
      n = (S.Cols.map cview).countP (fun v => v.State = stateDelete) := by
  obtain ⟨S', n, hrun, hperm, hrows, hpsop, hobj, hn⟩ :=
    delTaggedColsAux_spec S.Cols.length S 0 (Nat.le_refl _) (fun k hk hk2 => absurd hk2 (by omega))
  exact ⟨S', n, hrun, hperm, hrows, hpsop, hobj, by omega⟩

/-! Reading back single-row and single-column updates, and the ledger shape
of updatePsList. -/

theorem row_updRow_eq (S : Store) (i : Nat) (f : InputRow → InputRow)
    (h : i < S.Rows.length) : (S.updRow i f).row i = f (S.row i) := by
  show (S.Rows.set i (f (S.Rows.getD i dummyRow))).getD i dummyRow = _
  rw [getD_set_eq _ _ _ _ h]
  rfl

theorem row_updRow_ne (S : Store) (i r : Nat) (f : InputRow → InputRow)
    (h : i ≠ r) : (S.updRow i f).row r = S.row r := by
  show (S.Rows.set i (f (S.Rows.getD i dummyRow))).getD r dummyRow = _
  rw [getD_set_ne _ _ _ _ _ h]
  rfl

theorem col_updCol_eq (S : Store) (j : Nat) (f : InputCol → InputCol)
    (h : j < S.Cols.length) : (S.updCol j f).col j = f (S.col j) := by
  show (S.Cols.set j (f (S.Cols.getD j dummyCol))).getD j dummyCol = _
  rw [getD_set_eq _ _ _ _ h]
  rfl

theorem col_updCol_ne (S : Store) (j c : Nat) (f : InputCol → InputCol)
    (h : j ≠ c) : (S.updCol j f).col c = S.col c := by
  show (S.Cols.set j (f (S.Cols.getD j dummyCol))).getD c dummyCol = _
  rw [getD_set_ne _ _ _ _ _ h]
  rfl

theorem row_updCol (S : Store) (j r : Nat) (f : InputCol → InputCol) :
    (S.updCol j f).row r = S.row r := rfl

theorem col_updRow (S : Store) (i c : Nat) (f : InputRow → InputRow) :
    (S.updRow i f).col c = S.col c := rfl

theorem updRow_map_proj {β : Type} (p : InputRow → β) (S : Store) (i : Nat)
    (f : InputRow → InputRow) (h : ∀ r, p (f r) = p r) :
    (S.updRow i f).Rows.map p = S.Rows.map p := by
  show ((S.Rows.set i (f (S.Rows.getD i dummyRow))).map p) = S.Rows.map p
  rw [mapSet_eq, h]
  have : p (S.Rows.getD i dummyRow) = (S.Rows.map p).getD i (p dummyRow) :=
    (getD_map p S.Rows i dummyRow).symm
  rw [this, set_getD_self]

theorem updCol_map_proj {β : Type} (p : InputCol → β) (S : Store) (j : Nat)
    (f : InputCol → InputCol) (h : ∀ c, p (f c) = p c) :
    (S.updCol j f).Cols.map p = S.Cols.map p := by
  show ((S.Cols.set j (f (S.Cols.getD j dummyCol))).map p) = S.Cols.map p
  rw [mapSet_eq, h]
  have : p (S.Cols.getD j dummyCol) = (S.Cols.map p).getD j (p dummyCol) :=
    (getD_map p S.Cols j dummyCol).symm
  rw [this, set_getD_self]

theorem updatePsList_rows (op : String) (ri ci : Int) (S : Store) :
    (updatePsList op ri ci S).Rows = S.Rows := rfl

theorem updatePsList_cols (op : String) (ri ci : Int) (S : Store) :
    (updatePsList op ri ci S).Cols = S.Cols := rfl

theorem updatePsList_elems (op : String) (ri ci : Int) (S : Store) :
    (updatePsList op ri ci S).Elems = S.Elems := rfl

theorem updatePsList_objRow (op : String) (ri ci : Int) (S : Store) :
    (updatePsList op ri ci S).ObjRow = S.ObjRow := rfl

theorem row_updatePsList (op : String) (ri ci : Int) (S : Store) (r : Nat) :
    (updatePsList op ri ci S).row r = S.row r := rfl

theorem col_updatePsList (op : String) (ri ci : Int) (S : Store) (c : Nat) :
    (updatePsList op ri ci S).col c = S.col c := rfl

theorem updatePsList_row_entry (op : String) (i : Nat) (S : Store)
    (h : i < S.Rows.length) :
    (updatePsList op (Int.ofNat i) (-1) S).psOpList =
      S.psOpList ++ [⟨op, zeroPsCol, translateRow S (S.row i)⟩] := by
  have h0 : (0 ≤ (Int.ofNat i) ∧ (Int.ofNat i) < (S.Rows.length : Int)) :=
    ⟨Int.ofNat_nonneg i, by show (i : Int) < (S.Rows.length : Int); exact_mod_cast h⟩
  have h1 : ¬ (0 ≤ (-1 : Int) ∧ (-1 : Int) < (S.Cols.length : Int)) := by omega
  unfold updatePsList
  rw [if_neg h1, if_pos h0]
  rfl

theorem updatePsList_col_entry (op : String) (j : Nat) (S : Store)
    (h : j < S.Cols.length) :
    (updatePsList op (-1) (Int.ofNat j) S).psOpList =
      S.psOpList ++ [⟨op, ⟨(S.col j).Name, (S.col j).Typ, (S.col j).BndLo,
        (S.col j).BndUp, (S.col j).ScaleFactor⟩, zeroPsRow⟩] := by
  have h0 : (0 ≤ (Int.ofNat j) ∧ (Int.ofNat j) < (S.Cols.length : Int)) :=
    ⟨Int.ofNat_nonneg j, by show (j : Int) < (S.Cols.length : Int); exact_mod_cast h⟩
  have h1 : ¬ (0 ≤ (-1 : Int) ∧ (-1 : Int) < (S.Rows.length : Int)) := by omega
  unfold updatePsList
  rw [if_pos h0, if_neg h1]
  rfl

theorem updatePsList_rowcol_entry (op : String) (i j : Nat) (S : Store)
    (hi : i < S.Rows.length) (hj : j < S.Cols.length) :
    (updatePsList op (Int.ofNat i) (Int.ofNat j) S).psOpList =
      S.psOpList ++ [⟨op, ⟨(S.col j).Name, (S.col j).Typ, (S.col j).BndLo,
        (S.col j).BndUp, (S.col j).ScaleFactor⟩, translateRow S (S.row i)⟩] := by
  have h0 : (0 ≤ (Int.ofNat j) ∧ (Int.ofNat j) < (S.Cols.length : Int)) :=
    ⟨Int.ofNat_nonneg j, by show (j : Int) < (S.Cols.length : Int); exact_mod_cast hj⟩
  have h1 : (0 ≤ (Int.ofNat i) ∧ (Int.ofNat i) < (S.Rows.length : Int)) :=
    ⟨Int.ofNat_nonneg i, by show (i : Int) < (S.Rows.length : Int); exact_mod_cast hi⟩
  unfold updatePsList
  rw [if_pos h0, if_pos h1]
  rfl

theorem translateRow_state (A : Store) (r : InputRow) (s : LpState) :
    translateRow A { r with State := s } = translateRow A r := rfl

theorem translateRow_name (A : Store) (r : InputRow) :
    (translateRow A r).Name = r.Name := rfl

/-! The delNbRows tagging fold. -/

/-- One step of the delNbRows scan. -/
def nbStep (T : Store) (i : Nat) : Store :=
  if (T.row i).State ≠ stateActive then T
  else if (T.row i).Typ = "N" then
    updatePsList psopNbRow (Int.ofNat i) (-1)
      (T.updRow i (fun r => { r with State := stateDelete }))
  else T

theorem delNbRows_eq_fold (S : Store) :
    delNbRows S =
      match delTaggedRows ((List.range S.Rows.length).foldl nbStep S) with
      | .error e => .error e
      | .ok (S2, numDltd) => .ok (numDltd, S2) := rfl

/-- Frame facts for any list of nbStep iterations: columns, elements,
objective index, row count and row names are unchanged; rows not listed are
untouched; every row is either untouched or merely delete-tagged; the ledger
only grows. -/
theorem nbFold_frame :
    ∀ (idxs : List Nat) (T : Store),
      ((idxs.foldl nbStep T).Cols = T.Cols) ∧
      ((idxs.foldl nbStep T).Elems = T.Elems) ∧
      ((idxs.foldl nbStep T).ObjRow = T.ObjRow) ∧
      ((idxs.foldl nbStep T).Rows.length = T.Rows.length) ∧
      ((idxs.foldl nbStep T).Rows.map (fun r => r.Name) = T.Rows.map (fun r => r.Name)) ∧
      (∀ r, r ∉ idxs → (idxs.foldl nbStep T).row r = T.row r) ∧
      (∀ r, (idxs.foldl nbStep T).row r = T.row r ∨
        (idxs.foldl nbStep T).row r = { T.row r with State := stateDelete }) ∧
      (∃ ext, (idxs.foldl nbStep T).psOpList = T.psOpList ++ ext) := by
  intro idxs
  induction idxs with
  | nil =>
    intro T
    exact ⟨rfl, rfl, rfl, rfl, rfl, fun r _ => rfl, fun r => Or.inl rfl, [], by simp⟩
  | cons i rest ih =>
    intro T
    have hstepCols : (nbStep T i).Cols = T.Cols := by
      unfold nbStep
      split
      · rfl
      · split
        · rfl
        · rfl
    have hstepElems : (nbStep T i).Elems = T.Elems := by
      unfold nbStep
      split
      · rfl
      · split
        · rfl
        · rfl
    have hstepObj : (nbStep T i).ObjRow = T.ObjRow := by
      unfold nbStep
      split
      · rfl
      · split
        · rfl
        · rfl
    have hstepLen : (nbStep T i).Rows.length = T.Rows.length := by
      unfold nbStep
      split
      · rfl
      · split
        · rw [updatePsList_rows]
          exact updRow_rows_length T i _
        · rfl
    have hstepNames : (nbStep T i).Rows.map (fun r => r.Name) = T.Rows.map (fun r => r.Name) := by
      unfold nbStep
      split
      · rfl
      · split
        · rw [updatePsList_rows]
          exact updRow_map_proj _ T i _ (fun r => rfl)
        · rfl
    have hstepNe : ∀ r, r ≠ i → (nbStep T i).row r = T.row r := by
      intro r hr
      unfold nbStep
      split
      · rfl
      · split
        · rw [row_updatePsList]
          exact row_updRow_ne T i r _ (fun he => hr (he.symm))
        · rfl
    have hstepAt : ∀ r, (nbStep T i).row r = T.row r ∨
        (nbStep T i).row r = { T.row r with State := stateDelete } := by
      intro r
      by_cases hri : r = i
      · subst hri
        unfold nbStep
        split
        · exact Or.inl rfl
        · split
          · by_cases hlen : r < T.Rows.length
            · right
              rw [row_updatePsList, row_updRow_eq T r _ hlen]
            · left
              rw [row_updatePsList]
              show (T.Rows.set r _).getD r dummyRow = T.Rows.getD r dummyRow
              rw [set_of_length_le _ _ _ (by omega)]
          · exact Or.inl rfl
      · exact Or.inl (hstepNe r hri)
    have hstepPs : ∃ ext, (nbStep T i).psOpList = T.psOpList ++ ext := by
      unfold nbStep
      split
      · exact ⟨[], by simp⟩
      · split
        · obtain ⟨e, he⟩ : ∃ e, (updatePsList psopNbRow (Int.ofNat i) (-1)
              (T.updRow i (fun r => { r with State := stateDelete }))).psOpList =
              (T.updRow i (fun r => { r with State := stateDelete })).psOpList ++ [e] :=
            ⟨_, rfl⟩
          exact ⟨[e], by rw [he, updRow_psOpList]⟩
        · exact ⟨[], by simp⟩
    rw [List.foldl_cons]
    obtain ⟨c1, c2, c3, c4, c5, c6, c7, c8⟩ := ih (nbStep T i)
    refine ⟨by rw [c1, hstepCols], by rw [c2, hstepElems], by rw [c3, hstepObj],
      by rw [c4, hstepLen], by rw [c5, hstepNames], ?_, ?_, ?_⟩
    · intro r hr
      rw [c6 r (fun hm => hr (List.mem_cons_of_mem i hm)),
          hstepNe r (fun he => hr (he ▸ List.mem_cons_self i rest))]
    · intro r
      rcases c7 r with h1 | h1 <;> rcases hstepAt r with h2 | h2
      · exact Or.inl (h1.trans h2)
      · exact Or.inr (h1.trans h2)
      · exact Or.inr (by rw [h1, h2])
      · exact Or.inr (by rw [h1, h2])
    · obtain ⟨e1, he1⟩ := hstepPs
      obtain ⟨e2, he2⟩ := c8
      exact ⟨e1 ++ e2, by rw [he2, he1, List.append_assoc]⟩

/-- C1: cross-index integrity of the Store under DelRow/DelCol.  The claim
fails on the code: c1Store satisfies the integrity property, the in-range
call DelRow 1 succeeds, and the resulting store leaves column "c5" holding
the stale element index 2 while Elems has been truncated to length 1 — a
dangling reference past the truncated end.  The culprit is the slice
aliasing between the loop's elemList and Rows[lastRow].HasElems combined
with the first-occurrence semantics of the fix-up writes: at loop iteration
3 the fix-up for element 2 rewrites the stale entry at position 0 instead of
the live entry at position 4. -/
theorem C1_delrow_breaks_cross_index :
    crossIndexOK c1Store ∧
    (DelRow 1 c1Store).toOption = some c1Broken ∧
    ¬ crossIndexOK c1Broken := by decide

/-- C2 counterexample: on c2Store (singleton rows 2x = 6 and 3y = 9 next to
x + y ≥ 5) the claim instantiated at the singleton row R1 predicts that
R3's finite RHSlo ends at 5 - (6/2)·1 = 2 after delRowSingletons, but the
run leaves it at -1, because the second singleton's pin was computed from
R3-adjusting state and subtracted a further 3. -/
theorem C2_counterexample :
    (delRowSingletons c2Store).toOption.map
      (fun p => (p.1, p.2.Rows.map rview)) =
      some (4, [⟨"R3", "G", -1, Plinfy, 1, stateActive⟩]) ∧
    (-1 : ℚ) ≠ 5 - 6 / 2 * 1 := ⟨by decide, by norm_num⟩

/-- C3 counterexample: on c3Store, whose active singleton equality row "Z"
has single-element coefficient 0, delRowSingletons does not return an error:
it returns success (nil) with zero deletions and the store unchanged. -/
theorem C3_counterexample :
    (delRowSingletons c3Store).toOption = some (0, c3Store) := by decide

/-- C4 counterexample: column "xfree" of c4Store is in the locked state, yet
delFreeColSingls tags and deletes it together with its host row "R1" and
appends an FCS ledger entry for it — the kernel applies no state check, so a
locked item is not left unchanged. -/
theorem C4_counterexample :
    (c4Store.col 0).State = stateLocked ∧
    (delFreeColSingls c4Store).toOption.map
      (fun p => (p.1, p.2.Cols.map cview,
                 p.2.Rows.map (fun (r : InputRow) => r.Name),
                 p.2.psOpList.map (fun (o : psOp) => (o.OpType, o.Col.Name)))) =
      some (2, [⟨"y", "R", 0, Plinfy, 1, stateActive⟩], ["obj"],
            [(psopFreeCol, "xfree")]) := by decide

/-- C5 counterexample: the reverse walk over a single MTC (empty column)
ledger entry does not leave the maps unchanged: it inserts the removed
variable into the variable map with value 0. -/
theorem C5_counterexample :
    (postSolve [c5MtcOp] [] []).toOption =
      some ([], [("v", ⟨psVarStatNA, 0, 1, 0⟩)]) ∧
    ([("v", (⟨psVarStatNA, 0, 1, 0⟩ : PsVarRec))] : PsResVarMap) ≠ [] := by decide

/-- C6: with MaxIter = 2 and all kernel flags off, the first sweep on
c6Store removes one item (the empty row), yet ReduceMatrix stops after that
single sweep: the count returned by delEmptyRows is overwritten by the
delEmptyCols count before being added to itemsInPass, so a sweep whose only
removals are empty rows reports zero items and terminates the driver early,
contradicting the claim (which counts empty-row removal). -/
theorem C6_driver_miscounts_empty_rows :
    (ReduceMatrix trivTighten c6Ctrl c6Store).toOption.map
      (fun p => (p.1, p.2.Rows.map (fun (r : InputRow) => r.Name))) =
      some (1, ["R2"]) ∧
    c6Ctrl.MaxIter = 2 ∧ c6Store.Rows.length = 2 := by decide


/-! Tagging facts for the delNbRows fold, and the C10 theorem. -/

theorem nbStep_row_ne (T : Store) (i r : Nat) (h : r ≠ i) :
    (nbStep T i).row r = T.row r := by
  unfold nbStep
  split
  · rfl
  · split
    · rw [row_updatePsList]
      exact row_updRow_ne T i r _ (fun he => h (he.symm))
    · rfl

theorem nbStep_rows_length (T : Store) (i : Nat) :
    (nbStep T i).Rows.length = T.Rows.length := by
  unfold nbStep
  split
  · rfl
  · split
    · rw [updatePsList_rows]
      exact updRow_rows_length T i _
    · rfl

/-- Once the delNbRows scan reaches an active type-N row, the row ends the
scan delete-tagged with its name intact, and an NBR ledger entry carrying
that name is in the ledger. -/
theorem nbFold_tags :
    ∀ (idxs : List Nat) (T : Store) (r : Nat), r ∈ idxs → r < T.Rows.length →
      (T.row r).State = stateActive → (T.row r).Typ = "N" →
      ((idxs.foldl nbStep T).row r).State = stateDelete ∧
      ((idxs.foldl nbStep T).row r).Name = (T.row r).Name ∧
      ∃ op, op ∈ (idxs.foldl nbStep T).psOpList ∧ op.OpType = psopNbRow ∧
        op.Row.Name = (T.row r).Name := by
  intro idxs
  induction idxs with
  | nil =>
    intro T r hmem
    exact absurd hmem (List.not_mem_nil r)
  | cons i rest ih =>
    intro T r hmem hlt hact htyp
    rw [List.foldl_cons]
    by_cases hri : r = i
    · subst hri
      have hstep : nbStep T r = updatePsList psopNbRow (Int.ofNat r) (-1)
          (T.updRow r (fun w => { w with State := stateDelete })) := by
        unfold nbStep
        rw [if_neg (by simp [hact]), if_pos htyp]
      have hrow : (nbStep T r).row r = { T.row r with State := stateDelete } := by
        rw [hstep, row_updatePsList, row_updRow_eq T r _ hlt]
      have hps : (nbStep T r).psOpList = T.psOpList ++
          [⟨psopNbRow, zeroPsCol,
            translateRow (T.updRow r (fun w => { w with State := stateDelete }))
              ({ T.row r with State := stateDelete })⟩] := by
        rw [hstep,
          updatePsList_row_entry _ _ _ (by rw [updRow_rows_length]; exact hlt),
          updRow_psOpList, row_updRow_eq T r _ hlt]
      obtain ⟨fCols, fElems, fObj, fLen, fNames, fNe, fAt, fPs⟩ :=
        nbFold_frame rest (nbStep T r)
      refine ⟨?_, ?_, ?_⟩
      · rcases fAt r with h | h
        · rw [h, hrow]
        · rw [h]
      · rcases fAt r with h | h
        · rw [h, hrow]
        · rw [h, hrow]
      · obtain ⟨ext, hext⟩ := fPs
        refine ⟨⟨psopNbRow, zeroPsCol,
          translateRow (T.updRow r (fun w => { w with State := stateDelete }))
            ({ T.row r with State := stateDelete })⟩, ?_, rfl, rfl⟩
        rw [hext, hps]
        exact List.mem_append_left _ (List.mem_append_right _ (by simp))
    · have hmem2 : r ∈ rest := by
        rcases List.mem_cons.mp hmem with h | h
        · exact absurd h hri
        · exact h
      have h1 : (nbStep T i).row r = T.row r := nbStep_row_ne T i r hri
      have h2 : r < (nbStep T i).Rows.length := by
        rw [nbStep_rows_length]
        exact hlt
      have hres := ih (nbStep T i) r hmem2 h2 (by rw [h1]; exact hact)
        (by rw [h1]; exact htyp)
      rw [h1] at hres
      exact hres

/-- C10: delNbRows tags every active type-N row with no exemption for the
objective row.  If row objIdx is active with sense N, and is the only row
bearing its name, then one call to delNbRows succeeds, no surviving row
bears that name (the objective row is gone from the global Rows list), and
an NBR ledger entry carrying that name has been appended. -/
theorem C10_delnbrows_removes_objective (S : Store) (objIdx : Nat)
    (hlen : objIdx < S.Rows.length)
    (hact : (S.row objIdx).State = stateActive)
    (htyp : (S.row objIdx).Typ = "N")
    (huniq : ∀ k, k < S.Rows.length → (S.row k).Name = (S.row objIdx).Name → k = objIdx) :
    ∃ n S2, delNbRows S = .ok (n, S2) ∧
      (∀ r, r ∈ S2.Rows → r.Name ≠ (S.row objIdx).Name) ∧
      ∃ op, op ∈ S2.psOpList ∧ op.OpType = psopNbRow ∧
        op.Row.Name = (S.row objIdx).Name := by
  obtain ⟨fCols, fElems, fObj, fLen, fNames, fNe, fAt, fPs⟩ :=
    nbFold_frame (List.range S.Rows.length) S
  obtain ⟨hTagState, hTagName, op, hopMem, hopTy, hopName⟩ :=
    nbFold_tags (List.range S.Rows.length) S objIdx (List.mem_range.mpr hlen)
      hlen hact htyp
  obtain ⟨S2, n, hrun, hperm, hcolv, hpsop, hobj2, hn⟩ :=
    delTaggedRows_spec ((List.range S.Rows.length).foldl nbStep S)
  refine ⟨n, S2, ?_, ?_, op, ?_, hopTy, hopName⟩
  · rw [delNbRows_eq_fold, hrun]
  · intro r hr hname
    have h1 : rview r ∈ S2.Rows.map rview := List.mem_map_of_mem rview hr
    have h2 := (List.mem_filter.mp (hperm.mem_iff.mp h1)).1
    have h4 := (List.mem_filter.mp (hperm.mem_iff.mp h1)).2
    obtain ⟨w, hw, hwr⟩ := List.mem_map.mp h2
    obtain ⟨k, hk, hkw⟩ := List.mem_iff_getElem.mp hw
    have hrowk : ((List.range S.Rows.length).foldl nbStep S).row k = w := by
      show (((List.range S.Rows.length).foldl nbStep S).Rows).getD k dummyRow = w
      rw [List.getD_eq_getElem _ _ hk]
      exact hkw
    have hklen : k < S.Rows.length := by
      rw [← fLen]
      exact hk
    have hnamek : (((List.range S.Rows.length).foldl nbStep S).row k).Name =
        (S.row k).Name := by
      have hg := congrArg (fun l => l.getD k dummyRow.Name) fNames
      simp only at hg
      rw [getD_map (fun (x : InputRow) => x.Name) _ k dummyRow,
          getD_map (fun (x : InputRow) => x.Name) _ k dummyRow] at hg
      exact hg
    have hkobj : k = objIdx := by
      apply huniq k hklen
      rw [← hnamek, hrowk]
      have : w.Name = r.Name := congrArg RowView.Name hwr
      rw [this, hname]
    have hdel : w.State = stateDelete := by
      rw [← hrowk, hkobj]
      exact hTagState
    have hst : (rview r).State = stateDelete := by
      rw [← hwr]
      exact hdel
    simp [hst] at h4
  · rw [hpsop]
    exact hopMem

/-- Witness for C10 at the concrete store c10Store whose objective row
(index 0, name obj) has sense N and is active. -/
theorem C10_delnbrows_removes_objective_witness :
    (0 < c10Store.Rows.length ∧ (c10Store.row 0).State = stateActive ∧
      (c10Store.row 0).Typ = "N") ∧
    (∃ n S2, delNbRows c10Store = .ok (n, S2) ∧
      (∀ r, r ∈ S2.Rows → r.Name ≠ (c10Store.row 0).Name) ∧
      ∃ op, op ∈ S2.psOpList ∧ op.OpType = psopNbRow ∧
        op.Row.Name = (c10Store.row 0).Name) := by
  refine ⟨by decide, ?_⟩
  exact C10_delnbrows_removes_objective c10Store 0 (by decide) (by decide) (by decide)
    (by
      intro k hk hname
      have hk2 : k < 2 := hk
      rcases k with _ | _ | k
      · rfl
      · exact absurd hname (by decide)
      · omega)


/-! Post-solve lemmas for C5, C8 and C9. -/

theorem fcOtherSum_nil (colName : String) (vm : PsResVarMap) :
    fcOtherSum colName [] vm = 0 := rfl

theorem fcOtherSum_cons_ne (colName : String) (c : psCoef) (rest : List psCoef)
    (vm : PsResVarMap) (h : c.Name ≠ colName) :
    fcOtherSum colName (c :: rest) vm =
      ((alGet vm c.Name).elim 0 (fun v => v.Value)) * c.Value +
        fcOtherSum colName rest vm := by
  simp [fcOtherSum, List.filter_cons, h]

theorem fcScan_ok (colName : String) (vm : PsResVarMap) :
    ∀ (coefs : List psCoef) (lhs coef : ℚ),
      (∀ c, c ∈ coefs → c.Name ≠ colName → (alGet vm c.Name).isSome) →
      ∃ p, fcScan colName coefs vm lhs coef = .ok p := by
  intro coefs
  induction coefs with
  | nil =>
    intro lhs coef _
    exact ⟨(lhs, coef), rfl⟩
  | cons c rest ih =>
    intro lhs coef hsome
    by_cases hc : c.Name = colName
    · rw [fcScan, if_pos hc]
      exact ih lhs c.Value (fun d hd => hsome d (List.mem_cons_of_mem c hd))
    · obtain ⟨v, hv⟩ := Option.isSome_iff_exists.mp
        (hsome c (List.mem_cons_self c rest) hc)
      rw [fcScan, if_neg hc, hv]
      exact ih _ coef (fun d hd => hsome d (List.mem_cons_of_mem c hd))

theorem fcScan_ok_absent (colName : String) (vm : PsResVarMap) :
    ∀ (coefs : List psCoef) (lhs coef : ℚ),
      (∀ c, c ∈ coefs → c.Name ≠ colName) →
      (∀ c, c ∈ coefs → (alGet vm c.Name).isSome) →
      fcScan colName coefs vm lhs coef =
        .ok (lhs + fcOtherSum colName coefs vm, coef) := by
  intro coefs
  induction coefs with
  | nil =>
    intro lhs coef _ _
    rw [fcOtherSum_nil, add_zero]
    rfl
  | cons c rest ih =>
    intro lhs coef habs hsome
    have hne : c.Name ≠ colName := habs c (List.mem_cons_self c rest)
    obtain ⟨v, hv⟩ := Option.isSome_iff_exists.mp (hsome c (List.mem_cons_self c rest))
    rw [fcScan, if_neg hne, hv]
    show fcScan colName rest vm (qAdd lhs (qMul v.Value c.Value)) coef = _
    rw [ih _ coef (fun d hd => habs d (List.mem_cons_of_mem c hd))
        (fun d hd => hsome d (List.mem_cons_of_mem c hd)),
      fcOtherSum_cons_ne colName c rest vm hne, hv, qAdd_eq, qMul_eq]
    rw [show (Option.elim (some v) 0 (fun w => w.Value)) = v.Value from rfl]
    rw [Except.ok.injEq, Prod.mk.injEq]
    exact ⟨by ring, rfl⟩

theorem fcScan_error (colName : String) (vm : PsResVarMap) :
    ∀ (coefs : List psCoef) (lhs coef : ℚ),
      (∃ c, c ∈ coefs ∧ c.Name ≠ colName ∧ alGet vm c.Name = none) →
      ∃ e, fcScan colName coefs vm lhs coef = .error e := by
  intro coefs
  induction coefs with
  | nil =>
    intro lhs coef h
    obtain ⟨c, hc, _⟩ := h
    exact absurd hc (List.not_mem_nil c)
  | cons c rest ih =>
    intro lhs coef h
    obtain ⟨d, hd, hdne, hdnone⟩ := h
    by_cases hc : c.Name = colName
    · rw [fcScan, if_pos hc]
      apply ih
      refine ⟨d, ?_, hdne, hdnone⟩
      rcases List.mem_cons.mp hd with he | he
      · exact absurd (he ▸ hc) hdne
      · exact he
    · cases hv : alGet vm c.Name with
      | none =>
        exact ⟨"postSolve unable to find value for " ++ c.Name,
          by rw [fcScan, if_neg hc, hv]⟩
      | some v =>
        rw [fcScan, if_neg hc, hv]
        show ∃ e, fcScan colName rest vm (qAdd lhs (qMul v.Value c.Value)) coef =
          Except.error e
        apply ih
        refine ⟨d, ?_, hdne, hdnone⟩
        rcases List.mem_cons.mp hd with he | he
        · rw [he] at hdnone
          rw [hdnone] at hv
          exact absurd hv (by simp)
        · exact he

theorem getPstLhsAux_ok (vm : PsResVarMap) :
    ∀ (coefs : List psCoef) (acc : ℚ),
      (∀ c, c ∈ coefs → (alGet vm c.Name).isSome) →
      getPstLhsAux vm coefs acc =
        .ok (acc + (coefs.map
          (fun c => ((alGet vm c.Name).elim 0 (fun v => v.Value)) * c.Value)).sum) := by
  intro coefs
  induction coefs with
  | nil =>
    intro acc _
    rw [List.map_nil, List.sum_nil, add_zero]
    rfl
  | cons c rest ih =>
    intro acc hsome
    obtain ⟨v, hv⟩ := Option.isSome_iff_exists.mp (hsome c (List.mem_cons_self c rest))
    rw [getPstLhsAux, hv]
    show getPstLhsAux vm rest (qAdd acc (qMul v.Value c.Value)) = _
    rw [ih _ (fun d hd => hsome d (List.mem_cons_of_mem c hd)),
      List.map_cons, List.sum_cons, hv, qAdd_eq, qMul_eq]
    rw [show (Option.elim (some v) 0 (fun w => w.Value)) = v.Value from rfl]
    rw [Except.ok.injEq]
    ring

theorem getPstLhsAux_error (vm : PsResVarMap) :
    ∀ (coefs : List psCoef) (acc : ℚ),
      (∃ c, c ∈ coefs ∧ alGet vm c.Name = none) →
      ∃ e, getPstLhsAux vm coefs acc = .error e := by
  intro coefs
  induction coefs with
  | nil =>
    intro acc h
    obtain ⟨c, hc, _⟩ := h
    exact absurd hc (List.not_mem_nil c)
  | cons c rest ih =>
    intro acc h
    obtain ⟨d, hd, hdnone⟩ := h
    cases hv : alGet vm c.Name with
    | none =>
      exact ⟨"Failed to find LHS for " ++ c.Name, by rw [getPstLhsAux, hv]⟩
    | some v =>
      rw [getPstLhsAux, hv]
      show ∃ e, getPstLhsAux vm rest (qAdd acc (qMul v.Value c.Value)) = Except.error e
      apply ih
      refine ⟨d, ?_, hdnone⟩
      rcases List.mem_cons.mp hd with he | he
      · rw [he] at hdnone
        rw [hdnone] at hv
        exact absurd hv (by simp)
      · exact he


/-- C5 (amended): the postSolve reverse walk performs no reconstruction for
EmptyRow (MTR) and NbRow (NBR) ledger entries, leaving both maps unchanged;
for an EmptyCol (MTC) entry it leaves the constraint map unchanged but does
reconstruct the variable: it inserts the captured column into the variable
map with value 0, reduced cost 0, status NA and the captured scale factor. -/
theorem C5_mtr_nbr_frame_mtc_inserts (op : psOp) (cm : PsResConMap)
    (vm : PsResVarMap) :
    ((op.OpType = psopEmptyRow ∨ op.OpType = psopNbRow) →
      postSolveStep op cm vm = .ok (cm, vm)) ∧
    (op.OpType = psopEmptyCol →
      postSolveStep op cm vm = .ok (cm, alSet vm op.Col.Name
        { Status := psVarStatNA, Value := 0,
          ScaleFactor := op.Col.ScaleFactor, ReducedCost := 0 })) := by
  constructor
  · intro h
    unfold postSolveStep
    rw [if_pos h]
  · intro h
    have h1 : ¬ (op.OpType = psopEmptyRow ∨ op.OpType = psopNbRow) := by
      rw [h]
      decide
    have h2 : ¬ (op.OpType = psopFixedVar) := by
      rw [h]
      decide
    unfold postSolveStep
    rw [if_neg h1, if_neg h2, if_pos h]

/-- Witness for C5 at an MTR entry and at the MTC entry c5MtcOp. -/
theorem C5_mtr_nbr_frame_mtc_inserts_witness :
    postSolveStep ⟨psopEmptyRow, zeroPsCol, zeroPsRow⟩ [] [] = .ok ([], []) ∧
    postSolveStep c5MtcOp [] [] = .ok ([], alSet [] c5MtcOp.Col.Name
      { Status := psVarStatNA, Value := 0,
        ScaleFactor := c5MtcOp.Col.ScaleFactor, ReducedCost := 0 }) :=
  ⟨(C5_mtr_nbr_frame_mtc_inserts ⟨psopEmptyRow, zeroPsCol, zeroPsRow⟩ [] []).1
      (Or.inl rfl),
   (C5_mtr_nbr_frame_mtc_inserts c5MtcOp [] []).2 rfl⟩

/-- C8: the objective epilogue of CplexSolveProb.  If every variable named
in the pre-reduction objective row is present in the reconstructed variable
map, the returned objective is the weighted sum of the objective
coefficients against the map, times the objective row scale factor, minus
the captured objective-row constant; if some objective-row name is missing
from the map, an error is returned instead. -/
theorem C8_cplex_objective (row : psRow) (vm : PsResVarMap) (const : ℚ) :
    ((∀ c, c ∈ row.Coef → (alGet vm c.Name).isSome) →
      cplexFinalObj row vm const = .ok (objSum row vm * row.ScaleFactor - const)) ∧
    ((∃ c, c ∈ row.Coef ∧ alGet vm c.Name = none) →
      ∃ e, cplexFinalObj row vm const = .error e) := by
  constructor
  · intro hsome
    have h := getPstLhsAux_ok vm row.Coef 0 hsome
    unfold cplexFinalObj getPstLhs
    rw [h]
    show Except.ok (qSub (qMul (0 + _) row.ScaleFactor) const) = _
    rw [qSub_eq, qMul_eq, zero_add]
    rfl
  · intro hmiss
    obtain ⟨e, he⟩ := getPstLhsAux_error vm row.Coef 0 hmiss
    refine ⟨e, ?_⟩
    unfold cplexFinalObj getPstLhs
    rw [he]

/-- Witness for C8 at the objective row x + y with variable map
x = 3, y = 2: the objective comes out as (3 + 2)·1 − 0 = 5. -/
theorem C8_cplex_objective_witness :
    ((∀ c, c ∈ c8ObjRow.Coef → (alGet c8VarMap c.Name).isSome) ∧
      cplexFinalObj c8ObjRow c8VarMap 0 =
        .ok (objSum c8ObjRow c8VarMap * c8ObjRow.ScaleFactor - 0)) ∧
    (∃ c, c ∈ c8ObjRow.Coef ∧ alGet ([] : PsResVarMap) c.Name = none) ∧
    (∃ e, cplexFinalObj c8ObjRow [] 0 = .error e) ∧
    objSum c8ObjRow c8VarMap * c8ObjRow.ScaleFactor - 0 = 5 :=
  ⟨⟨by decide, (C8_cplex_objective c8ObjRow c8VarMap 0).1 (by decide)⟩,
   ⟨⟨"x", 1⟩, by decide, rfl⟩,
   (C8_cplex_objective c8ObjRow [] 0).2 ⟨⟨"x", 1⟩, by decide, rfl⟩,
   by
    have hx : alGet c8VarMap "x" = some ⟨"NA", 3, 1, 0⟩ := by decide
    have hy : alGet c8VarMap "y" = some ⟨"NA", 2, 1, 0⟩ := by decide
    rw [show objSum c8ObjRow c8VarMap =
      ((alGet c8VarMap "x").elim 0 (fun v => v.Value)) * 1 +
        (((alGet c8VarMap "y").elim 0 (fun v => v.Value)) * 1 + 0) from rfl,
      hx, hy]
    norm_num
    rfl⟩

/-- C9: for a FreeCol ledger entry, postSolve errors exactly when some
variable of the captured row other than the eliminated column is missing
from the variable map; no check is made that the eliminated column occurs
in the captured coefficient list, so when its name is absent the walk
succeeds and stores (rhs − lhs) divided by the zero coefficient as the
reconstructed value.  A RowSingleton entry, in contrast, errors whenever
the first matching coefficient lookup yields 0 (not found, or found 0). -/
theorem C9_freecol_missing_coef (op rs : psOp) (cm : PsResConMap)
    (vm : PsResVarMap) (hty : op.OpType = psopFreeCol)
    (hrs : rs.OpType = psopRowSingltn) :
    ((∃ e, postSolveStep op cm vm = .error e) ↔
      (∃ c, c ∈ op.Row.Coef ∧ c.Name ≠ op.Col.Name ∧ alGet vm c.Name = none)) ∧
    ((∀ c, c ∈ op.Row.Coef → c.Name ≠ op.Col.Name) →
     (∀ c, c ∈ op.Row.Coef → (alGet vm c.Name).isSome) →
      postSolveStep op cm vm = .ok
        (alSet cm op.Row.Name
          { Status := psConStatNA, Typ := op.Row.Typ, Rhs := op.Row.Rhs,
            ScaleFactor := op.Row.ScaleFactor, Pi := 0, Slack := 0, Dual := 0 },
         alSet vm op.Col.Name
          { Status := psVarStatNA,
            Value := qDiv (qSub op.Row.Rhs
              (fcOtherSum op.Col.Name op.Row.Coef vm)) 0,
            ScaleFactor := op.Col.ScaleFactor, ReducedCost := 0 })) ∧
    (firstCoefVal rs.Col.Name rs.Row.Coef = 0 →
      postSolveStep rs cm vm = .error "postSolve unable to find coefficient") := by
  have hno1 : ¬ (op.OpType = psopEmptyRow ∨ op.OpType = psopNbRow) := by
    rw [hty]
    decide
  have hno2 : ¬ (op.OpType = psopFixedVar) := by
    rw [hty]
    decide
  have hno3 : ¬ (op.OpType = psopEmptyCol) := by
    rw [hty]
    decide
  refine ⟨⟨?_, ?_⟩, ?_, ?_⟩
  · intro herr
    by_contra hmiss
    push_neg at hmiss
    have hsome : ∀ c, c ∈ op.Row.Coef → c.Name ≠ op.Col.Name →
        (alGet vm c.Name).isSome := by
      intro c hc hne
      exact Option.ne_none_iff_isSome.mp (hmiss c hc hne)
    obtain ⟨p, hp⟩ := fcScan_ok op.Col.Name vm op.Row.Coef 0 0 hsome
    obtain ⟨e, he⟩ := herr
    rw [show postSolveStep op cm vm =
        (match fcScan op.Col.Name op.Row.Coef vm 0 0 with
         | .error e => .error e
         | .ok (lhs, coef) =>
           .ok (alSet cm op.Row.Name
                 { Status := psConStatNA, Typ := op.Row.Typ, Rhs := op.Row.Rhs,
                   ScaleFactor := op.Row.ScaleFactor, Pi := 0, Slack := 0, Dual := 0 },
               alSet vm op.Col.Name
                 { Status := psVarStatNA, Value := qDiv (qSub op.Row.Rhs lhs) coef,
                   ScaleFactor := op.Col.ScaleFactor, ReducedCost := 0 })) from by
      unfold postSolveStep
      rw [if_neg hno1, if_neg hno2, if_neg hno3, if_pos hty]] at he
    rw [hp] at he
    exact absurd he (by simp)
  · intro hmiss
    obtain ⟨e, he⟩ := fcScan_error op.Col.Name vm op.Row.Coef 0 0 hmiss
    refine ⟨e, ?_⟩
    unfold postSolveStep
    rw [if_neg hno1, if_neg hno2, if_neg hno3, if_pos hty, he]
  · intro habs hsome
    have hscan := fcScan_ok_absent op.Col.Name vm op.Row.Coef 0 0 habs hsome
    unfold postSolveStep
    rw [if_neg hno1, if_neg hno2, if_neg hno3, if_pos hty, hscan, zero_add]
  · intro h0
    have hno1' : ¬ (rs.OpType = psopEmptyRow ∨ rs.OpType = psopNbRow) := by
      rw [hrs]
      decide
    have hno2' : ¬ (rs.OpType = psopFixedVar) := by
      rw [hrs]
      decide
    have hno3' : ¬ (rs.OpType = psopEmptyCol) := by
      rw [hrs]
      decide
    have hno4' : ¬ (rs.OpType = psopFreeCol) := by
      rw [hrs]
      decide
    unfold postSolveStep
    rw [if_neg hno1', if_neg hno2', if_neg hno3', if_neg hno4', if_pos hrs]
    show (if firstCoefVal rs.Col.Name rs.Row.Coef = 0 then _ else _) = _
    rw [if_pos h0]

/-- Witness for C9 at the FreeCol entry c9FcOp (eliminated column "gone"
absent from the captured coefficient list, the other variable y present) and
at the RowSingleton entry c9RsgOp (column "gone" absent, so the first-match
lookup yields 0). -/
theorem C9_freecol_missing_coef_witness :
    (¬ ∃ c, c ∈ c9FcOp.Row.Coef ∧ c.Name ≠ c9FcOp.Col.Name ∧
        alGet c9VarMap c.Name = none) ∧
    (¬ ∃ e, postSolveStep c9FcOp [] c9VarMap = .error e) ∧
    postSolveStep c9FcOp [] c9VarMap = .ok
      (alSet [] c9FcOp.Row.Name
        { Status := psConStatNA, Typ := c9FcOp.Row.Typ, Rhs := c9FcOp.Row.Rhs,
          ScaleFactor := c9FcOp.Row.ScaleFactor, Pi := 0, Slack := 0, Dual := 0 },
       alSet c9VarMap c9FcOp.Col.Name
        { Status := psVarStatNA,
          Value := qDiv (qSub c9FcOp.Row.Rhs
            (fcOtherSum c9FcOp.Col.Name c9FcOp.Row.Coef c9VarMap)) 0,
          ScaleFactor := c9FcOp.Col.ScaleFactor, ReducedCost := 0 }) ∧
    firstCoefVal c9RsgOp.Col.Name c9RsgOp.Row.Coef = 0 ∧
    postSolveStep c9RsgOp [] c9VarMap =
      .error "postSolve unable to find coefficient" := by
  have h := C9_freecol_missing_coef c9FcOp c9RsgOp [] c9VarMap rfl rfl
  refine ⟨by decide, ?_, ?_, by decide, h.2.2 (by decide)⟩
  · intro hex
    exact absurd (h.1.mp hex) (by decide)
  · exact h.2.1 (by decide) (by decide)


/-! Splitting List.range at a scan's first trigger, and the C3 theorem. -/

theorem range_split (n i : Nat) (h : i ≤ n) :
    List.range n = List.range i ++ List.range' i (n - i) := by
  have hap := List.range'_append 0 i (n - i) 1
  simp only [one_mul, Nat.zero_add] at hap
  rw [List.range_eq_range', List.range_eq_range']
  nth_rewrite 1 [show n = (n - i) + i from by omega]
  exact hap.symm

theorem range'_cons (s k : Nat) : List.range' s (k + 1) = s :: List.range' (s + 1) k :=
  List.range'_succ s k 1

/-- drsScan ignores a prefix of indices none of which triggers processing
(not active, not a singleton, or not of sense E). -/
theorem drsScan_skip :
    ∀ (xs ys : List Nat) (S : Store),
      (∀ k, k ∈ xs → ¬ drsTrigger S k) →
      drsScan (xs ++ ys) S = drsScan ys S := by
  intro xs
  induction xs with
  | nil =>
    intro ys S _
    rfl
  | cons i rest ih =>
    intro ys S hno
    have hni : ¬ drsTrigger S i := hno i (List.mem_cons_self i rest)
    rw [List.cons_append]
    by_cases h1 : (S.row i).State = stateActive
    · by_cases h2 : (S.row i).HasElems.length = 1
      · have h3 : (S.row i).Typ ≠ "E" := fun he => hni ⟨h1, h2, he⟩
        rw [drsScan, if_neg (not_not_intro h1), if_pos h2, if_pos h3]
        exact ih ys S (fun k hk => hno k (List.mem_cons_of_mem i hk))
      · rw [drsScan, if_neg (not_not_intro h1), if_neg h2]
        exact ih ys S (fun k hk => hno k (List.mem_cons_of_mem i hk))
    · rw [drsScan, if_pos h1]
      exact ih ys S (fun k hk => hno k (List.mem_cons_of_mem i hk))

/-- C3 (amended): when the first triggered singleton of the delRowSingletons
scan is an active equality row whose single element has coefficient exactly
0, the kernel aborts the scan but reports SUCCESS — it returns ok with zero
deletions and the store exactly as it was (so indeed no tagging and no
ledger entry for the offending row, but no error either, contrary to the
claimed error return). -/
theorem C3_zero_coef_scan_aborts_ok (S : Store) (i0 : Nat)
    (hlen : i0 < S.Rows.length)
    (hpre : ∀ k, k < i0 → ¬ drsTrigger S k)
    (hact : (S.row i0).State = stateActive)
    (hsing : (S.row i0).HasElems.length = 1)
    (htyp : (S.row i0).Typ = "E")
    (hzero : (S.elem ((S.row i0).HasElems.getD 0 0)).Value = 0) :
    delRowSingletons S = .ok (0, S) := by
  have hstep : List.range' i0 (S.Rows.length - i0) =
      i0 :: List.range' (i0 + 1) (S.Rows.length - i0 - 1) := by
    rw [show S.Rows.length - i0 = (S.Rows.length - i0 - 1) + 1 from by omega]
    exact range'_cons _ _
  have hscan : drsScan (List.range S.Rows.length) S = .inl S := by
    rw [range_split S.Rows.length i0 (by omega),
      drsScan_skip (List.range i0) _ S (fun k hk => hpre k (List.mem_range.mp hk)),
      hstep, drsScan, if_neg (not_not_intro hact), if_pos hsing,
      if_neg (not_not_intro htyp), if_pos hzero]
  unfold delRowSingletons
  rw [hscan]

/-- Witness for C3 at c3Store, whose first row is the active equality
singleton 0·x = 4. -/
theorem C3_zero_coef_scan_aborts_ok_witness :
    ((c3Store.row 0).State = stateActive ∧
     (c3Store.row 0).HasElems.length = 1 ∧
     (c3Store.row 0).Typ = "E" ∧
     (c3Store.elem ((c3Store.row 0).HasElems.getD 0 0)).Value = 0) ∧
    delRowSingletons c3Store = .ok (0, c3Store) :=
  ⟨by decide,
   C3_zero_coef_scan_aborts_ok c3Store 0 (by decide)
     (fun k hk => absurd hk (by omega)) (by decide) (by decide) (by decide)
     (by decide)⟩


/-! The delFixedVars machinery: the per-row RHS adjustment in isolation, the
scan step, and the characterization of one processed fixed column. -/

/-- The effect of adjustRowRhs on the adjusted row itself, as a pure
function on the row record. -/
def adjRow (r : InputRow) (amtLo amtUp : ℚ) : InputRow :=
  let r1 := if r.RHSlo ≠ -Plinfy then { r with RHSlo := qSub r.RHSlo amtLo } else r
  if r1.RHSup ≠ Plinfy then { r1 with RHSup := qSub r1.RHSup amtUp } else r1

theorem adjustRowRhs_cols (U : Store) (r : Nat) (lo up : ℚ) :
    (adjustRowRhs U r lo up).Cols = U.Cols := by
  unfold adjustRowRhs
  dsimp only
  split
  · split
    · rfl
    · rfl
  · split
    · rfl
    · rfl

theorem adjustRowRhs_elems (U : Store) (r : Nat) (lo up : ℚ) :
    (adjustRowRhs U r lo up).Elems = U.Elems := by
  unfold adjustRowRhs
  dsimp only
  split
  · split
    · rfl
    · rfl
  · split
    · rfl
    · rfl

theorem adjustRowRhs_psOpList (U : Store) (r : Nat) (lo up : ℚ) :
    (adjustRowRhs U r lo up).psOpList = U.psOpList := by
  unfold adjustRowRhs
  dsimp only
  split
  · split
    · rfl
    · rfl
  · split
    · rfl
    · rfl

theorem adjustRowRhs_objRow (U : Store) (r : Nat) (lo up : ℚ) :
    (adjustRowRhs U r lo up).ObjRow = U.ObjRow := by
  unfold adjustRowRhs
  dsimp only
  split
  · split
    · rfl
    · rfl
  · split
    · rfl
    · rfl

theorem adjustRowRhs_rows_length (U : Store) (r : Nat) (lo up : ℚ) :
    (adjustRowRhs U r lo up).Rows.length = U.Rows.length := by
  unfold adjustRowRhs
  dsimp only
  split
  · split
    · rw [updRow_rows_length, updRow_rows_length]
    · rw [updRow_rows_length]
  · split
    · rw [updRow_rows_length]
    · rfl

theorem adjustRowRhs_row_ne (U : Store) (r : Nat) (lo up : ℚ) (r' : Nat)
    (h : r' ≠ r) : (adjustRowRhs U r lo up).row r' = U.row r' := by
  unfold adjustRowRhs
  dsimp only
  split
  · split
    · rw [row_updRow_ne _ _ _ _ (Ne.symm h), row_updRow_ne _ _ _ _ (Ne.symm h)]
    · rw [row_updRow_ne _ _ _ _ (Ne.symm h)]
  · split
    · rw [row_updRow_ne _ _ _ _ (Ne.symm h)]
    · rfl

theorem adjustRowRhs_row_eq (U : Store) (r : Nat) (lo up : ℚ)
    (h : r < U.Rows.length) :
    (adjustRowRhs U r lo up).row r = adjRow (U.row r) lo up := by
  unfold adjustRowRhs adjRow
  dsimp only
  by_cases h1 : (U.row r).RHSlo ≠ -Plinfy
  · rw [if_pos h1, if_pos h1, row_updRow_eq U r _ h]
    by_cases h2 : ({ U.row r with RHSlo := qSub (U.row r).RHSlo lo }).RHSup ≠ Plinfy
    · rw [if_pos h2, if_pos h2, row_updRow_eq _ r _ (by rw [updRow_rows_length]; exact h),
        row_updRow_eq U r _ h]
    · rw [if_neg h2, if_neg h2, row_updRow_eq U r _ h]
  · rw [if_neg h1, if_neg h1]
    by_cases h2 : (U.row r).RHSup ≠ Plinfy
    · rw [if_pos h2, if_pos h2, row_updRow_eq U r _ h]
    · rw [if_neg h2, if_neg h2]


/-- The inner adjustment step of dfvProcess for fixed column i. -/
def dfvAdj (i : Nat) (U : Store) (k : Nat) : Store :=
  adjustRowRhs U ((U.elem k).InRow)
    (qMul (U.col i).BndLo (U.elem k).Value) (qMul (U.col i).BndUp (U.elem k).Value)

/-- One step of the delFixedVars scan. -/
def dfvStep (T : Store) (i : Nat) : Store :=
  if (T.col i).State ≠ stateActive then T
  else if (T.col i).BndLo ≠ (T.col i).BndUp then T
  else dfvProcess T i

theorem delFixedVars_eq_fold (S : Store) :
    delFixedVars S =
      match delTaggedCols ((List.range S.Cols.length).foldl dfvStep S) with
      | .error e => .error e
      | .ok (S2, numDltd) => .ok (numDltd, S2) := rfl

theorem dfvProcess_eq_fold (T : Store) (i : Nat) :
    dfvProcess T i =
      (((updatePsList psopFixedVar (-1) (Int.ofNat i)
          (T.updCol i (fun c => { c with State := stateDelete }))).col i).HasElems).foldl
        (dfvAdj i)
        (updatePsList psopFixedVar (-1) (Int.ofNat i)
          (T.updCol i (fun c => { c with State := stateDelete }))) := rfl

/-- The adjustment fold of dfvProcess: non-host rows are untouched, each
host row (distinct hosts) is adjusted exactly once, all other store
components are unchanged. -/
theorem dfvFold_spec (i : Nat) :
    ∀ (ks : List Nat) (U : Store),
      (∀ k, k ∈ ks → (U.elem k).InRow < U.Rows.length) →
      ((ks.foldl (dfvAdj i) U).Cols = U.Cols ∧
       (ks.foldl (dfvAdj i) U).Elems = U.Elems ∧
       (ks.foldl (dfvAdj i) U).psOpList = U.psOpList ∧
       (ks.foldl (dfvAdj i) U).ObjRow = U.ObjRow ∧
       (ks.foldl (dfvAdj i) U).Rows.length = U.Rows.length) ∧
      (∀ r, r ∉ ks.map (fun k => (U.elem k).InRow) →
        (ks.foldl (dfvAdj i) U).row r = U.row r) ∧
      ((ks.map (fun k => (U.elem k).InRow)).Nodup →
       ∀ k, k ∈ ks → (ks.foldl (dfvAdj i) U).row ((U.elem k).InRow) =
         adjRow (U.row ((U.elem k).InRow))
           (qMul (U.col i).BndLo (U.elem k).Value)
           (qMul (U.col i).BndUp (U.elem k).Value)) := by
  intro ks
  induction ks with
  | nil =>
    intro U _
    exact ⟨⟨rfl, rfl, rfl, rfl, rfl⟩, fun r _ => rfl, fun _ k hk => absurd hk (List.not_mem_nil k)⟩
  | cons k0 rest ih =>
    intro U hlt
    rw [List.foldl_cons]
    have hC : (dfvAdj i U k0).Cols = U.Cols := adjustRowRhs_cols _ _ _ _
    have hE : (dfvAdj i U k0).Elems = U.Elems := adjustRowRhs_elems _ _ _ _
    have hP : (dfvAdj i U k0).psOpList = U.psOpList := adjustRowRhs_psOpList _ _ _ _
    have hO : (dfvAdj i U k0).ObjRow = U.ObjRow := adjustRowRhs_objRow _ _ _ _
    have hL : (dfvAdj i U k0).Rows.length = U.Rows.length :=
      adjustRowRhs_rows_length _ _ _ _
    have helem : ∀ k, (dfvAdj i U k0).elem k = U.elem k := by
      intro k
      show ((dfvAdj i U k0).Elems).getD k dummyElem = U.Elems.getD k dummyElem
      rw [hE]
    have hcol : ∀ c, (dfvAdj i U k0).col c = U.col c := by
      intro c
      show ((dfvAdj i U k0).Cols).getD c dummyCol = U.Cols.getD c dummyCol
      rw [hC]
    have hmapeq : rest.map (fun k => ((dfvAdj i U k0).elem k).InRow) =
        rest.map (fun k => (U.elem k).InRow) :=
      List.map_congr_left (fun a _ => by rw [helem a])
    obtain ⟨⟨c1, c2, c3, c4, c5⟩, hne, hat⟩ := ih (dfvAdj i U k0)
      (fun k hk => by
        rw [helem k, hL]
        exact hlt k (List.mem_cons_of_mem k0 hk))
    refine ⟨⟨c1.trans hC, c2.trans hE, c3.trans hP, c4.trans hO, c5.trans hL⟩, ?_, ?_⟩
    · intro r hr
      rw [List.map_cons] at hr
      have hr1 : r ≠ (U.elem k0).InRow := fun he => hr (he ▸ List.mem_cons_self _ _)
      have hr2 : r ∉ rest.map (fun k => (U.elem k).InRow) :=
        fun hm => hr (List.mem_cons_of_mem _ hm)
      rw [hne r (by rw [hmapeq]; exact hr2)]
      exact adjustRowRhs_row_ne U _ _ _ r hr1
    · intro hnd k hk
      rw [List.map_cons] at hnd
      have hnd1 : (U.elem k0).InRow ∉ rest.map (fun k => (U.elem k).InRow) :=
        (List.nodup_cons.mp hnd).1
      have hnd2 : (rest.map (fun k => (U.elem k).InRow)).Nodup :=
        (List.nodup_cons.mp hnd).2
      rcases List.mem_cons.mp hk with he | he
      · subst he
        rw [hne ((U.elem k).InRow) (by rw [hmapeq]; exact hnd1)]
        exact adjustRowRhs_row_eq U _ _ _ (hlt k (List.mem_cons_self _ _))
      · have hkr : (U.elem k).InRow ∈ rest.map (fun k => (U.elem k).InRow) :=
          List.mem_map_of_mem _ he
        have hkne : (U.elem k).InRow ≠ (U.elem k0).InRow :=
          fun hq => hnd1 (hq ▸ hkr)
        have := hat (by rw [hmapeq]; exact hnd2) k he
        rw [helem k, hcol i] at this
        have hrowne : (dfvAdj i U k0).row ((U.elem k).InRow) =
            U.row ((U.elem k).InRow) := adjustRowRhs_row_ne U _ _ _ _ hkne
        rw [this, hrowne]


/-- Characterization of dfvProcess on a fixed column i: the column is
delete-tagged, an FXV ledger entry capturing its scalar fields is appended,
each distinct host row is RHS-adjusted exactly once by the fixed value times
the element value (per finite side), and nothing else changes. -/
theorem dfvProcess_spec (T : Store) (i : Nat) (hi : i < T.Cols.length)
    (hlt : ∀ k, k ∈ (T.col i).HasElems → (T.elem k).InRow < T.Rows.length)
    (hdist : (((T.col i).HasElems).map (fun k => (T.elem k).InRow)).Nodup) :
    (dfvProcess T i).Cols = T.Cols.set i { T.col i with State := stateDelete } ∧
    (dfvProcess T i).Elems = T.Elems ∧
    (dfvProcess T i).ObjRow = T.ObjRow ∧
    (dfvProcess T i).Rows.length = T.Rows.length ∧
    (dfvProcess T i).psOpList = T.psOpList ++
      [⟨psopFixedVar, ⟨(T.col i).Name, (T.col i).Typ, (T.col i).BndLo,
        (T.col i).BndUp, (T.col i).ScaleFactor⟩, zeroPsRow⟩] ∧
    (∀ r, r ∉ ((T.col i).HasElems).map (fun k => (T.elem k).InRow) →
      (dfvProcess T i).row r = T.row r) ∧
    (∀ k, k ∈ (T.col i).HasElems → (dfvProcess T i).row ((T.elem k).InRow) =
      adjRow (T.row ((T.elem k).InRow))
        (qMul (T.col i).BndLo (T.elem k).Value)
        (qMul (T.col i).BndUp (T.elem k).Value)) := by
  have hT1col : (updatePsList psopFixedVar (-1) (Int.ofNat i)
      (T.updCol i (fun c => { c with State := stateDelete }))).col i =
      { T.col i with State := stateDelete } := by
    rw [col_updatePsList, col_updCol_eq T i _ hi]
  have hT1elem : ∀ k, (updatePsList psopFixedVar (-1) (Int.ofNat i)
      (T.updCol i (fun c => { c with State := stateDelete }))).elem k = T.elem k :=
    fun k => rfl
  have hT1row : ∀ r, (updatePsList psopFixedVar (-1) (Int.ofNat i)
      (T.updCol i (fun c => { c with State := stateDelete }))).row r = T.row r :=
    fun r => rfl
  have hT1colc : (updatePsList psopFixedVar (-1) (Int.ofNat i)
      (T.updCol i (fun c => { c with State := stateDelete }))).Cols =
      T.Cols.set i { T.col i with State := stateDelete } := by
    rw [updatePsList_cols]
    rfl
  have hT1ps : (updatePsList psopFixedVar (-1) (Int.ofNat i)
      (T.updCol i (fun c => { c with State := stateDelete }))).psOpList =
      T.psOpList ++ [⟨psopFixedVar, ⟨(T.col i).Name, (T.col i).Typ,
        (T.col i).BndLo, (T.col i).BndUp, (T.col i).ScaleFactor⟩, zeroPsRow⟩] := by
    rw [updatePsList_col_entry psopFixedVar i _
      (by rw [updCol_cols_length]; exact hi), updCol_psOpList,
      col_updCol_eq T i _ hi]
  have hLlist : ((updatePsList psopFixedVar (-1) (Int.ofNat i)
      (T.updCol i (fun c => { c with State := stateDelete }))).col i).HasElems =
      (T.col i).HasElems := by
    rw [hT1col]
  obtain ⟨⟨c1, c2, c3, c4, c5⟩, hne, hat⟩ :=
    dfvFold_spec i (T.col i).HasElems
      (updatePsList psopFixedVar (-1) (Int.ofNat i)
        (T.updCol i (fun c => { c with State := stateDelete })))
      (fun k hk => by
        rw [hT1elem k, updatePsList_rows, updCol_rows]
        exact hlt k hk)
  rw [dfvProcess_eq_fold, hLlist]
  refine ⟨?_, ?_, ?_, ?_, ?_, ?_, ?_⟩
  · rw [c1]
    exact hT1colc
  · rw [c2, updatePsList_elems, updCol_elems]
  · rw [c4, updatePsList_objRow, updCol_objRow]
  · rw [c5, updatePsList_rows, updCol_rows]
  · rw [c3, hT1ps]
  · intro r hr
    have hmapeq : ((T.col i).HasElems).map (fun k =>
        ((updatePsList psopFixedVar (-1) (Int.ofNat i)
          (T.updCol i (fun c => { c with State := stateDelete }))).elem k).InRow) =
        ((T.col i).HasElems).map (fun k => (T.elem k).InRow) :=
      List.map_congr_left (fun a _ => by rw [hT1elem a])
    rw [hne r (by rw [hmapeq]; exact hr)]
    exact hT1row r
  · intro k hk
    have hmapeq : ((T.col i).HasElems).map (fun k =>
        ((updatePsList psopFixedVar (-1) (Int.ofNat i)
          (T.updCol i (fun c => { c with State := stateDelete }))).elem k).InRow) =
        ((T.col i).HasElems).map (fun k => (T.elem k).InRow) :=
      List.map_congr_left (fun a _ => by rw [hT1elem a])
    have h := hat (by rw [hmapeq]; exact hdist) k hk
    rw [hT1elem k, hT1row, hT1col] at h
    exact h

theorem dfvStep_skip (T : Store) (i : Nat) (h : ¬ dfvTrigger T i) :
    dfvStep T i = T := by
  unfold dfvStep
  by_cases h1 : (T.col i).State = stateActive
  · have h2 : (T.col i).BndLo ≠ (T.col i).BndUp := fun he => h ⟨h1, he⟩
    rw [if_neg (not_not_intro h1), if_pos h2]
  · rw [if_pos h1]

theorem dfvFold_skip :
    ∀ (idxs : List Nat) (T : Store),
      (∀ k, k ∈ idxs → ¬ dfvTrigger T k) → idxs.foldl dfvStep T = T := by
  intro idxs
  induction idxs with
  | nil =>
    intro T _
    rfl
  | cons k rest ih =>
    intro T hno
    rw [List.foldl_cons, dfvStep_skip T k (hno k (List.mem_cons_self k rest))]
    exact ih T (fun d hd => hno d (List.mem_cons_of_mem k hd))


/-- C7: delFixedVars on the unique active fixed column j0 (bounds equal,
distinct host rows): it succeeds; every host row has the fixed value times
the element value subtracted from each finite RHS side (RHSlo only if not
-Plinfy, RHSup only if not Plinfy — the adjRow form); all other rows are
untouched; the column is gone from the store (no surviving column bears its
name); and exactly one FixedVar ledger entry capturing the column's scalar
fields is appended. -/
theorem C7_delfixedvars_algebra (S : Store) (j0 : Nat)
    (hj : j0 < S.Cols.length)
    (hact : (S.col j0).State = stateActive)
    (hfix : (S.col j0).BndLo = (S.col j0).BndUp)
    (honly : ∀ k, k < S.Cols.length → k ≠ j0 → ¬ dfvTrigger S k)
    (hlt : ∀ k, k ∈ (S.col j0).HasElems → (S.elem k).InRow < S.Rows.length)
    (hdist : (((S.col j0).HasElems).map (fun k => (S.elem k).InRow)).Nodup)
    (huniq : ∀ k, k < S.Cols.length → (S.col k).Name = (S.col j0).Name → k = j0) :
    ∃ n S2, delFixedVars S = .ok (n, S2) ∧
      (∀ k, k ∈ (S.col j0).HasElems →
        rview (S2.row ((S.elem k).InRow)) =
          rview (adjRow (S.row ((S.elem k).InRow))
            (qMul (S.col j0).BndLo (S.elem k).Value)
            (qMul (S.col j0).BndLo (S.elem k).Value))) ∧
      (∀ r, r ∉ ((S.col j0).HasElems).map (fun k => (S.elem k).InRow) →
        rview (S2.row r) = rview (S.row r)) ∧
      (∀ c, c ∈ S2.Cols → c.Name ≠ (S.col j0).Name) ∧
      S2.psOpList = S.psOpList ++
        [⟨psopFixedVar, ⟨(S.col j0).Name, (S.col j0).Typ, (S.col j0).BndLo,
          (S.col j0).BndUp, (S.col j0).ScaleFactor⟩, zeroPsRow⟩] := by
  obtain ⟨pC, pE, pO, pL, pP, pNe, pAt⟩ := dfvProcess_spec S j0 hj hlt hdist
  have hcolne : ∀ k, k ≠ j0 → (dfvProcess S j0).col k = S.col k := by
    intro k hk
    show (dfvProcess S j0).Cols.getD k dummyCol = S.Cols.getD k dummyCol
    rw [pC, getD_set_ne _ _ _ _ _ (fun he => hk he.symm)]
  have hcolj0 : (dfvProcess S j0).col j0 = { S.col j0 with State := stateDelete } := by
    show (dfvProcess S j0).Cols.getD j0 dummyCol = _
    rw [pC, getD_set_eq _ _ _ _ hj]
  have hstep : dfvStep S j0 = dfvProcess S j0 := by
    unfold dfvStep
    rw [if_neg (not_not_intro hact), if_neg (not_not_intro hfix)]
  have hsuffix : ∀ k, k ∈ List.range' (j0 + 1) (S.Cols.length - j0 - 1) →
      ¬ dfvTrigger (dfvProcess S j0) k := by
    intro k hk
    have hb := List.mem_range'_1.mp hk
    have hkne : k ≠ j0 := by omega
    unfold dfvTrigger
    rw [hcolne k hkne]
    exact honly k (by omega) hkne
  have hS1 : (List.range S.Cols.length).foldl dfvStep S = dfvProcess S j0 := by
    rw [range_split S.Cols.length j0 (Nat.le_of_lt hj), List.foldl_append,
      dfvFold_skip (List.range j0) S
        (fun k hk => honly k (by have := List.mem_range.mp hk; omega)
          (by have := List.mem_range.mp hk; omega)),
      show List.range' j0 (S.Cols.length - j0) =
        j0 :: List.range' (j0 + 1) (S.Cols.length - j0 - 1) from by
          rw [show S.Cols.length - j0 = (S.Cols.length - j0 - 1) + 1 from by omega]
          exact range'_cons _ _,
      List.foldl_cons, hstep]
    exact dfvFold_skip _ _ hsuffix
  obtain ⟨S2, n, hrun, hperm, hrows, hpsop, hobj, hn⟩ :=
    delTaggedCols_spec (dfvProcess S j0)
  have hrowpt : ∀ r, rview (S2.row r) = rview ((dfvProcess S j0).row r) := by
    intro r
    show rview (S2.Rows.getD r dummyRow) = rview ((dfvProcess S j0).Rows.getD r dummyRow)
    rw [← getD_map rview S2.Rows r dummyRow,
        ← getD_map rview (dfvProcess S j0).Rows r dummyRow, hrows]
  refine ⟨n, S2, ?_, ?_, ?_, ?_, ?_⟩
  · rw [delFixedVars_eq_fold, hS1, hrun]
  · intro k hk
    have h := pAt k hk
    rw [← hfix] at h
    rw [hrowpt, h]
  · intro r hr
    rw [hrowpt, pNe r hr]
  · intro c hc hname
    have h1 : cview c ∈ S2.Cols.map cview := List.mem_map_of_mem cview hc
    have h2 := (List.mem_filter.mp (hperm.mem_iff.mp h1)).1
    have h4 := (List.mem_filter.mp (hperm.mem_iff.mp h1)).2
    obtain ⟨w, hw, hwc⟩ := List.mem_map.mp h2
    obtain ⟨k, hkl, hkw⟩ := List.mem_iff_getElem.mp hw
    have hrowk : (dfvProcess S j0).col k = w := by
      show ((dfvProcess S j0).Cols).getD k dummyCol = w
      rw [List.getD_eq_getElem _ _ hkl]
      exact hkw
    have hklen : k < S.Cols.length := by
      have : (dfvProcess S j0).Cols.length = S.Cols.length := by
        rw [pC, List.length_set]
      omega
    have hkj0 : k = j0 := by
      by_cases hke : k = j0
      · exact hke
      · exfalso
        apply hke
        apply huniq k hklen
        rw [← hcolne k hke, hrowk]
        have : w.Name = c.Name := congrArg ColView.Name hwc
        rw [this, hname]
    have hdel : w.State = stateDelete := by
      rw [← hrowk, hkj0, hcolj0]
    have hst : (cview c).State = stateDelete := by
      rw [← hwc]
      exact hdel
    simp [hst] at h4
  · rw [hpsop, pP]


/-- Witness for C7 at c7Store, whose only fixed column is z = 4 appearing in
rows Ra (coefficient 2, RHSup 10 → 2) and Rb (coefficient −1, RHSlo 3 → 7). -/
theorem C7_delfixedvars_algebra_witness :
    ((c7Store.col 0).State = stateActive ∧
     (c7Store.col 0).BndLo = (c7Store.col 0).BndUp) ∧
    (∃ n S2, delFixedVars c7Store = .ok (n, S2) ∧
      (∀ k, k ∈ (c7Store.col 0).HasElems →
        rview (S2.row ((c7Store.elem k).InRow)) =
          rview (adjRow (c7Store.row ((c7Store.elem k).InRow))
            (qMul (c7Store.col 0).BndLo (c7Store.elem k).Value)
            (qMul (c7Store.col 0).BndLo (c7Store.elem k).Value))) ∧
      (∀ r, r ∉ ((c7Store.col 0).HasElems).map (fun k => (c7Store.elem k).InRow) →
        rview (S2.row r) = rview (c7Store.row r)) ∧
      (∀ c, c ∈ S2.Cols → c.Name ≠ (c7Store.col 0).Name) ∧
      S2.psOpList = c7Store.psOpList ++
        [⟨psopFixedVar, ⟨(c7Store.col 0).Name, (c7Store.col 0).Typ,
          (c7Store.col 0).BndLo, (c7Store.col 0).BndUp,
          (c7Store.col 0).ScaleFactor⟩, zeroPsRow⟩]) :=
  ⟨by decide,
   C7_delfixedvars_algebra c7Store 0 (by decide) (by decide) (by decide)
     (by
       intro k hk hne
       have hk2 : k < 2 := hk
       rcases k with _ | _ | k
       · exact absurd rfl hne
       · decide
       · omega)
     (by decide) (by decide)
     (by
       intro k hk hname
       have hk2 : k < 2 := hk
       rcases k with _ | _ | k
       · rfl
       · exact absurd hname (by decide)
       · omega)⟩


/-! One scan step of delEmptyRows and delEmptyCols, and the C4 theorem. -/

/-- One step of the delEmptyRows scan. -/
def emrStep (T : Store) (i : Nat) : Store :=
  if 0 < (T.row i).HasElems.length ∨ (T.row i).State ≠ stateActive then T
  else
    updatePsList psopEmptyRow (Int.ofNat i) (-1)
      (T.updRow i (fun r => { r with State := stateDelete }))

/-- One step of the delEmptyCols scan. -/
def emcStep (T : Store) (i : Nat) : Store :=
  if 0 < (T.col i).HasElems.length ∨ (T.col i).State ≠ stateActive then T
  else
    updatePsList psopEmptyCol (-1) (Int.ofNat i)
      (T.updCol i (fun c => { c with State := stateDelete }))

theorem delEmptyRows_eq_fold (S : Store) :
    delEmptyRows S =
      match delTaggedRows ((List.range S.Rows.length).foldl emrStep S) with
      | .error e => .error e
      | .ok (S2, numDltd) => .ok (numDltd, S2) := rfl

theorem delEmptyCols_eq_fold (S : Store) :
    delEmptyCols S =
      match delTaggedCols ((List.range S.Cols.length).foldl emcStep S) with
      | .error e => .error e
      | .ok (S2, numDltd) => .ok (numDltd, S2) := rfl

/-- C4 (amended): the scan steps of delNbRows, delEmptyRows, delEmptyCols,
delFixedVars and delRowSingletons all skip a locked row or column exactly as
they skip a delete-tagged one — the step is the identity on the store, so
the item, its bounds and the ledger are untouched; but delFreeColSingls
applies no state test at all: on c4Store it deletes the locked free column
singleton xfree together with its host row and appends an FCS ledger entry
for it. -/
theorem C4_kernels_skip_locked_except_fcs (T : Store) (i : Nat) :
    ((T.col i).State = stateLocked → dfvStep T i = T) ∧
    ((T.row i).State = stateLocked → nbStep T i = T) ∧
    ((T.row i).State = stateLocked → emrStep T i = T) ∧
    ((T.col i).State = stateLocked → emcStep T i = T) ∧
    (∀ rest, (T.row i).State = stateLocked →
      drsScan (i :: rest) T = drsScan rest T) ∧
    ((T.col i).State = stateDelete → dfvStep T i = T) ∧
    ((T.row i).State = stateDelete → nbStep T i = T) ∧
    ((c4Store.col 0).State = stateLocked ∧
      (delFreeColSingls c4Store).toOption.map
        (fun p => (p.1, p.2.Cols.map (fun (c : InputCol) => c.Name),
                   p.2.psOpList.map (fun (o : psOp) => (o.OpType, o.Col.Name)))) =
        some (2, ["y"], [(psopFreeCol, "xfree")])) := by
  refine ⟨?_, ?_, ?_, ?_, ?_, ?_, ?_, by decide⟩
  · intro h
    unfold dfvStep
    rw [if_pos (by rw [h]; decide)]
  · intro h
    unfold nbStep
    rw [if_pos (by rw [h]; decide)]
  · intro h
    unfold emrStep
    rw [if_pos (Or.inr (by rw [h]; decide))]
  · intro h
    unfold emcStep
    rw [if_pos (Or.inr (by rw [h]; decide))]
  · intro rest h
    rw [drsScan, if_pos (by rw [h]; decide)]
  · intro h
    unfold dfvStep
    rw [if_pos (by rw [h]; decide)]
  · intro h
    unfold nbStep
    rw [if_pos (by rw [h]; decide)]

/-- Witness for C4 at c4WitStore: its locked column zlock is skipped by the
delFixedVars scan step while the active fixed column zfix is not. -/
theorem C4_kernels_skip_locked_except_fcs_witness :
    (c4WitStore.col 1).State = stateLocked ∧
    dfvStep c4WitStore 1 = c4WitStore :=
  ⟨by decide,
   (C4_kernels_skip_locked_except_fcs c4WitStore 1).1 (by decide)⟩


/-! The delRowSingletons machinery: the inner adjustment step (which skips
the singleton row itself), its fold, and the characterization of one
processed singleton equality row. -/

/-- The inner adjustment step of drsProcess for singleton row i with pinned
value nb. -/
def drsAdj (i : Nat) (nb : ℚ) (U : Store) (k : Nat) : Store :=
  if i = (U.elem k).InRow then U
  else adjustRowRhs U ((U.elem k).InRow)
    (qMul nb (U.elem k).Value) (qMul nb (U.elem k).Value)

theorem adjRow_frame (r : InputRow) (lo up : ℚ) :
    (adjRow r lo up).Name = r.Name ∧ (adjRow r lo up).Typ = r.Typ ∧
    (adjRow r lo up).State = r.State ∧ (adjRow r lo up).HasElems = r.HasElems ∧
    (adjRow r lo up).ScaleFactor = r.ScaleFactor := by
  unfold adjRow
  dsimp only
  split
  · split
    · exact ⟨rfl, rfl, rfl, rfl, rfl⟩
    · exact ⟨rfl, rfl, rfl, rfl, rfl⟩
  · split
    · exact ⟨rfl, rfl, rfl, rfl, rfl⟩
    · exact ⟨rfl, rfl, rfl, rfl, rfl⟩

theorem drsAdj_cols (i : Nat) (nb : ℚ) (U : Store) (k : Nat) :
    (drsAdj i nb U k).Cols = U.Cols := by
  unfold drsAdj
  split
  · rfl
  · exact adjustRowRhs_cols _ _ _ _

theorem drsAdj_elems (i : Nat) (nb : ℚ) (U : Store) (k : Nat) :
    (drsAdj i nb U k).Elems = U.Elems := by
  unfold drsAdj
  split
  · rfl
  · exact adjustRowRhs_elems _ _ _ _

theorem drsAdj_psOpList (i : Nat) (nb : ℚ) (U : Store) (k : Nat) :
    (drsAdj i nb U k).psOpList = U.psOpList := by
  unfold drsAdj
  split
  · rfl
  · exact adjustRowRhs_psOpList _ _ _ _

theorem drsAdj_objRow (i : Nat) (nb : ℚ) (U : Store) (k : Nat) :
    (drsAdj i nb U k).ObjRow = U.ObjRow := by
  unfold drsAdj
  split
  · rfl
  · exact adjustRowRhs_objRow _ _ _ _

theorem drsAdj_rows_length (i : Nat) (nb : ℚ) (U : Store) (k : Nat) :
    (drsAdj i nb U k).Rows.length = U.Rows.length := by
  unfold drsAdj
  split
  · rfl
  · exact adjustRowRhs_rows_length _ _ _ _

theorem drsAdj_row_ne (i : Nat) (nb : ℚ) (U : Store) (k r : Nat)
    (h : r ≠ (U.elem k).InRow) : (drsAdj i nb U k).row r = U.row r := by
  unfold drsAdj
  split
  · rfl
  · exact adjustRowRhs_row_ne _ _ _ _ _ h

theorem drsAdj_row_self (i : Nat) (nb : ℚ) (U : Store) (k : Nat) :
    (drsAdj i nb U k).row i = U.row i := by
  unfold drsAdj
  split
  · rfl
  · next h => exact adjustRowRhs_row_ne _ _ _ _ _ h

theorem drsAdj_row_eq (i : Nat) (nb : ℚ) (U : Store) (k : Nat)
    (hne : (U.elem k).InRow ≠ i) (hl : (U.elem k).InRow < U.Rows.length) :
    (drsAdj i nb U k).row ((U.elem k).InRow) =
      adjRow (U.row ((U.elem k).InRow))
        (qMul nb (U.elem k).Value) (qMul nb (U.elem k).Value) := by
  unfold drsAdj
  rw [if_neg (fun he => hne he.symm)]
  exact adjustRowRhs_row_eq _ _ _ _ hl

/-- The adjustment fold of drsProcess: the singleton row itself and non-host
rows are untouched, each distinct host row other than the singleton row is
adjusted exactly once, all other store components are unchanged. -/
theorem drsFold_spec (i : Nat) (nb : ℚ) :
    ∀ (ks : List Nat) (U : Store),
      (∀ k, k ∈ ks → (U.elem k).InRow < U.Rows.length) →
      ((ks.foldl (drsAdj i nb) U).Cols = U.Cols ∧
       (ks.foldl (drsAdj i nb) U).Elems = U.Elems ∧
       (ks.foldl (drsAdj i nb) U).psOpList = U.psOpList ∧
       (ks.foldl (drsAdj i nb) U).ObjRow = U.ObjRow ∧
       (ks.foldl (drsAdj i nb) U).Rows.length = U.Rows.length) ∧
      (∀ r, r ∉ ks.map (fun k => (U.elem k).InRow) →
        (ks.foldl (drsAdj i nb) U).row r = U.row r) ∧
      ((ks.foldl (drsAdj i nb) U).row i = U.row i) ∧
      ((ks.map (fun k => (U.elem k).InRow)).Nodup →
       ∀ k, k ∈ ks → (U.elem k).InRow ≠ i →
         (ks.foldl (drsAdj i nb) U).row ((U.elem k).InRow) =
           adjRow (U.row ((U.elem k).InRow))
             (qMul nb (U.elem k).Value) (qMul nb (U.elem k).Value)) := by
  intro ks
  induction ks with
  | nil =>
    intro U _
    exact ⟨⟨rfl, rfl, rfl, rfl, rfl⟩, fun r _ => rfl, rfl,
      fun _ k hk => absurd hk (List.not_mem_nil k)⟩
  | cons k0 rest ih =>
    intro U hlt
    rw [List.foldl_cons]
    have hC : (drsAdj i nb U k0).Cols = U.Cols := drsAdj_cols _ _ _ _
    have hE : (drsAdj i nb U k0).Elems = U.Elems := drsAdj_elems _ _ _ _
    have hP : (drsAdj i nb U k0).psOpList = U.psOpList := drsAdj_psOpList _ _ _ _
    have hO : (drsAdj i nb U k0).ObjRow = U.ObjRow := drsAdj_objRow _ _ _ _
    have hL : (drsAdj i nb U k0).Rows.length = U.Rows.length :=
      drsAdj_rows_length _ _ _ _
    have helem : ∀ k, (drsAdj i nb U k0).elem k = U.elem k := by
      intro k
      show ((drsAdj i nb U k0).Elems).getD k dummyElem = U.Elems.getD k dummyElem
      rw [hE]
    have hmapeq : rest.map (fun k => ((drsAdj i nb U k0).elem k).InRow) =
        rest.map (fun k => (U.elem k).InRow) :=
      List.map_congr_left (fun b _ => by rw [helem b])
    obtain ⟨⟨c1, c2, c3, c4, c5⟩, hne, hself, hat⟩ := ih (drsAdj i nb U k0)
      (fun k hk => by
        rw [helem k, hL]
        exact hlt k (List.mem_cons_of_mem k0 hk))
    refine ⟨⟨c1.trans hC, c2.trans hE, c3.trans hP, c4.trans hO, c5.trans hL⟩,
      ?_, ?_, ?_⟩
    · intro r hr
      rw [List.map_cons] at hr
      have hr1 : r ≠ (U.elem k0).InRow := fun he => hr (he ▸ List.mem_cons_self _ _)
      have hr2 : r ∉ rest.map (fun k => (U.elem k).InRow) :=
        fun hm => hr (List.mem_cons_of_mem _ hm)
      rw [hne r (by rw [hmapeq]; exact hr2)]
      exact drsAdj_row_ne i nb U k0 r hr1
    · rw [hself]
      exact drsAdj_row_self i nb U k0
    · intro hnd k hk hkne
      rw [List.map_cons] at hnd
      have hnd1 : (U.elem k0).InRow ∉ rest.map (fun k => (U.elem k).InRow) :=
        (List.nodup_cons.mp hnd).1
      have hnd2 : (rest.map (fun k => (U.elem k).InRow)).Nodup :=
        (List.nodup_cons.mp hnd).2
      rcases List.mem_cons.mp hk with he | he
      · subst he
        rw [hne ((U.elem k).InRow) (by rw [hmapeq]; exact hnd1)]
        exact drsAdj_row_eq i nb U k hkne (hlt k (List.mem_cons_self _ _))
      · have hkr : (U.elem k).InRow ∈ rest.map (fun k => (U.elem k).InRow) :=
          List.mem_map_of_mem _ he
        have hkne0 : (U.elem k).InRow ≠ (U.elem k0).InRow :=
          fun hq => hnd1 (hq ▸ hkr)
        have h := hat (by rw [hmapeq]; exact hnd2) k he (by rw [helem k]; exact hkne)
        rw [helem k] at h
        have hrowne : (drsAdj i nb U k0).row ((U.elem k).InRow) =
            U.row ((U.elem k).InRow) := drsAdj_row_ne i nb U k0 _ hkne0
        rw [h, hrowne]


/-- Characterization of drsProcess on an equality singleton row i0 with
column x and coefficient a: the row and the column are delete-tagged, every
other distinct host row of x is RHS-adjusted once by (RHSlo/a) times its
coefficient (per finite side), one RSG ledger entry is appended, and nothing
else changes. -/
theorem drsProcess_spec (S : Store) (i0 x : Nat) (a : ℚ)
    (hi : i0 < S.Rows.length)
    (htyp : (S.row i0).Typ = "E")
    (hx : (S.elem ((S.row i0).HasElems.getD 0 0)).InCol = x)
    (ha : (S.elem ((S.row i0).HasElems.getD 0 0)).Value = a)
    (hxlen : x < S.Cols.length)
    (hlt : ∀ k, k ∈ (S.col x).HasElems → (S.elem k).InRow < S.Rows.length)
    (hdist : (((S.col x).HasElems).map (fun k => (S.elem k).InRow)).Nodup) :
    (drsProcess S i0).Elems = S.Elems ∧
    (drsProcess S i0).ObjRow = S.ObjRow ∧
    (drsProcess S i0).Rows.length = S.Rows.length ∧
    (drsProcess S i0).Cols.length = S.Cols.length ∧
    ((drsProcess S i0).row i0 = { S.row i0 with State := stateDelete }) ∧
    (∀ r, r ≠ i0 → r ∉ ((S.col x).HasElems).map (fun k => (S.elem k).InRow) →
      (drsProcess S i0).row r = S.row r) ∧
    (∀ k, k ∈ (S.col x).HasElems → (S.elem k).InRow ≠ i0 →
      (drsProcess S i0).row ((S.elem k).InRow) =
        adjRow (S.row ((S.elem k).InRow))
          (qMul (qDiv (S.row i0).RHSlo a) (S.elem k).Value)
          (qMul (qDiv (S.row i0).RHSlo a) (S.elem k).Value)) ∧
    (((drsProcess S i0).col x).State = stateDelete) ∧
    (((drsProcess S i0).col x).Name = (S.col x).Name) ∧
    (∀ c, c ≠ x → (drsProcess S i0).col c = S.col c) ∧
    (∃ e, (drsProcess S i0).psOpList = S.psOpList ++ [e]) := by
  have hE : drsProcess S i0 =
      updatePsList psopRowSingltn (Int.ofNat i0) (Int.ofNat x) ((((((S.updCol x (fun c => { c with BndLo := qDiv (S.row i0).RHSlo a, BndUp := qDiv (S.row i0).RHSlo a })).col x).HasElems).foldl (drsAdj i0 (qDiv (S.row i0).RHSlo a)) (S.updCol x (fun c => { c with BndLo := qDiv (S.row i0).RHSlo a, BndUp := qDiv (S.row i0).RHSlo a }))).updRow i0 (fun r => { r with State := stateDelete })).updCol x (fun c => { c with State := stateDelete })) := by
    unfold drsProcess
    rw [hx, ha, htyp]
    rfl
  have hElist : ((S.updCol x (fun c => { c with BndLo := qDiv (S.row i0).RHSlo a, BndUp := qDiv (S.row i0).RHSlo a })).col x).HasElems = (S.col x).HasElems := by
    rw [col_updCol_eq S x _ hxlen]
  rw [hElist] at hE
  have hS1colx : (S.updCol x (fun c => { c with BndLo := qDiv (S.row i0).RHSlo a, BndUp := qDiv (S.row i0).RHSlo a })).col x =
      { S.col x with BndLo := qDiv (S.row i0).RHSlo a, BndUp := qDiv (S.row i0).RHSlo a } :=
    col_updCol_eq S x _ hxlen
  have hS1elem : ∀ k, (S.updCol x (fun c => { c with BndLo := qDiv (S.row i0).RHSlo a, BndUp := qDiv (S.row i0).RHSlo a })).elem k = S.elem k := fun k => rfl
  have hS1row : ∀ r, (S.updCol x (fun c => { c with BndLo := qDiv (S.row i0).RHSlo a, BndUp := qDiv (S.row i0).RHSlo a })).row r = S.row r := fun r => rfl
  obtain ⟨⟨c1, c2, c3, c4, c5⟩, hne, hself, hat⟩ :=
    drsFold_spec i0 (qDiv (S.row i0).RHSlo a) (S.col x).HasElems (S.updCol x (fun c => { c with BndLo := qDiv (S.row i0).RHSlo a, BndUp := qDiv (S.row i0).RHSlo a }))
      (fun k hk => by
        rw [hS1elem k, updCol_rows]
        exact hlt k hk)
  have hmapel : ((S.col x).HasElems).map (fun k => ((S.updCol x (fun c => { c with BndLo := qDiv (S.row i0).RHSlo a, BndUp := qDiv (S.row i0).RHSlo a })).elem k).InRow) =
      ((S.col x).HasElems).map (fun k => (S.elem k).InRow) :=
    List.map_congr_left (fun b _ => by rw [hS1elem b])
  have hfoldcol : ∀ c, (((S.col x).HasElems).foldl (drsAdj i0 (qDiv (S.row i0).RHSlo a)) (S.updCol x (fun c => { c with BndLo := qDiv (S.row i0).RHSlo a, BndUp := qDiv (S.row i0).RHSlo a }))).col c = (S.updCol x (fun c => { c with BndLo := qDiv (S.row i0).RHSlo a, BndUp := qDiv (S.row i0).RHSlo a })).col c := by
    intro c
    show (((S.col x).HasElems).foldl (drsAdj i0 (qDiv (S.row i0).RHSlo a)) (S.updCol x (fun c => { c with BndLo := qDiv (S.row i0).RHSlo a, BndUp := qDiv (S.row i0).RHSlo a }))).Cols.getD c dummyCol = (S.updCol x (fun c => { c with BndLo := qDiv (S.row i0).RHSlo a, BndUp := qDiv (S.row i0).RHSlo a })).Cols.getD c dummyCol
    rw [c1]
  have hlen2 : x < ((((S.col x).HasElems).foldl (drsAdj i0 (qDiv (S.row i0).RHSlo a)) (S.updCol x (fun c => { c with BndLo := qDiv (S.row i0).RHSlo a, BndUp := qDiv (S.row i0).RHSlo a }))).updRow i0 (fun r => { r with State := stateDelete })).Cols.length := by
    rw [updRow_cols, c1, updCol_cols_length]
    exact hxlen
  rw [hE]
  refine ⟨?_, ?_, ?_, ?_, ?_, ?_, ?_, ?_, ?_, ?_, ?_⟩
  · rw [updatePsList_elems, updCol_elems, updRow_elems, c2, updCol_elems]
  · rw [updatePsList_objRow, updCol_objRow, updRow_objRow, c4, updCol_objRow]
  · rw [updatePsList_rows, updCol_rows, updRow_rows_length, c5, updCol_rows]
  · rw [updatePsList_cols, updCol_cols_length, updRow_cols, c1, updCol_cols_length]
  · rw [row_updatePsList, row_updCol,
      row_updRow_eq _ i0 _ (by rw [c5, updCol_rows]; exact hi), hself, hS1row i0]
  · intro r hr hrm
    rw [row_updatePsList, row_updCol, row_updRow_ne _ i0 r _ (fun he => hr he.symm),
      hne r (by rw [hmapel]; exact hrm), hS1row r]
  · intro k hk hkne
    have h := hat (by rw [hmapel]; exact hdist) k hk
      (by rw [hS1elem k]; exact hkne)
    rw [hS1elem k, hS1row] at h
    rw [row_updatePsList, row_updCol,
      row_updRow_ne _ i0 _ _ (fun he => hkne he.symm), h]
  · rw [col_updatePsList, col_updCol_eq _ x _ hlen2]
  · rw [col_updatePsList, col_updCol_eq _ x _ hlen2]
    show (((((S.col x).HasElems).foldl (drsAdj i0 (qDiv (S.row i0).RHSlo a)) (S.updCol x (fun c => { c with BndLo := qDiv (S.row i0).RHSlo a, BndUp := qDiv (S.row i0).RHSlo a }))).updRow i0 (fun r => { r with State := stateDelete })).col x).Name = (S.col x).Name
    rw [col_updRow, hfoldcol x, hS1colx]
  · intro c hc
    rw [col_updatePsList, col_updCol_ne _ x c _ (fun he => hc he.symm),
      col_updRow, hfoldcol c, col_updCol_ne S x c _ (fun he => hc he.symm)]
  · obtain ⟨e, he⟩ : ∃ e,
        (updatePsList psopRowSingltn (Int.ofNat i0) (Int.ofNat x) (((((S.col x).HasElems).foldl (drsAdj i0 (qDiv (S.row i0).RHSlo a)) (S.updCol x (fun c => { c with BndLo := qDiv (S.row i0).RHSlo a, BndUp := qDiv (S.row i0).RHSlo a }))).updRow i0 (fun r => { r with State := stateDelete })).updCol x (fun c => { c with State := stateDelete }))).psOpList =
        (((((S.col x).HasElems).foldl (drsAdj i0 (qDiv (S.row i0).RHSlo a)) (S.updCol x (fun c => { c with BndLo := qDiv (S.row i0).RHSlo a, BndUp := qDiv (S.row i0).RHSlo a }))).updRow i0 (fun r => { r with State := stateDelete })).updCol x (fun c => { c with State := stateDelete })).psOpList ++ [e] := ⟨_, rfl⟩
    refine ⟨e, ?_⟩
    rw [he, updCol_psOpList, updRow_psOpList, c3, updCol_psOpList]


theorem getD_mem_of_lt {α : Type} :
    ∀ (l : List α) (n : Nat) (d : α), n < l.length → l.getD n d ∈ l := by
  intro l
  induction l with
  | nil =>
    intro n d h
    exact absurd h (by simp)
  | cons a t ih =>
    intro n d h
    cases n with
    | zero => exact List.mem_cons_self a t
    | succ m =>
      refine List.mem_cons_of_mem a (ih m d ?_)
      simp only [List.length_cons] at h
      omega

/-- C2 (amended): when the model's unique row-singleton trigger is the
active equality row i0 holding a·x = b with a ≠ 0 (b the row's RHSlo), and
the column x has pairwise-distinct host rows, delRowSingletons succeeds and
in the resulting store: every other host row of x survives with the guarded
adjustment applied — (b/a) times its coefficient subtracted from RHSlo
unless that side is -Plinfy and from RHSup unless that side is Plinfy
(adjRow) — every non-host row other than i0 survives untouched, the
singleton row i0 is gone, and the column x is gone. -/
theorem C2_row_singleton_algebra (S : Store) (i0 x : Nat) (a : ℚ)
    (hi : i0 < S.Rows.length)
    (hact : (S.row i0).State = stateActive)
    (hsing : (S.row i0).HasElems.length = 1)
    (htyp : (S.row i0).Typ = "E")
    (hx : (S.elem ((S.row i0).HasElems.getD 0 0)).InCol = x)
    (ha : (S.elem ((S.row i0).HasElems.getD 0 0)).Value = a)
    (hnz : a ≠ 0)
    (hxlen : x < S.Cols.length)
    (honly : ∀ k, k < S.Rows.length → k ≠ i0 → ¬ drsTrigger S k)
    (hlt : ∀ k, k ∈ (S.col x).HasElems → (S.elem k).InRow < S.Rows.length)
    (hdist : (((S.col x).HasElems).map (fun k => (S.elem k).InRow)).Nodup)
    (hrowname : ∀ k, k < S.Rows.length → (S.row k).Name = (S.row i0).Name → k = i0)
    (hcolname : ∀ c, c < S.Cols.length → (S.col c).Name = (S.col x).Name → c = x)
    (hrowstate : ∀ r, r < S.Rows.length → r ≠ i0 → (S.row r).State ≠ stateDelete) :
    ∃ n S3, delRowSingletons S = .ok (n, S3) ∧
      (∀ k, k ∈ (S.col x).HasElems → (S.elem k).InRow ≠ i0 →
        rview (adjRow (S.row ((S.elem k).InRow))
          (qMul (qDiv (S.row i0).RHSlo a) (S.elem k).Value)
          (qMul (qDiv (S.row i0).RHSlo a) (S.elem k).Value)) ∈ S3.Rows.map rview) ∧
      (∀ r, r < S.Rows.length → r ≠ i0 →
        r ∉ ((S.col x).HasElems).map (fun k => (S.elem k).InRow) →
        rview (S.row r) ∈ S3.Rows.map rview) ∧
      (∀ v, v ∈ S3.Rows.map rview → v.Name ≠ (S.row i0).Name) ∧
      (∀ c, c ∈ S3.Cols → c.Name ≠ (S.col x).Name) := by
  obtain ⟨p1, p2, p3, p4, p5, p6, p7, p8, p9, p10, p11⟩ :=
    drsProcess_spec S i0 x a hi htyp hx ha hxlen hlt hdist
  have hview : ∀ k, k ≠ i0 →
      ((drsProcess S i0).row k).Name = (S.row k).Name ∧
      ((drsProcess S i0).row k).State = (S.row k).State ∧
      ((drsProcess S i0).row k).HasElems = (S.row k).HasElems ∧
      ((drsProcess S i0).row k).Typ = (S.row k).Typ := by
    intro k hkne
    by_cases hmem : k ∈ ((S.col x).HasElems).map (fun j => (S.elem j).InRow)
    · obtain ⟨j, hj, hjr⟩ := List.mem_map.mp hmem
      have h := p7 j hj (by rw [hjr]; exact hkne)
      rw [hjr] at h
      rw [h]
      obtain ⟨f1, f2, f3, f4, _⟩ := adjRow_frame (S.row k)
        (qMul (qDiv (S.row i0).RHSlo a) (S.elem j).Value)
        (qMul (qDiv (S.row i0).RHSlo a) (S.elem j).Value)
      exact ⟨f1, f3, f4, f2⟩
    · rw [p6 k hkne hmem]
      exact ⟨rfl, rfl, rfl, rfl⟩
  have hnotrig : ∀ k, k ≠ i0 → k < S.Rows.length →
      ¬ drsTrigger (drsProcess S i0) k := by
    intro k hkne hk ht
    obtain ⟨t1, t2, t3⟩ := ht
    obtain ⟨v0, v1, v2, v3⟩ := hview k hkne
    rw [v1] at t1
    rw [v2] at t2
    rw [v3] at t3
    exact honly k hk hkne ⟨t1, t2, t3⟩
  have hscan : drsScan (List.range S.Rows.length) S = .inr (drsProcess S i0) := by
    rw [range_split S.Rows.length i0 (Nat.le_of_lt hi),
      drsScan_skip (List.range i0) _ S
        (fun k hk => honly k (by have := List.mem_range.mp hk; omega)
          (by have := List.mem_range.mp hk; omega)),
      show List.range' i0 (S.Rows.length - i0) =
        i0 :: List.range' (i0 + 1) (S.Rows.length - i0 - 1) from by
          rw [show S.Rows.length - i0 = (S.Rows.length - i0 - 1) + 1 from by omega]
          exact range'_cons _ _,
      drsScan, if_neg (not_not_intro hact), if_pos hsing,
      if_neg (not_not_intro htyp), ha, if_neg hnz,
      show List.range' (i0 + 1) (S.Rows.length - i0 - 1) =
        List.range' (i0 + 1) (S.Rows.length - i0 - 1) ++ [] from by simp,
      drsScan_skip _ [] (drsProcess S i0)
        (fun k hk => by
          have hb := List.mem_range'_1.mp hk
          exact hnotrig k (by omega) (by omega))]
    rfl
  obtain ⟨S2, n1, hrunR, hpermR, hcolsR, hpsR, hobjR, hnR⟩ :=
    delTaggedRows_spec (drsProcess S i0)
  obtain ⟨S3, n2, hrunC, hpermC, hrowsC, hpsC, hobjC, hnC⟩ :=
    delTaggedCols_spec S2
  have hmemP : ∀ r, r < S.Rows.length →
      rview ((drsProcess S i0).row r) ∈ (drsProcess S i0).Rows.map rview := by
    intro r hr
    exact List.mem_map_of_mem rview (getD_mem_of_lt _ r dummyRow (by rw [p3]; exact hr))
  have hsurv : ∀ r, r < S.Rows.length → r ≠ i0 →
      rview ((drsProcess S i0).row r) ∈ S3.Rows.map rview := by
    intro r hr hrne
    rw [hrowsC]
    refine hpermR.mem_iff.mpr (List.mem_filter.mpr ⟨hmemP r hr, ?_⟩)
    have hst : (rview ((drsProcess S i0).row r)).State ≠ stateDelete := by
      show ((drsProcess S i0).row r).State ≠ stateDelete
      rw [(hview r hrne).2.1]
      exact hrowstate r hr hrne
    simpa using hst
  refine ⟨n1 + n2, S3, ?_, ?_, ?_, ?_, ?_⟩
  · unfold delRowSingletons
    rw [hscan]
    show (match delTaggedRows (drsProcess S i0) with
      | .error e => .error e
      | .ok (T, rowsFound) =>
        match delTaggedCols T with
        | .error e => .error e
        | .ok (T2, colsFound) => .ok (rowsFound + colsFound, T2)) =
      Except.ok (n1 + n2, S3)
    rw [hrunR]
    show (match delTaggedCols S2 with
      | .error e => .error e
      | .ok (T2, colsFound) => Except.ok (n1 + colsFound, T2)) =
      Except.ok (n1 + n2, S3)
    rw [hrunC]
  · intro k hk hkne
    have h := p7 k hk hkne
    have hr := hlt k hk
    have hs := hsurv ((S.elem k).InRow) hr hkne
    rw [h] at hs
    exact hs
  · intro r hr hrne hrm
    have hs := hsurv r hr hrne
    rw [p6 r hrne hrm] at hs
    exact hs
  · intro v hv hname
    rw [hrowsC] at hv
    have h2 := (List.mem_filter.mp (hpermR.mem_iff.mp hv)).1
    have h4 := (List.mem_filter.mp (hpermR.mem_iff.mp hv)).2
    obtain ⟨w, hw, hwv⟩ := List.mem_map.mp h2
    obtain ⟨j, hjl, hjw⟩ := List.mem_iff_getElem.mp hw
    have hrowj : (drsProcess S i0).row j = w := by
      show ((drsProcess S i0).Rows).getD j dummyRow = w
      rw [List.getD_eq_getElem _ _ hjl]
      exact hjw
    have hjlen : j < S.Rows.length := by
      rw [← p3]
      exact hjl
    by_cases hji : j = i0
    · have : w.State = stateDelete := by
        rw [← hrowj, hji, p5]
      have hst : v.State = stateDelete := by
        rw [← hwv]
        exact this
      simp [hst] at h4
    · have hnm : w.Name = (S.row j).Name := by
        rw [← hrowj]
        exact (hview j hji).1
      apply hji
      apply hrowname j hjlen
      have hvw : v.Name = w.Name := by
        rw [← hwv]
        rfl
      rw [← hnm, ← hvw, hname]
  · intro c hc hname
    have h1 : cview c ∈ S3.Cols.map cview := List.mem_map_of_mem cview hc
    have h2 := (List.mem_filter.mp (hpermC.mem_iff.mp h1)).1
    have h4 := (List.mem_filter.mp (hpermC.mem_iff.mp h1)).2
    rw [hcolsR] at h2
    obtain ⟨w, hw, hwc⟩ := List.mem_map.mp h2
    obtain ⟨j, hjl, hjw⟩ := List.mem_iff_getElem.mp hw
    have hcolj : (drsProcess S i0).col j = w := by
      show ((drsProcess S i0).Cols).getD j dummyCol = w
      rw [List.getD_eq_getElem _ _ hjl]
      exact hjw
    have hjlen : j < S.Cols.length := by
      rw [← p4]
      exact hjl
    by_cases hjx : j = x
    · have hst : (cview c).State = stateDelete := by
        rw [← hwc, ← hcolj, hjx]
        exact p8
      simp [hst] at h4
    · apply hjx
      apply hcolname j hjlen
      rw [← p10 j hjx, hcolj]
      have : w.Name = c.Name := congrArg ColView.Name hwc
      rw [this, hname]


/-- Witness for C2 at c2WitStore (2x = 6 next to x + y ≥ 5): the singleton
row R1 and column x are removed, and R3 survives with RHSlo 5 − (6/2)·1 = 2,
its infinite RHSup untouched. -/
theorem C2_row_singleton_algebra_witness :
    ((c2WitStore.row 0).State = stateActive ∧
     (c2WitStore.row 0).HasElems.length = 1 ∧
     (c2WitStore.row 0).Typ = "E" ∧
     (c2WitStore.elem ((c2WitStore.row 0).HasElems.getD 0 0)).Value = 2) ∧
    rview (adjRow (c2WitStore.row 1)
      (qMul (qDiv (c2WitStore.row 0).RHSlo 2) (c2WitStore.elem 1).Value)
      (qMul (qDiv (c2WitStore.row 0).RHSlo 2) (c2WitStore.elem 1).Value)) =
      ⟨"R3", "G", 2, Plinfy, 1, stateActive⟩ ∧
    (∃ n S3, delRowSingletons c2WitStore = .ok (n, S3) ∧
      (∀ k, k ∈ (c2WitStore.col 0).HasElems → (c2WitStore.elem k).InRow ≠ 0 →
        rview (adjRow (c2WitStore.row ((c2WitStore.elem k).InRow))
          (qMul (qDiv (c2WitStore.row 0).RHSlo 2) (c2WitStore.elem k).Value)
          (qMul (qDiv (c2WitStore.row 0).RHSlo 2) (c2WitStore.elem k).Value)) ∈
            S3.Rows.map rview) ∧
      (∀ r, r < c2WitStore.Rows.length → r ≠ 0 →
        r ∉ ((c2WitStore.col 0).HasElems).map (fun k => (c2WitStore.elem k).InRow) →
        rview (c2WitStore.row r) ∈ S3.Rows.map rview) ∧
      (∀ v, v ∈ S3.Rows.map rview → v.Name ≠ (c2WitStore.row 0).Name) ∧
      (∀ c, c ∈ S3.Cols → c.Name ≠ (c2WitStore.col 0).Name)) :=
  ⟨by decide, by decide,
   C2_row_singleton_algebra c2WitStore 0 0 2 (by decide) (by decide) (by decide)
     (by decide) (by decide) (by decide) (by decide) (by decide)
     (by
       intro k hk hne
       have hk2 : k < 2 := hk
       rcases k with _ | _ | k
       · exact absurd rfl hne
       · decide
       · omega)
     (by decide) (by decide)
     (by
       intro k hk hname
       have hk2 : k < 2 := hk
       rcases k with _ | _ | k
       · rfl
       · exact absurd hname (by decide)
       · omega)
     (by
       intro c hc hname
       have hc2 : c < 2 := hc
       rcases c with _ | _ | c
       · rfl
       · exact absurd hname (by decide)
       · omega)
     (by
       intro r hr hne
       have hr2 : r < 2 := hr
       rcases r with _ | _ | r
       · exact absurd rfl hne
       · decide
       · omega)⟩

end Lpo
